import Mathlib

set_option maxHeartbeats 1600000

namespace FlowDecomp

/-! # Embedding of the flow-decomposition program

main.py keeps a directed multigraph as a dict adj mapping each vertex u to
the insertion-ordered list of its outgoing edges (v, [flow]), where the
one-element list is a mutable residual-flow cell.  Since every edge is
appended to the list of its own source vertex in global input order, the
whole mutable state is equivalently one global insertion-ordered edge list,
and adj u is its filtration by source u.  We model the state that way:
an edge is (source, target, residual flow), flows are integers (they are
Python ints, and the program can in fact drive them negative). -/

/-- One edge record: source vertex, target vertex, residual flow. -/
abbrev Edge := ℕ × ℕ × ℤ

/-- The Graph class of main.py: vertex count V (source is 1, sink is V) and
the edge list in insertion order; add_edge appends without merging. -/
structure Graph where
  V : ℕ
  edges : List Edge
deriving DecidableEq, Repr

/-- adj u of main.py: the outgoing edges of u in insertion order. -/
def Graph.adj (g : Graph) (u : ℕ) : List (ℕ × ℤ) :=
  (g.edges.filter (fun e => e.1 = u)).map (fun e => (e.2.1, e.2.2))

/-- The flow of the first edge u -> v in adjacency order, the value read by
the Python idiom of scanning graph.adj u and breaking at the first match of
v.  Scanning the global list for the first edge with source u and target v
visits the same edge, since adj u is the order-preserving filtration. -/
def firstEdgeFlow (es : List Edge) (u v : ℕ) : Option ℤ :=
  match es with
  | [] => none
  | e :: rest =>
    if e.1 = u ∧ e.2.1 = v then some e.2.2 else firstEdgeFlow rest u v

/-- Subtract w from the residual cell of the first edge u -> v in adjacency
order; when no edge matches, the Python inner loop finds nothing and the
state is unchanged. -/
def updateFirst (es : List Edge) (u v : ℕ) (w : ℤ) : List Edge :=
  match es with
  | [] => []
  | e :: rest =>
    if e.1 = u ∧ e.2.1 = v then (e.1, e.2.1, e.2.2 - w) :: rest
    else e :: updateFirst rest u v w

/-- The consecutive vertex pairs of a serialized walk (no wrap-around). -/
def walkPairs (nodes : List ℕ) : List (ℕ × ℕ) := nodes.zip nodes.tail

/-- The consecutive pairs of a cycle vertex list with wrap-around indexing,
exactly the Python expression (nodes i, nodes ((i+1) mod len)). -/
def wrapPairs (nodes : List ℕ) : List (ℕ × ℕ) :=
  (List.range nodes.length).map
    (fun i => (nodes.getD i 0, nodes.getD ((i + 1) % nodes.length) 0))

/-- Subtract w from the first matching edge of every pair in turn (the
subtraction loops of decompose_flow). -/
def subtractPairs (g : Graph) (prs : List (ℕ × ℕ)) (w : ℤ) : Graph :=
  { g with edges := prs.foldl (fun es pr => updateFirst es pr.1 pr.2 w) g.edges }

/-! ## Breadth-first search (find_path and find_path_back) -/

/-- Dictionary lookup in the parent map (an insertion-ordered association
list, mirroring a Python dict whose keys are inserted at most once). -/
def plookup (x : ℕ) : List (ℕ × Option ℕ) → Option (Option ℕ)
  | [] => none
  | kv :: rest => if kv.1 = x then some kv.2 else plookup x rest

/-- parent.get x of Python: a missing key and a stored None both give none. -/
def parentGet (parent : List (ℕ × Option ℕ)) (x : ℕ) : Option ℕ :=
  (plookup x parent).join

/-- The inner for-loop of the BFS: expand vertex u, enqueueing every
positive-flow successor not yet in the parent map and recording u as its
parent, in adjacency order. -/
def expand (g : Graph) (u : ℕ) (qs : List ℕ) (parent : List (ℕ × Option ℕ)) :
    List ℕ × List (ℕ × Option ℕ) :=
  (g.adj u).foldl
    (fun acc vf =>
      if 0 < vf.2 ∧ (plookup vf.1 acc.2).isNone
      then (acc.1 ++ [vf.1], acc.2 ++ [(vf.1, some u)])
      else acc)
    (qs, parent)

/-- The BFS while-loop shared by find_path and find_path_back: dequeue from
the front, break (true) when the target is dequeued, stop (false) when the
queue empties.  The fuel argument only bounds the number of iterations; the
termination lemmas show the chosen fuel is never exhausted. -/
def bfsLoop (g : Graph) (tgt : ℕ) :
    ℕ → List ℕ → List (ℕ × Option ℕ) → Bool × List (ℕ × Option ℕ)
  | 0, _, parent => (false, parent)
  | _ + 1, [], parent => (false, parent)
  | fuel + 1, u :: qs, parent =>
    if u = tgt then (true, parent)
    else
      let st := expand g u qs parent
      bfsLoop g tgt fuel st.1 st.2

/-- Fuel sufficient for any BFS on g: every loop iteration dequeues one
vertex, and at most 1 + (number of edges) vertices are ever enqueued. -/
def bfsFuel (g : Graph) : ℕ := g.edges.length + 2

/-- Minimum accumulator over Option, where none plays float inf. -/
def minOpt (m : Option ℤ) (f : ℤ) : Option ℤ :=
  match m with
  | none => some f
  | some x => some (min x f)

/-- The path-reconstruction while-loop shared by find_path and
find_path_back: walk parent pointers from the target, collecting vertices
in reverse order, and taking the minimum of the first-matching-edge flow of
each traversed pair (skipped at the root, where Python skips the update
because current equals the start vertex).  The branches returning m when a
parent or an edge is missing mirror that the Python inner scan then simply
finds nothing; the BFS invariants show they are never taken. -/
def reconLoop (g : Graph) (parent : List (ℕ × Option ℕ)) (root : ℕ) :
    ℕ → Option ℕ → List ℕ → Option ℤ → List ℕ × Option ℤ
  | 0, _, acc, m => (acc, m)
  | _ + 1, none, acc, m => (acc, m)
  | fuel + 1, some cur, acc, m =>
    let m1 :=
      if cur = root then m
      else
        match parentGet parent cur with
        | none => m
        | some u =>
          match firstEdgeFlow g.edges u cur with
          | none => m
          | some f => minOpt m f
    reconLoop g parent root fuel (parentGet parent cur) (acc ++ [cur]) m1

/-- find_path of main.py.  none is the (None, 0) no-path signal.
some (nodes, some w) is a returned source-to-sink walk of weight w.
some (nodes, none) is the state whose min flow stayed float inf, on which
Python raises OverflowError in int(min_flow) before returning. -/
def findPath (g : Graph) : Option (List ℕ × Option ℤ) :=
  let r := bfsLoop g g.V (bfsFuel g) [1] [(1, none)]
  if r.1 then
    let rec1 := reconLoop g r.2 1 (r.2.length + 1) (some g.V) [] none
    some (rec1.1.reverse, rec1.2)
  else none

/-- find_path_back of find_cycle: BFS from start towards tgt, then the same
reconstruction, finally taking the minimum with the initiating edge's own
flow (which makes the result always a finite integer). -/
def findPathBack (g : Graph) (start tgt : ℕ) (initFlow : ℤ) :
    Option (List ℕ × ℤ) :=
  let r := bfsLoop g tgt (bfsFuel g) [start] [(start, none)]
  if (plookup tgt r.2).isSome then
    let rec1 := reconLoop g r.2 start (r.2.length + 1) (some tgt) [] none
    some (rec1.1.reverse,
      match rec1.2 with
      | none => initFlow
      | some x => min x initFlow)
  else none

/-- The candidate starting edges of find_cycle in scan order: u ascending
from 1 to V, then adjacency (insertion) order within u. -/
def cycleCandidates (g : Graph) : List (ℕ × ℕ × ℤ) :=
  (List.range' 1 g.V).flatMap
    (fun u => (g.adj u).map (fun vf => (u, vf.1, vf.2)))

/-- find_cycle of main.py: for the first positive candidate edge (u, v)
whose back search v to u succeeds with positive minimum, return the cycle
vertex list (u followed by the back path with its final u dropped) and that
minimum. -/
def findCycle (g : Graph) : Option (List ℕ × ℤ) :=
  (cycleCandidates g).findSome? (fun (c : ℕ × ℕ × ℤ) =>
    if 0 < c.2.2 then
      match findPathBack g c.2.1 c.1 c.2.2 with
      | none => none
      | some (nodes, m) =>
        if 0 < m then some ((c.1 :: nodes).dropLast, m) else none
    else none)

/-! ## decompose_flow -/

/-- Outcome of one iteration of the path-extraction loop. -/
inductive PathStep where
  | stop
  | crash
  | next (r : ℤ × List ℕ) (g : Graph)
deriving Repr

/-- One iteration of the first loop of decompose_flow: break on no path or
weight 0, crash when find_path would raise on int(float inf), otherwise
record the path and subtract its weight along its consecutive pairs. -/
def pathStep (g : Graph) : PathStep :=
  match findPath g with
  | none => .stop
  | some (_, none) => .crash
  | some (nodes, some w) =>
    if w = 0 then .stop
    else .next (w, nodes) (subtractPairs g (walkPairs nodes) w)

/-- The path phase run for a given number of iterations: none models the
propagated crash; the boolean records whether the loop reached its natural
break within the allotted iterations. -/
def pathPhase : ℕ → Graph → List (ℤ × List ℕ) →
    Option (List (ℤ × List ℕ) × Graph × Bool)
  | 0, g, acc => some (acc, g, false)
  | fuel + 1, g, acc =>
    match pathStep g with
    | .stop => some (acc, g, true)
    | .crash => none
    | .next r g1 => pathPhase fuel g1 (acc ++ [r])

/-- One iteration of the second loop of decompose_flow: on a found cycle,
append the explicitly closed vertex list (first vertex repeated at the end)
and subtract the weight along the wrap-around pairs of the open list. -/
def cycleStep (g : Graph) : Option ((ℤ × List ℕ) × Graph) :=
  match findCycle g with
  | none => none
  | some (nodes, w) =>
    if w = 0 then none
    else some ((w, nodes ++ [nodes.headD 0]), subtractPairs g (wrapPairs nodes) w)

/-- The cycle phase run for a given number of iterations; the boolean
records whether the loop reached its natural break. -/
def cyclePhase : ℕ → Graph → List (ℤ × List ℕ) →
    List (ℤ × List ℕ) × Graph × Bool
  | 0, g, acc => (acc, g, false)
  | fuel + 1, g, acc =>
    match cycleStep g with
    | none => (acc, g, true)
    | some (r, g1) => cyclePhase fuel g1 (acc ++ [r])

/-- Total residual flow, the termination potential. -/
def totalFlow (g : Graph) : ℤ := (g.edges.map (fun e => e.2.2)).sum

/-- Iteration budget per phase: one more than the total original flow.  The
termination theorems show this suffices on well-formed inputs, so running
decompose_flow with this budget is running it to fixpoint there. -/
def decompFuel (g : Graph) : ℕ := (totalFlow g).toNat + 1

/-- decompose_flow of main.py: the path phase to fixpoint, then the cycle
phase to fixpoint, run with the budget above.  none models the int(inf)
crash; the two booleans record whether each loop reached its break. -/
def decomposeFlow (g : Graph) :
    Option (List (ℤ × List ℕ) × List (ℤ × List ℕ) × Graph × Bool × Bool) :=
  match pathPhase (decompFuel g) g [] with
  | none => none
  | some (P, g1, d1) =>
    let c := cyclePhase (decompFuel g) g1 []
    some (P, c.1, c.2.1, d1, c.2.2)

/-- The state after one path-loop iteration (unchanged at the break, and at
the crash point, where Python stops mutating). -/
def pathIterOnce (g : Graph) : Graph :=
  match pathStep g with
  | .next _ g1 => g1
  | _ => g

/-- The state after one cycle-loop iteration (unchanged at the break). -/
def cycleIterOnce (g : Graph) : Graph :=
  match cycleStep g with
  | some (_, g1) => g1
  | none => g

/-- The state after k path-loop iterations. -/
def pathIter : ℕ → Graph → Graph
  | 0, g => g
  | k + 1, g => pathIter k (pathIterOnce g)

/-- The state after k cycle-loop iterations. -/
def cycleIter : ℕ → Graph → Graph
  | 0, g => g
  | k + 1, g => cycleIter k (cycleIterOnce g)

/-! ## The verifier (score.py) -/

/-- Association-list lookup on (u, v) keys, mirroring a Python dict with
unique keys. -/
def alookup (k : ℕ × ℕ) : List ((ℕ × ℕ) × ℤ) → Option ℤ
  | [] => none
  | kv :: rest => if kv.1 = k then some kv.2 else alookup k rest

/-- Membership test of a Python dict. -/
def hasKey (cal : List ((ℕ × ℕ) × ℤ)) (k : ℕ × ℕ) : Bool :=
  (alookup k cal).isSome

/-- One step of building parse_input's network_flow dict: add to an existing
(u, v) entry, else append a new one. -/
def mergeInto (acc : List ((ℕ × ℕ) × ℤ)) (k : ℕ × ℕ) (f : ℤ) :
    List ((ℕ × ℕ) × ℤ) :=
  if hasKey acc k
  then acc.map (fun kv => if kv.1 = k then (kv.1, kv.2 + f) else kv)
  else acc ++ [(k, f)]

/-- parse_input of score.py: per-(u, v) flow with duplicate declarations
additively merged, in first-occurrence order. -/
def mergeEdges (es : List Edge) : List ((ℕ × ℕ) × ℤ) :=
  es.foldl (fun acc e => mergeInto acc (e.1, e.2.1) e.2.2) []

/-- calculated_flow key update: add w to the entry of key k (a no-op when
the key is absent; the verifier only calls it after its membership check,
the reconstruction rule below uses the no-op to ignore foreign pairs). -/
def bump (cal : List ((ℕ × ℕ) × ℤ)) (k : ℕ × ℕ) (w : ℤ) :
    List ((ℕ × ℕ) × ℤ) :=
  cal.map (fun kv => if kv.1 = k then (kv.1, kv.2 + w) else kv)

/-- The possible outcomes of verify_solution past its parsing block:
err is an uncaught IndexError, retFalse is the Python return False, and
retScore n is a returned integer (0 on flow mismatch, the computed score on
success). -/
inductive VerifyOut where
  | err
  | retFalse
  | retScore (n : ℤ)
deriving DecidableEq, Repr

/-- The accumulation loop over the consecutive pairs of one record: none
signals a pair absent from the original edge set (Python returns False). -/
def addWalk (w : ℤ) : List (ℕ × ℕ) → List ((ℕ × ℕ) × ℤ) →
    Option (List ((ℕ × ℕ) × ℤ))
  | [], cal => some cal
  | pr :: prs, cal =>
    if hasKey cal pr then addWalk w prs (bump cal pr w) else none

/-- The path loop of verify_solution: an empty vertex list hits nodes 0 and
raises IndexError; then the endpoint check against source 1 and sink V;
then the pair accumulation. -/
def procPaths (V : ℕ) : List (ℤ × List ℕ) → List ((ℕ × ℕ) × ℤ) →
    Except VerifyOut (List ((ℕ × ℕ) × ℤ))
  | [], cal => .ok cal
  | (w, nodes) :: ps, cal =>
    match nodes with
    | [] => .error .err
    | h :: _ =>
      if h ≠ 1 ∨ nodes.getLastD 0 ≠ V then .error .retFalse
      else
        match addWalk w (walkPairs nodes) cal with
        | none => .error .retFalse
        | some calc1 => procPaths V ps calc1

/-- The cycle loop of verify_solution: consecutive pairs of the serialized
list only (no wrap-around, no closure or weight check). -/
def procCycles : List (ℤ × List ℕ) → List ((ℕ × ℕ) × ℤ) →
    Except VerifyOut (List ((ℕ × ℕ) × ℤ))
  | [], cal => .ok cal
  | (w, nodes) :: cs, cal =>
    match addWalk w (walkPairs nodes) cal with
    | none => .error .retFalse
    | some calc1 => procCycles cs calc1

/-- verify_solution of score.py from the line source = 1 onwards, applied
to the parsed original flow, the parsed candidate, and the truth-header
reference counts. -/
def verifyCore (V : ℕ) (orig : List ((ℕ × ℕ) × ℤ))
    (paths cycles : List (ℤ × List ℕ)) (refP refC : ℕ) : VerifyOut :=
  match procPaths V paths (orig.map (fun kv => (kv.1, (0 : ℤ)))) with
  | .error e => e
  | .ok c1 =>
    match procCycles cycles c1 with
    | .error e => e
    | .ok c2 =>
      if orig.all (fun kv => (alookup kv.1 c2).getD 0 = kv.2)
      then .retScore (max 1 (40 + (refP : ℤ) + (refC : ℤ) -
        ((paths.length : ℤ) + (cycles.length : ℤ))))
      else .retScore 0

/-- Accumulate w on every pair of a list in turn. -/
def bumpFold (w : ℤ) (prs : List (ℕ × ℕ)) (cal : List ((ℕ × ℕ) × ℤ)) :
    List ((ℕ × ℕ) × ℤ) :=
  prs.foldl (fun c pr => bump c pr w) cal

/-- Accumulate a list of records, each along its consecutive pairs. -/
def recordFold (rs : List (ℤ × List ℕ)) (cal : List ((ℕ × ℕ) × ℤ)) :
    List ((ℕ × ℕ) × ℤ) :=
  rs.foldl (fun c p => bumpFold p.1 (walkPairs p.2) c) cal

/-- The verifier's reconstruction rule in isolation: starting from zero on
every original key, add each record's weight to every consecutive pair it
traverses (paths first, then serialized cycles); a pair outside the
original key set touches no counter. -/
def calcFlowAll (orig : List ((ℕ × ℕ) × ℤ))
    (paths cycles : List (ℤ × List ℕ)) : List ((ℕ × ℕ) × ℤ) :=
  recordFold (paths ++ cycles) (orig.map (fun kv => (kv.1, (0 : ℤ))))

/-- What one verify_solution outcome adds to total_score in the batch loop
of score.py: a returned int adds itself, a returned False adds 0 (Python
int + False), and a raised exception is caught by the except clause so
nothing is added. -/
def contribution : VerifyOut → ℤ
  | .err => 0
  | .retFalse => 0
  | .retScore n => n

/-- The batch accumulation of the main block of score.py over a sequence of
per-fixture outcomes. -/
def runBatch (rs : List VerifyOut) : ℤ :=
  rs.foldl (fun a r => a + contribution r) 0

/-! ## Conditions named by the claims -/

/-- Some candidate path starts off the source or ends off the sink. -/
def badEndpoint (V : ℕ) (paths : List (ℤ × List ℕ)) : Prop :=
  ∃ p ∈ paths, p.2.headD 0 ≠ 1 ∨ p.2.getLastD 0 ≠ V

/-- Every consecutive pair traversed by the candidate, paths then cycles. -/
def allPairs (paths cycles : List (ℤ × List ℕ)) : List (ℕ × ℕ) :=
  paths.flatMap (fun p => walkPairs p.2) ++
    cycles.flatMap (fun c => walkPairs c.2)

/-- Some traversed pair is absent from the original edge set. -/
def absentPair (orig : List ((ℕ × ℕ) × ℤ))
    (paths cycles : List (ℤ × List ℕ)) : Prop :=
  ∃ pr ∈ allPairs paths cycles, pr ∉ orig.map (fun kv => kv.1)

/-- The fully reconstructed flow differs from the original on some original
edge. -/
def flowMismatch (orig : List ((ℕ × ℕ) × ℤ))
    (paths cycles : List (ℤ × List ℕ)) : Prop :=
  ∃ kv ∈ orig, (alookup kv.1 (calcFlowAll orig paths cycles)).getD 0 ≠ kv.2

/-- One of the three verification-failure reasons of the spec. -/
def failureReason (V : ℕ) (orig : List ((ℕ × ℕ) × ℤ))
    (paths cycles : List (ℤ × List ℕ)) : Prop :=
  badEndpoint V paths ∨ absentPair orig paths cycles ∨
    flowMismatch orig paths cycles

/-! ## Well-formedness of input networks -/

/-- No two edges share the same (source, target) pair. -/
def pairsNodup (g : Graph) : Prop :=
  (g.edges.map (fun e => (e.1, e.2.1))).Nodup

/-- Every residual flow is nonnegative. -/
def flowsNonneg (g : Graph) : Prop := ∀ e ∈ g.edges, 0 ≤ e.2.2

/-- Every edge endpoint is a vertex identifier in the range 1..V. -/
def endpointsInRange (g : Graph) : Prop :=
  ∀ e ∈ g.edges, 1 ≤ e.1 ∧ e.1 ≤ g.V ∧ 1 ≤ e.2.1 ∧ e.2.1 ≤ g.V

/-- Flow out of x: the sum of the flows of the edges with source x. -/
def outL (es : List Edge) (x : ℕ) : ℤ :=
  (es.map (fun e => if e.1 = x then e.2.2 else 0)).sum

/-- Flow into x: the sum of the flows of the edges with target x. -/
def inL (es : List Edge) (x : ℕ) : ℤ :=
  (es.map (fun e => if e.2.1 = x then e.2.2 else 0)).sum

/-- Flow excess at x. -/
def excL (es : List Edge) (x : ℕ) : ℤ := outL es x - inL es x

/-- Flow conservation at every vertex other than source and sink. -/
def conservedInternal (g : Graph) : Prop :=
  ∀ x, x ≠ 1 → x ≠ g.V → excL g.edges x = 0

/-- No flow enters the source. -/
def noFlowIntoSource (g : Graph) : Prop :=
  ∀ e ∈ g.edges, e.2.1 = 1 → e.2.2 = 0

/-- No flow leaves the sink. -/
def noFlowOutOfSink (g : Graph) : Prop :=
  ∀ e ∈ g.edges, e.1 = g.V → e.2.2 = 0

/-- The conditions under which the verifier's path loop admits one path
record against a calculated-flow key list K. -/
def pathAdmissible (V : ℕ) (K : List (ℕ × ℕ)) (p : ℤ × List ℕ) : Prop :=
  p.2 ≠ [] ∧ p.2.headD 0 = 1 ∧ p.2.getLastD 0 = V ∧
    ∀ pr ∈ walkPairs p.2, pr ∈ K

/-- The condition under which the verifier's cycle loop admits one cycle
record. -/
def cycleAdmissible (K : List (ℕ × ℕ)) (c : ℤ × List ℕ) : Prop :=
  ∀ pr ∈ walkPairs c.2, pr ∈ K

/-! ## Notions for the breadth-first-search proofs -/

/-- The key list of a parent map. -/
def keysOf (parent : List (ℕ × Option ℕ)) : List ℕ :=
  parent.map (fun kv => kv.1)

/-- The targets of positive-flow edges: every vertex the BFS can ever
enqueue beyond its start. -/
def tgts (g : Graph) : Finset ℕ :=
  ((g.edges.filter (fun e => 0 < e.2.2)).map (fun e => e.2.1)).toFinset

/-- Structural invariants of a BFS parent map rooted at root: keys are
unique, every recorded parent occurs at an earlier index, every entry
witnesses a positive edge from its parent, and the root sits first with no
parent. -/
structure PFacts (g : Graph) (root : ℕ) (parent : List (ℕ × Option ℕ)) :
    Prop where
  keys_nodup : (keysOf parent).Nodup
  parent_prev : ∀ i v u, parent.get? i = some (v, some u) →
    ∃ j, j < i ∧ ∃ w, parent.get? j = some (u, w)
  parent_edge : ∀ v u, (v, some u) ∈ parent →
    ∃ f, (u, v, f) ∈ g.edges ∧ 0 < f
  root_none : ∀ v, (v, none) ∈ parent → v = root
  root_first : parent.get? 0 = some (root, none)

/-- Invariants tying the BFS queue to the parent map: queued vertices are
recorded, and every dequeued (processed) vertex has had all its
positive-flow successors recorded. -/
structure QFacts (g : Graph) (queue : List ℕ)
    (parent : List (ℕ × Option ℕ)) : Prop where
  queue_sub : ∀ v ∈ queue, v ∈ keysOf parent
  processed_closed : ∀ u, u ∈ keysOf parent → u ∉ queue →
    ∀ vf ∈ g.adj u, 0 < vf.2 → vf.1 ∈ keysOf parent

/-! ## Concrete input networks used as test vectors -/

/-- One edge from vertex 2 back into the source; no internal vertices. -/
def cxBackEdge : Graph := ⟨2, [(2, 1, 5)]⟩

/-- Two parallel edges 1 to 2, the first with flow 0. -/
def cxParallelPath : Graph := ⟨2, [(1, 2, 0), (1, 2, 5)]⟩

/-- Parallel edges 1 to 2 plus a return edge, closing a cycle whose
subtraction hits the zero-flow first copy. -/
def cxParallelCycle : Graph := ⟨2, [(1, 2, 0), (1, 2, 5), (2, 1, 5)]⟩

/-- A self-loop at the sink in two parallel copies, the first with flow 0:
the cycle loop subtracts from the first copy and never exhausts the
second. -/
def cxSelfLoop : Graph := ⟨2, [(2, 2, 0), (2, 2, 5)]⟩

/-- Scenario A of the spec: 1 to 2 to 3 carrying 5 units. -/
def exLine : Graph := ⟨3, [(1, 2, 5), (2, 3, 5)]⟩

/-- Bookkeeping tying the verifier's accumulated flow to the residual
state: on every (u, v) pair, accumulated plus residual equals the original
merged flow (pairs carried by none of the three read as zero). -/
def accounts (orig cal : List ((ℕ × ℕ) × ℤ)) (g : Graph) : Prop :=
  ∀ u v : ℕ, (alookup (u, v) cal).getD 0 +
    (firstEdgeFlow g.edges u v).getD 0 = (alookup (u, v) orig).getD 0

/-- Every pair that carries an edge of the graph has a counter in the
accumulated-flow dictionary. -/
def calAligned (cal : List ((ℕ × ℕ) × ℤ)) (g : Graph) : Prop :=
  ∀ u v f, firstEdgeFlow g.edges u v = some f →
    (u, v) ∈ cal.map (fun kv => kv.1)

/-- One residual cell against its earlier self: same endpoints, flow no
larger. -/
def edgeLE (a b : Edge) : Prop := a.1 = b.1 ∧ a.2.1 = b.2.1 ∧ a.2.2 ≤ b.2.2

instance (V : ℕ) (paths : List (ℤ × List ℕ)) :
    Decidable (badEndpoint V paths) := by
  unfold badEndpoint; infer_instance

instance (orig : List ((ℕ × ℕ) × ℤ)) (ps cs : List (ℤ × List ℕ)) :
    Decidable (absentPair orig ps cs) := by
  unfold absentPair; infer_instance

instance (orig : List ((ℕ × ℕ) × ℤ)) (ps cs : List (ℤ × List ℕ)) :
    Decidable (flowMismatch orig ps cs) := by
  unfold flowMismatch; infer_instance

instance (V : ℕ) (orig : List ((ℕ × ℕ) × ℤ)) (ps cs : List (ℤ × List ℕ)) :
    Decidable (failureReason V orig ps cs) := by
  unfold failureReason; infer_instance

instance (g : Graph) : Decidable (pairsNodup g) := by
  unfold pairsNodup; infer_instance

instance (g : Graph) : Decidable (flowsNonneg g) := by
  unfold flowsNonneg; infer_instance

instance (g : Graph) : Decidable (endpointsInRange g) := by
  unfold endpointsInRange; infer_instance

instance (g : Graph) : Decidable (noFlowIntoSource g) := by
  unfold noFlowIntoSource; infer_instance

instance (g : Graph) : Decidable (noFlowOutOfSink g) := by
  unfold noFlowOutOfSink; infer_instance

/-! # Lemmas: calculated-flow dictionaries -/

theorem bump_keys (cal : List ((ℕ × ℕ) × ℤ)) (k : ℕ × ℕ) (w : ℤ) :
    (bump cal k w).map (fun kv => kv.1) = cal.map (fun kv => kv.1) := by
  induction cal with
  | nil => rfl
  | cons h t ih =>
    simp only [bump, List.map_cons] at ih ⊢
    refine congrArg₂ List.cons ?_ ih
    by_cases hh : h.1 = k <;> simp [hh]

theorem alookup_cons (kv : (ℕ × ℕ) × ℤ) (rest : List ((ℕ × ℕ) × ℤ))
    (k : ℕ × ℕ) :
    alookup k (kv :: rest) = if kv.1 = k then some kv.2 else alookup k rest := rfl

theorem bump_cons (h : (ℕ × ℕ) × ℤ) (t : List ((ℕ × ℕ) × ℤ)) (k : ℕ × ℕ)
    (w : ℤ) :
    bump (h :: t) k w =
      (if h.1 = k then (h.1, h.2 + w) else h) :: bump t k w := rfl

theorem alookup_bump_self (cal : List ((ℕ × ℕ) × ℤ)) (k : ℕ × ℕ) (w : ℤ) :
    alookup k (bump cal k w) = (alookup k cal).map (fun x => x + w) := by
  induction cal with
  | nil => rfl
  | cons h t ih =>
    by_cases hh : h.1 = k <;> simp [bump_cons, alookup_cons, hh, ih]

theorem alookup_bump_other (cal : List ((ℕ × ℕ) × ℤ)) (k k1 : ℕ × ℕ) (w : ℤ)
    (hne : k1 ≠ k) :
    alookup k1 (bump cal k w) = alookup k1 cal := by
  induction cal with
  | nil => rfl
  | cons h t ih =>
    by_cases hh : h.1 = k
    · have hx : ¬h.1 = k1 := by rw [hh]; exact fun e => hne e.symm
      have hy : ¬k = k1 := fun e => hne e.symm
      simp [bump_cons, alookup_cons, hh, hx, hy, ih]
    · by_cases hh1 : h.1 = k1 <;>
        simp [bump_cons, alookup_cons, hh, hh1, hne, ih]

theorem alookup_eq_none_iff (cal : List ((ℕ × ℕ) × ℤ)) (k : ℕ × ℕ) :
    alookup k cal = none ↔ k ∉ cal.map (fun kv => kv.1) := by
  induction cal with
  | nil => simp [alookup]
  | cons h t ih =>
    by_cases hh : h.1 = k
    · simp [alookup_cons, hh]
    · have hh2 : ¬k = h.1 := fun e => hh e.symm
      simp [alookup_cons, hh, hh2, ih]

theorem hasKey_iff (cal : List ((ℕ × ℕ) × ℤ)) (k : ℕ × ℕ) :
    hasKey cal k = true ↔ k ∈ cal.map (fun kv => kv.1) := by
  rw [hasKey, Option.isSome_iff_ne_none, ne_eq, alookup_eq_none_iff, not_not]

theorem bumpFold_cons (w : ℤ) (pr : ℕ × ℕ) (prs : List (ℕ × ℕ))
    (cal : List ((ℕ × ℕ) × ℤ)) :
    bumpFold w (pr :: prs) cal = bumpFold w prs (bump cal pr w) := rfl

theorem recordFold_cons (r : ℤ × List ℕ) (rs : List (ℤ × List ℕ))
    (cal : List ((ℕ × ℕ) × ℤ)) :
    recordFold (r :: rs) cal = recordFold rs (bumpFold r.1 (walkPairs r.2) cal) := rfl

theorem recordFold_append (rs1 rs2 : List (ℤ × List ℕ))
    (cal : List ((ℕ × ℕ) × ℤ)) :
    recordFold (rs1 ++ rs2) cal = recordFold rs2 (recordFold rs1 cal) := by
  simp [recordFold, List.foldl_append]

theorem bumpFold_keys (w : ℤ) (prs : List (ℕ × ℕ)) (cal : List ((ℕ × ℕ) × ℤ)) :
    (bumpFold w prs cal).map (fun kv => kv.1) = cal.map (fun kv => kv.1) := by
  induction prs generalizing cal with
  | nil => rfl
  | cons pr prs ih => rw [bumpFold_cons, ih, bump_keys]

theorem recordFold_keys (rs : List (ℤ × List ℕ)) (cal : List ((ℕ × ℕ) × ℤ)) :
    (recordFold rs cal).map (fun kv => kv.1) = cal.map (fun kv => kv.1) := by
  induction rs generalizing cal with
  | nil => rfl
  | cons r rs ih => rw [recordFold_cons, ih, bumpFold_keys]

theorem calcZero_keys (orig : List ((ℕ × ℕ) × ℤ)) :
    (orig.map (fun kv => (kv.1, (0 : ℤ)))).map (fun kv => kv.1) =
      orig.map (fun kv => kv.1) := by
  simp [List.map_map]

theorem addWalk_present (w : ℤ) (prs : List (ℕ × ℕ)) (cal : List ((ℕ × ℕ) × ℤ))
    (h : ∀ pr ∈ prs, pr ∈ cal.map (fun kv => kv.1)) :
    addWalk w prs cal = some (bumpFold w prs cal) := by
  induction prs generalizing cal with
  | nil => rfl
  | cons pr prs ih =>
    have hk : hasKey cal pr = true := (hasKey_iff cal pr).mpr (h pr (by simp))
    rw [addWalk, if_pos hk, bumpFold_cons]
    exact ih (bump cal pr w)
      (fun x hx => by rw [bump_keys]; exact h x (List.mem_cons_of_mem _ hx))

theorem addWalk_some_elim (w : ℤ) (prs : List (ℕ × ℕ))
    (cal c : List ((ℕ × ℕ) × ℤ)) (h : addWalk w prs cal = some c) :
    (∀ pr ∈ prs, pr ∈ cal.map (fun kv => kv.1)) ∧ c = bumpFold w prs cal := by
  induction prs generalizing cal with
  | nil =>
    simp only [addWalk, Option.some_inj] at h
    simp [bumpFold, h]
  | cons pr prs ih =>
    by_cases hk : hasKey cal pr = true
    · rw [addWalk, if_pos hk] at h
      obtain ⟨h1, h2⟩ := ih (bump cal pr w) h
      refine ⟨?_, by rw [bumpFold_cons]; exact h2⟩
      intro x hx
      rcases List.mem_cons.mp hx with rfl | hx
      · exact (hasKey_iff _ _).mp hk
      · have hy := h1 x hx
        rwa [bump_keys] at hy
    · rw [addWalk, if_neg hk] at h
      exact absurd h (by simp)

/-! # Lemmas: the verifier loops -/

theorem procPaths_ok_of (V : ℕ) (ps : List (ℤ × List ℕ))
    (cal : List ((ℕ × ℕ) × ℤ))
    (h : ∀ p ∈ ps, pathAdmissible V (cal.map (fun kv => kv.1)) p) :
    procPaths V ps cal = .ok (recordFold ps cal) := by
  induction ps generalizing cal with
  | nil => rfl
  | cons p ps ih =>
    obtain ⟨w, nodes⟩ := p
    obtain ⟨hne, hh, hl, hprs⟩ := h (w, nodes) (by simp)
    match nodes, hne with
    | h0 :: t, _ =>
      have hh1 : h0 = 1 := by simpa using hh
      have hcond : ¬(h0 ≠ 1 ∨ (h0 :: t).getLastD 0 ≠ V) := by
        push_neg
        exact ⟨hh1, by simpa using hl⟩
      rw [procPaths, if_neg hcond,
        addWalk_present w (walkPairs (h0 :: t)) cal (by simpa using hprs),
        recordFold_cons]
      exact ih (bumpFold w (walkPairs (h0 :: t)) cal)
        (fun q hq => by rw [bumpFold_keys]; exact h q (List.mem_cons_of_mem _ hq))

theorem procPaths_ok_elim (V : ℕ) (ps : List (ℤ × List ℕ))
    (cal c : List ((ℕ × ℕ) × ℤ)) (h : procPaths V ps cal = .ok c) :
    (∀ p ∈ ps, pathAdmissible V (cal.map (fun kv => kv.1)) p) ∧
      c = recordFold ps cal := by
  induction ps generalizing cal with
  | nil =>
    simp only [procPaths] at h
    exact ⟨by simp, by cases h; rfl⟩
  | cons p ps ih =>
    obtain ⟨w, nodes⟩ := p
    match nodes with
    | [] => exact absurd h (by rw [procPaths]; simp)
    | h0 :: t =>
      by_cases hcond : h0 ≠ 1 ∨ (h0 :: t).getLastD 0 ≠ V
      · rw [procPaths, if_pos hcond] at h
        exact absurd h (by simp)
      · rw [procPaths, if_neg hcond] at h
        push_neg at hcond
        cases haw : addWalk w (walkPairs (h0 :: t)) cal with
        | none => rw [haw] at h; exact absurd h (by simp)
        | some cal1 =>
          rw [haw] at h
          obtain ⟨hmem, hcal1⟩ := addWalk_some_elim _ _ _ _ haw
          obtain ⟨hall, hc⟩ := ih cal1 h
          constructor
          · intro q hq
            rcases List.mem_cons.mp hq with rfl | hq
            · exact ⟨by simp, by simpa using hcond.1, by simpa using hcond.2,
                by simpa using hmem⟩
            · have hz := hall q hq
              rwa [hcal1, bumpFold_keys] at hz
          · rw [hc, hcal1, recordFold_cons]

theorem procPaths_error_elim (V : ℕ) (ps : List (ℤ × List ℕ))
    (cal : List ((ℕ × ℕ) × ℤ)) (e : VerifyOut)
    (h : procPaths V ps cal = .error e) :
    e = .err ∨ e = .retFalse := by
  induction ps generalizing cal with
  | nil => exact absurd h (by rw [procPaths]; simp)
  | cons p ps ih =>
    obtain ⟨w, nodes⟩ := p
    match nodes with
    | [] =>
      rw [procPaths] at h
      cases h
      exact Or.inl rfl
    | h0 :: t =>
      by_cases hcond : h0 ≠ 1 ∨ (h0 :: t).getLastD 0 ≠ V
      · rw [procPaths, if_pos hcond] at h
        cases h
        exact Or.inr rfl
      · rw [procPaths, if_neg hcond] at h
        cases haw : addWalk w (walkPairs (h0 :: t)) cal with
        | none =>
          rw [haw] at h
          cases h
          exact Or.inr rfl
        | some cal1 =>
          rw [haw] at h
          exact ih cal1 h

theorem procPaths_err_elim (V : ℕ) (ps : List (ℤ × List ℕ))
    (cal : List ((ℕ × ℕ) × ℤ)) (h : procPaths V ps cal = .error .err) :
    ∃ p ∈ ps, p.2 = ([] : List ℕ) := by
  induction ps generalizing cal with
  | nil => exact absurd h (by rw [procPaths]; simp)
  | cons p ps ih =>
    obtain ⟨w, nodes⟩ := p
    match nodes with
    | [] => exact ⟨(w, []), by simp, rfl⟩
    | h0 :: t =>
      by_cases hcond : h0 ≠ 1 ∨ (h0 :: t).getLastD 0 ≠ V
      · rw [procPaths, if_pos hcond] at h
        exact absurd h (by simp)
      · rw [procPaths, if_neg hcond] at h
        cases haw : addWalk w (walkPairs (h0 :: t)) cal with
        | none => rw [haw] at h; exact absurd h (by simp)
        | some cal1 =>
          rw [haw] at h
          obtain ⟨q, hq, hq2⟩ := ih cal1 h
          exact ⟨q, List.mem_cons_of_mem _ hq, hq2⟩

theorem procCycles_ok_of (cs : List (ℤ × List ℕ)) (cal : List ((ℕ × ℕ) × ℤ))
    (h : ∀ c ∈ cs, cycleAdmissible (cal.map (fun kv => kv.1)) c) :
    procCycles cs cal = .ok (recordFold cs cal) := by
  induction cs generalizing cal with
  | nil => rfl
  | cons c cs ih =>
    obtain ⟨w, nodes⟩ := c
    rw [procCycles,
      addWalk_present w (walkPairs nodes) cal (h (w, nodes) (by simp)),
      recordFold_cons]
    exact ih (bumpFold w (walkPairs nodes) cal)
      (fun q hq => by rw [bumpFold_keys]; exact h q (List.mem_cons_of_mem _ hq))

theorem procCycles_ok_elim (cs : List (ℤ × List ℕ))
    (cal c2 : List ((ℕ × ℕ) × ℤ)) (h : procCycles cs cal = .ok c2) :
    (∀ c ∈ cs, cycleAdmissible (cal.map (fun kv => kv.1)) c) ∧
      c2 = recordFold cs cal := by
  induction cs generalizing cal with
  | nil =>
    simp only [procCycles] at h
    exact ⟨by simp, by cases h; rfl⟩
  | cons c cs ih =>
    obtain ⟨w, nodes⟩ := c
    cases haw : addWalk w (walkPairs nodes) cal with
    | none => rw [procCycles, haw] at h; exact absurd h (by simp)
    | some cal1 =>
      rw [procCycles, haw] at h
      obtain ⟨hmem, hcal1⟩ := addWalk_some_elim _ _ _ _ haw
      obtain ⟨hall, hc⟩ := ih cal1 h
      constructor
      · intro q hq
        rcases List.mem_cons.mp hq with rfl | hq
        · exact hmem
        · have hz := hall q hq
          intro pr hpr
          have := hz pr hpr
          rwa [hcal1, bumpFold_keys] at this
      · rw [hc, hcal1, recordFold_cons]

theorem procCycles_error_elim (cs : List (ℤ × List ℕ))
    (cal : List ((ℕ × ℕ) × ℤ)) (e : VerifyOut)
    (h : procCycles cs cal = .error e) : e = .retFalse := by
  induction cs generalizing cal with
  | nil => exact absurd h (by rw [procCycles]; simp)
  | cons c cs ih =>
    obtain ⟨w, nodes⟩ := c
    cases haw : addWalk w (walkPairs nodes) cal with
    | none =>
      rw [procCycles, haw] at h
      cases h
      rfl
    | some cal1 =>
      rw [procCycles, haw] at h
      exact ih cal1 h

/-! # Lemmas: verify_solution as a whole -/

theorem allcheck_of_not_mismatch (orig : List ((ℕ × ℕ) × ℤ))
    (ps cs : List (ℤ × List ℕ)) (h : ¬ flowMismatch orig ps cs) :
    (orig.all
      (fun kv => (alookup kv.1 (calcFlowAll orig ps cs)).getD 0 = kv.2)) =
      true := by
  rw [List.all_eq_true]
  intro kv hkv
  rw [decide_eq_true_eq]
  by_contra hne
  exact h ⟨kv, hkv, hne⟩

theorem not_mismatch_of_allcheck (orig : List ((ℕ × ℕ) × ℤ))
    (ps cs : List (ℤ × List ℕ))
    (h : (orig.all
      (fun kv => (alookup kv.1 (calcFlowAll orig ps cs)).getD 0 = kv.2)) =
      true) :
    ¬ flowMismatch orig ps cs := by
  rintro ⟨kv, hkv, hne⟩
  exact hne ((decide_eq_true_eq).mp (List.all_eq_true.mp h kv hkv))

theorem verify_not_failure (V : ℕ) (orig : List ((ℕ × ℕ) × ℤ))
    (ps cs : List (ℤ × List ℕ)) (refP refC : ℕ)
    (hne : ∀ p ∈ ps, p.2 ≠ [])
    (hnf : ¬ failureReason V orig ps cs) :
    verifyCore V orig ps cs refP refC =
      .retScore (max 1 (40 + (refP : ℤ) + (refC : ℤ) -
        ((ps.length : ℤ) + (cs.length : ℤ)))) := by
  have hbad : ¬ badEndpoint V ps := fun h => hnf (Or.inl h)
  have habs : ¬ absentPair orig ps cs := fun h => hnf (Or.inr (Or.inl h))
  have hmis : ¬ flowMismatch orig ps cs := fun h => hnf (Or.inr (Or.inr h))
  have hend : ∀ p ∈ ps, p.2.headD 0 = 1 ∧ p.2.getLastD 0 = V := by
    intro p hp
    by_contra hcon
    exact hbad ⟨p, hp, not_and_or.mp hcon⟩
  have hmem : ∀ pr ∈ allPairs ps cs, pr ∈ orig.map (fun kv => kv.1) := by
    intro pr hpr
    by_contra hcon
    exact habs ⟨pr, hpr, hcon⟩
  have hpadm : ∀ p ∈ ps, pathAdmissible V
      ((orig.map (fun kv => (kv.1, (0 : ℤ)))).map (fun kv => kv.1)) p := by
    intro p hp
    refine ⟨hne p hp, (hend p hp).1, (hend p hp).2, ?_⟩
    intro pr hpr
    rw [calcZero_keys]
    refine hmem pr ?_
    unfold allPairs
    exact List.mem_append_left _ (List.mem_flatMap.mpr ⟨p, hp, hpr⟩)
  have hcadm : ∀ c ∈ cs, cycleAdmissible
      ((recordFold ps (orig.map (fun kv => (kv.1, (0 : ℤ))))).map
        (fun kv => kv.1)) c := by
    intro c hc pr hpr
    rw [recordFold_keys, calcZero_keys]
    refine hmem pr ?_
    unfold allPairs
    exact List.mem_append_right _ (List.mem_flatMap.mpr ⟨c, hc, hpr⟩)
  have hcfa : recordFold cs (recordFold ps (orig.map (fun kv => (kv.1, (0 : ℤ))))) =
      calcFlowAll orig ps cs := by
    rw [calcFlowAll, recordFold_append]
  simp only [verifyCore, procPaths_ok_of V ps _ hpadm, procCycles_ok_of cs _ hcadm]
  rw [hcfa, if_pos (allcheck_of_not_mismatch orig ps cs hmis)]

theorem verify_success_elim (V : ℕ) (orig : List ((ℕ × ℕ) × ℤ))
    (ps cs : List (ℤ × List ℕ)) (refP refC : ℕ) (n : ℤ)
    (h : verifyCore V orig ps cs refP refC = .retScore n) (hn : n ≠ 0) :
    ¬ failureReason V orig ps cs ∧
      n = max 1 (40 + (refP : ℤ) + (refC : ℤ) -
        ((ps.length : ℤ) + (cs.length : ℤ))) := by
  unfold verifyCore at h
  split at h
  · rename_i e hp
    rcases procPaths_error_elim V ps _ e hp with rfl | rfl
    · exact absurd h (by simp)
    · exact absurd h (by simp)
  · rename_i c1 hp
    split at h
    · rename_i e hc
      rw [procCycles_error_elim cs c1 e hc] at h
      exact absurd h (by simp)
    · rename_i c2 hc
      obtain ⟨hadm, hc1⟩ := procPaths_ok_elim V ps _ c1 hp
      obtain ⟨hcadm, hc2e⟩ := procCycles_ok_elim cs c1 c2 hc
      have hc2cfa : c2 = calcFlowAll orig ps cs := by
        rw [hc2e, hc1, calcFlowAll, recordFold_append]
      split at h
      · rename_i hall
        have hmax := (VerifyOut.retScore.injEq _ _).mp h.symm
        refine ⟨?_, hmax⟩
        rintro (⟨p, hp2, hor⟩ | ⟨pr, hpr, hnotin⟩ | hm)
        · obtain ⟨-, hh1, hl1, -⟩ := hadm p hp2
          rcases hor with hx | hx
          · exact hx hh1
          · exact hx hl1
        · rcases List.mem_append.mp hpr with hx | hx
          · obtain ⟨p, hp2, hprp⟩ := List.mem_flatMap.mp hx
            obtain ⟨-, -, -, hk⟩ := hadm p hp2
            have hz := hk pr hprp
            rw [calcZero_keys] at hz
            exact hnotin hz
          · obtain ⟨c, hc2m, hprc⟩ := List.mem_flatMap.mp hx
            have hz := hcadm c hc2m pr hprc
            rw [hc1, recordFold_keys, calcZero_keys] at hz
            exact hnotin hz
        · rw [hc2cfa] at hall
          exact not_mismatch_of_allcheck orig ps cs hall hm
      · rename_i hall
        have h0 : (0 : ℤ) = n := (VerifyOut.retScore.injEq _ _).mp h
        exact absurd h0.symm hn

theorem verify_err_elim (V : ℕ) (orig : List ((ℕ × ℕ) × ℤ))
    (ps cs : List (ℤ × List ℕ)) (refP refC : ℕ)
    (h : verifyCore V orig ps cs refP refC = .err) :
    ∃ p ∈ ps, p.2 = ([] : List ℕ) := by
  unfold verifyCore at h
  split at h
  · rename_i e hp
    rw [h] at hp
    exact procPaths_err_elim V ps _ hp
  · rename_i c1 hp
    split at h
    · rename_i e hc
      rw [h] at hc
      have hz := procCycles_error_elim cs c1 _ hc
      exact absurd hz (by simp)
    · rename_i c2 hc
      split at h
      · exact absurd h (by simp)
      · exact absurd h (by simp)

theorem runBatch_eq_sum (rs : List VerifyOut) :
    runBatch rs = (rs.map contribution).sum := by
  suffices H : ∀ a : ℤ,
      rs.foldl (fun a r => a + contribution r) a = a + (rs.map contribution).sum by
    simpa [runBatch] using H 0
  induction rs with
  | nil => intro a; simp
  | cons r rs ih => intro a; simp [ih, add_assoc]

/-! # Claim theorems: the verifier -/

/-- C4 (counterexample): on a parseable candidate whose only path line has a
weight but no vertices, verify_solution raises an IndexError rather than
returning a failure signal, even though the reconstructed flow mismatches
the original; so the failure-signal equivalence fails as universally
stated. -/
theorem c4_counterexample :
    verifyCore 2 [((1, 2), 5)] [((3 : ℤ), ([] : List ℕ))] [] 0 0 =
      VerifyOut.err ∧
    flowMismatch [((1, 2), 5)] [((3 : ℤ), ([] : List ℕ))] [] ∧
    VerifyOut.err ≠ VerifyOut.retFalse ∧
    (∀ n : ℤ, VerifyOut.err ≠ VerifyOut.retScore n) := by
  refine ⟨by decide, by decide, by decide, fun n => by simp⟩

/-- C4 (amended): for every original network and every parseable candidate
in which every path has a nonempty vertex list, verify_solution returns a
failure signal (the Python False, or the score 0) exactly when some path
has bad endpoints, some traversed pair is absent from the original edge
set, or the fully reconstructed flow differs from the original on some
original edge. -/
theorem c4_failure_iff (V : ℕ) (orig : List ((ℕ × ℕ) × ℤ))
    (paths cycles : List (ℤ × List ℕ)) (refP refC : ℕ)
    (hne : ∀ p ∈ paths, p.2 ≠ []) :
    (verifyCore V orig paths cycles refP refC = .retFalse ∨
      verifyCore V orig paths cycles refP refC = .retScore 0) ↔
      failureReason V orig paths cycles := by
  constructor
  · intro hf
    by_contra hnf
    have hv := verify_not_failure V orig paths cycles refP refC hne hnf
    rw [hv] at hf
    rcases hf with h | h
    · exact absurd h (by simp)
    · have h0 := (VerifyOut.retScore.injEq _ _).mp h
      have h1 : (1 : ℤ) ≤ max 1 (40 + (refP : ℤ) + (refC : ℤ) -
          ((paths.length : ℤ) + (cycles.length : ℤ))) := le_max_left _ _
      omega
  · intro hf
    rcases hv : verifyCore V orig paths cycles refP refC with _ | _ | n
    · obtain ⟨p, hp, hp2⟩ := verify_err_elim V orig paths cycles refP refC hv
      exact absurd hp2 (hne p hp)
    · exact Or.inl rfl
    · rcases eq_or_ne n 0 with rfl | hn
      · exact Or.inr rfl
      · exact absurd hf
          (verify_success_elim V orig paths cycles refP refC n hv hn).1

/-- C4 (witness): a concrete mismatching candidate on which both sides of
the equivalence hold. -/
theorem c4_witness :
    (verifyCore 2 [((1, 2), 5)] [((3 : ℤ), [1, 2])] [] 0 0 =
        VerifyOut.retFalse ∨
      verifyCore 2 [((1, 2), 5)] [((3 : ℤ), [1, 2])] [] 0 0 =
        VerifyOut.retScore 0) ↔
      failureReason 2 [((1, 2), 5)] [((3 : ℤ), [1, 2])] [] :=
  c4_failure_iff 2 [((1, 2), 5)] [((3 : ℤ), [1, 2])] [] 0 0 (by decide)

/-- C5: whenever verify_solution succeeds (returns a nonzero score), that
score equals max 1 (40 + referencePathCount + referenceCycleCount minus the
candidate path plus cycle count), and is at least 1. -/
theorem c5_success_score (V : ℕ) (orig : List ((ℕ × ℕ) × ℤ))
    (paths cycles : List (ℤ × List ℕ)) (refP refC : ℕ) (n : ℤ)
    (h : verifyCore V orig paths cycles refP refC = .retScore n)
    (hn : n ≠ 0) :
    n = max 1 (40 + (refP : ℤ) + (refC : ℤ) -
      ((paths.length : ℤ) + (cycles.length : ℤ))) ∧ 1 ≤ n := by
  obtain ⟨-, hmax⟩ := verify_success_elim V orig paths cycles refP refC n h hn
  exact ⟨hmax, hmax ▸ le_max_left _ _⟩

/-- C5 (witness): the scenario-A decomposition scores max 1 40 = 40. -/
theorem c5_witness :
    (40 : ℤ) = max 1 (40 + ((1 : ℕ) : ℤ) + ((0 : ℕ) : ℤ) -
      ((([((5 : ℤ), [1, 2, 3])].length : ℕ) : ℤ) +
        ((([] : List (ℤ × List ℕ)).length : ℕ) : ℤ))) ∧ (1 : ℤ) ≤ 40 :=
  c5_success_score 3 (mergeEdges exLine.edges) [((5 : ℤ), [1, 2, 3])] [] 1 0
    40 (by decide) (by decide)

/-- C7: whenever one of the three verification-failure reasons holds, the
fixture contributes zero to the batch total, and removing it from any batch
leaves every other fixture's processing and the total unchanged. -/
theorem c7_failure_zero (V : ℕ) (orig : List ((ℕ × ℕ) × ℤ))
    (paths cycles : List (ℤ × List ℕ)) (refP refC : ℕ)
    (h : failureReason V orig paths cycles) :
    contribution (verifyCore V orig paths cycles refP refC) = 0 ∧
    ∀ pre post : List VerifyOut,
      runBatch (pre ++ verifyCore V orig paths cycles refP refC :: post) =
        runBatch (pre ++ post) := by
  have hc : contribution (verifyCore V orig paths cycles refP refC) = 0 := by
    rcases hv : verifyCore V orig paths cycles refP refC with _ | _ | n
    · rfl
    · rfl
    · rcases eq_or_ne n 0 with rfl | hn
      · rfl
      · exact absurd h
          (verify_success_elim V orig paths cycles refP refC n hv hn).1
  refine ⟨hc, fun pre post => ?_⟩
  simp [runBatch_eq_sum, hc]

/-- C7 (witness): a concrete flow-mismatch fixture contributes zero and
does not disturb a surrounding batch. -/
theorem c7_witness :
    contribution (verifyCore 2 [((1, 2), 5)] [((3 : ℤ), [1, 2])] [] 0 0) = 0 ∧
    ∀ pre post : List VerifyOut,
      runBatch (pre ++ verifyCore 2 [((1, 2), 5)] [((3 : ℤ), [1, 2])] [] 0 0
        :: post) = runBatch (pre ++ post) :=
  c7_failure_zero 2 [((1, 2), 5)] [((3 : ℤ), [1, 2])] [] 0 0
    (Or.inr (Or.inr (by decide)))

/-- C8 (counterexample): a candidate with a nonpositive weight whose
traversed pairs all exist and whose totals match is nonetheless rejected,
because its path fails the endpoint check; the claimed sufficient condition
omits the endpoint requirement. -/
theorem c8_counterexample :
    (∃ r ∈ [((0 : ℤ), [2, 3])], r.1 ≤ 0) ∧
    (∀ pr ∈ allPairs [((0 : ℤ), [2, 3])] [],
      pr ∈ ([((2, 3), (0 : ℤ))].map (fun kv => kv.1))) ∧
    ¬ flowMismatch [((2, 3), (0 : ℤ))] [((0 : ℤ), [2, 3])] [] ∧
    verifyCore 3 [((2, 3), (0 : ℤ))] [((0 : ℤ), [2, 3])] [] 0 0 =
      VerifyOut.retFalse := by decide

/-- C8 (amended): verify_solution checks neither cycle closure nor weight
positivity: every candidate whose paths are nonempty with correct endpoints,
whose traversed pairs all lie in the original edge set, and whose aggregate
reconstruction matches the original flow is accepted as valid, whatever its
cycle vertex lists (closed or not) and whatever its weights (including zero
and negative ones). -/
theorem c8_accepts_open_walks (V : ℕ) (orig : List ((ℕ × ℕ) × ℤ))
    (paths cycles : List (ℤ × List ℕ)) (refP refC : ℕ)
    (hp : ∀ p ∈ paths, p.2 ≠ [] ∧ p.2.headD 0 = 1 ∧ p.2.getLastD 0 = V)
    (hpairs : ∀ pr ∈ allPairs paths cycles, pr ∈ orig.map (fun kv => kv.1))
    (hm : ¬ flowMismatch orig paths cycles) :
    verifyCore V orig paths cycles refP refC =
      .retScore (max 1 (40 + (refP : ℤ) + (refC : ℤ) -
        ((paths.length : ℤ) + (cycles.length : ℤ)))) := by
  refine verify_not_failure V orig paths cycles refP refC
    (fun p hq => (hp p hq).1) ?_
  rintro (⟨p, hq, hor⟩ | ⟨pr, hpr, hnotin⟩ | hmm1)
  · rcases hor with hx | hx
    · exact hx (hp p hq).2.1
    · exact hx (hp p hq).2.2
  · exact hnotin (hpairs pr hpr)
  · exact hm hmm1

/-- C8 (witness): an unclosed cycle with a negative weight is accepted. -/
theorem c8_witness :
    verifyCore 2 [((1, 2), 1)] [((2 : ℤ), [1, 2])] [((-1 : ℤ), [1, 2])] 0 0 =
      VerifyOut.retScore 38 := by
  have h := c8_accepts_open_walks 2 [((1, 2), 1)] [((2 : ℤ), [1, 2])]
    [((-1 : ℤ), [1, 2])] 0 0 (by decide) (by decide) (by decide)
  simpa using h

/-- C9: on a parseable candidate whose only path line carries just a weight
(empty vertex list), verify_solution raises an out-of-bounds IndexError at
the endpoint check instead of returning the structured failure signal. -/
theorem c9_empty_path_raises :
    verifyCore 2 [((1, 2), 5)] [((3 : ℤ), ([] : List ℕ))] [] 0 0 =
      VerifyOut.err ∧ VerifyOut.err ≠ VerifyOut.retFalse := by decide

/-! # Lemmas: parent maps and adjacency -/

theorem keysOf_cons (kv : ℕ × Option ℕ) (t : List (ℕ × Option ℕ)) :
    keysOf (kv :: t) = kv.1 :: keysOf t := rfl

theorem keysOf_append (a b : List (ℕ × Option ℕ)) :
    keysOf (a ++ b) = keysOf a ++ keysOf b := by
  simp [keysOf]

theorem plookup_cons (kv : ℕ × Option ℕ) (rest : List (ℕ × Option ℕ))
    (x : ℕ) :
    plookup x (kv :: rest) =
      if kv.1 = x then some kv.2 else plookup x rest := rfl

theorem plookup_eq_none_iff (parent : List (ℕ × Option ℕ)) (x : ℕ) :
    plookup x parent = none ↔ x ∉ keysOf parent := by
  induction parent with
  | nil => simp [plookup, keysOf]
  | cons h t ih =>
    by_cases hh : h.1 = x
    · simp [plookup_cons, keysOf_cons, hh]
    · have hh2 : ¬x = h.1 := fun e => hh e.symm
      simp [plookup_cons, keysOf_cons, hh, hh2, ih]

theorem plookup_isSome_iff (parent : List (ℕ × Option ℕ)) (x : ℕ) :
    (plookup x parent).isSome = true ↔ x ∈ keysOf parent := by
  rw [Option.isSome_iff_ne_none, ne_eq, plookup_eq_none_iff, not_not]

theorem plookup_mem (parent : List (ℕ × Option ℕ)) (x : ℕ) (w : Option ℕ)
    (h : plookup x parent = some w) : (x, w) ∈ parent := by
  induction parent with
  | nil => exact absurd h (by simp [plookup])
  | cons kv t ih =>
    rw [plookup_cons] at h
    by_cases hh : kv.1 = x
    · rw [if_pos hh] at h
      cases h
      have hx : (x, kv.2) = kv := by rw [← hh]
      rw [hx]
      exact List.mem_cons_self _ _
    · rw [if_neg hh] at h
      exact List.mem_cons_of_mem _ (ih h)

theorem plookup_of_mem_nodup (parent : List (ℕ × Option ℕ))
    (hnd : (keysOf parent).Nodup) (x : ℕ) (w : Option ℕ)
    (h : (x, w) ∈ parent) : plookup x parent = some w := by
  induction parent with
  | nil => exact absurd h (by simp)
  | cons kv t ih =>
    rw [keysOf_cons, List.nodup_cons] at hnd
    rcases List.mem_cons.mp h with rfl | hmem
    · rw [plookup_cons, if_pos rfl]
    · have hx : x ∈ keysOf t := List.mem_map.mpr ⟨(x, w), hmem, rfl⟩
      have hne : ¬kv.1 = x := fun e => hnd.1 (e ▸ hx)
      rw [plookup_cons, if_neg hne]
      exact ih hnd.2 hmem

theorem get?_plookup (parent : List (ℕ × Option ℕ))
    (hnd : (keysOf parent).Nodup) (i : ℕ) (x : ℕ) (w : Option ℕ)
    (h : parent.get? i = some (x, w)) : plookup x parent = some w :=
  plookup_of_mem_nodup parent hnd x w (List.get?_mem h)

theorem adj_mem_elim (g : Graph) (u : ℕ) (vf : ℕ × ℤ) (h : vf ∈ g.adj u) :
    (u, vf.1, vf.2) ∈ g.edges := by
  unfold Graph.adj at h
  obtain ⟨e, he, heq⟩ := List.mem_map.mp h
  obtain ⟨he1, he2⟩ := List.mem_filter.mp he
  have hu : e.1 = u := by simpa using he2
  obtain ⟨a, b, c⟩ := e
  cases heq
  cases hu
  simpa using he1

theorem adj_mem_intro (g : Graph) (e : Edge) (h : e ∈ g.edges) :
    (e.2.1, e.2.2) ∈ g.adj e.1 := by
  unfold Graph.adj
  exact List.mem_map_of_mem _ (List.mem_filter.mpr ⟨h, by simp⟩)

/-! # Lemmas: one BFS expansion -/

theorem expandFold_spec (g : Graph) (u : ℕ) (l : List (ℕ × ℤ)) :
    ∀ (qs : List ℕ) (parent : List (ℕ × Option ℕ)),
      ∃ news : List ℕ,
        (l.foldl (fun acc vf =>
            if 0 < vf.2 ∧ (plookup vf.1 acc.2).isNone
            then (acc.1 ++ [vf.1], acc.2 ++ [(vf.1, some u)])
            else acc) (qs, parent)) =
          (qs ++ news, parent ++ news.map (fun v => (v, some u))) ∧
        news.Nodup ∧
        (∀ v ∈ news, v ∉ keysOf parent ∧ ∃ vf ∈ l, vf.1 = v ∧ 0 < vf.2) ∧
        (∀ vf ∈ l, 0 < vf.2 → vf.1 ∈ keysOf parent ∨ vf.1 ∈ news) := by
  induction l with
  | nil =>
    intro qs parent
    exact ⟨[], by simp, by simp, by simp, by simp⟩
  | cons vf l ih =>
    intro qs parent
    by_cases hc : 0 < vf.2 ∧ (plookup vf.1 parent).isNone
    · obtain ⟨news, heq, hnd, hnew, hcov⟩ :=
        ih (qs ++ [vf.1]) (parent ++ [(vf.1, some u)])
      have hvfkeys : vf.1 ∈ keysOf (parent ++ [(vf.1, some u)]) := by
        rw [keysOf_append]
        exact List.mem_append_right _ (by simp [keysOf])
      have hvfnotkeys : vf.1 ∉ keysOf parent := by
        rw [← plookup_eq_none_iff, ← Option.isNone_iff_eq_none]
        exact hc.2
      refine ⟨vf.1 :: news, ?_, ?_, ?_, ?_⟩
      · rw [List.foldl_cons, if_pos hc, heq]
        simp [List.append_assoc]
      · rw [List.nodup_cons]
        exact ⟨fun hmem => (hnew vf.1 hmem).1 hvfkeys, hnd⟩
      · intro v hv
        rcases List.mem_cons.mp hv with rfl | hv
        · exact ⟨hvfnotkeys, vf, List.mem_cons_self _ _, rfl, hc.1⟩
        · obtain ⟨hnk, vf1, hvf1, hvf2, hvf3⟩ := hnew v hv
          refine ⟨?_, vf1, List.mem_cons_of_mem _ hvf1, hvf2, hvf3⟩
          intro hk
          exact hnk (by rw [keysOf_append]; exact List.mem_append_left _ hk)
      · intro vf1 hvf1 hpos
        rcases List.mem_cons.mp hvf1 with rfl | hvf1
        · exact Or.inr (List.mem_cons_self _ _)
        · rcases hcov vf1 hvf1 hpos with hk | hn
          · rw [keysOf_append] at hk
            rcases List.mem_append.mp hk with hk | hk
            · exact Or.inl hk
            · simp only [keysOf, List.map_cons, List.map_nil] at hk
              have hx := List.mem_singleton.mp hk
              exact Or.inr (by rw [hx]; exact List.mem_cons_self _ _)
          · exact Or.inr (List.mem_cons_of_mem _ hn)
    · obtain ⟨news, heq, hnd, hnew, hcov⟩ := ih qs parent
      refine ⟨news, ?_, hnd, ?_, ?_⟩
      · rw [List.foldl_cons, if_neg hc, heq]
      · intro v hv
        obtain ⟨ha, vf1, hm, he, hp⟩ := hnew v hv
        exact ⟨ha, vf1, List.mem_cons_of_mem _ hm, he, hp⟩
      · intro vf1 hvf1 hpos
        rcases List.mem_cons.mp hvf1 with rfl | hvf1
        · left
          rw [← plookup_isSome_iff]
          rcases ho : plookup vf1.1 parent with _ | w
          · exact absurd ⟨hpos, by rw [ho]; rfl⟩ hc
          · rfl
        · exact hcov vf1 hvf1 hpos

theorem expand_spec (g : Graph) (u : ℕ) (qs : List ℕ)
    (parent : List (ℕ × Option ℕ)) :
    ∃ news : List ℕ,
      expand g u qs parent =
        (qs ++ news, parent ++ news.map (fun v => (v, some u))) ∧
      news.Nodup ∧
      (∀ v ∈ news, v ∉ keysOf parent ∧ ∃ f, (u, v, f) ∈ g.edges ∧ 0 < f) ∧
      (∀ vf ∈ g.adj u, 0 < vf.2 → vf.1 ∈ keysOf parent ∨ vf.1 ∈ news) := by
  obtain ⟨news, heq, hnd, hnew, hcov⟩ := expandFold_spec g u (g.adj u) qs parent
  refine ⟨news, heq, hnd, ?_, hcov⟩
  intro v hv
  obtain ⟨hnk, vf, hvf, hvf1, hvf2⟩ := hnew v hv
  refine ⟨hnk, vf.2, ?_, hvf2⟩
  have := adj_mem_elim g u vf hvf
  rwa [hvf1] at this

/-! # Lemmas: the BFS while-loop -/

theorem get?_some_lt {α : Type} (l : List α) (i : ℕ) (a : α)
    (h : l.get? i = some a) : i < l.length := by
  by_contra hle
  push_neg at hle
  rw [List.get?_eq_none.mpr hle] at h
  exact absurd h (by simp)

theorem tgts_card_le (g : Graph) : (tgts g).card ≤ g.edges.length := by
  unfold tgts
  calc ((g.edges.filter (fun e => 0 < e.2.2)).map
        (fun e => e.2.1)).toFinset.card
      ≤ ((g.edges.filter (fun e => 0 < e.2.2)).map (fun e => e.2.1)).length :=
        List.toFinset_card_le _
    _ = (g.edges.filter (fun e => 0 < e.2.2)).length := List.length_map _ _
    _ ≤ g.edges.length := List.length_filter_le _ _

theorem mem_tgts (g : Graph) (u v : ℕ) (f : ℤ) (hm : (u, v, f) ∈ g.edges)
    (hp : 0 < f) : v ∈ tgts g := by
  unfold tgts
  rw [List.mem_toFinset]
  exact List.mem_map.mpr ⟨(u, v, f), List.mem_filter.mpr ⟨hm, by simpa⟩, rfl⟩

theorem keysOf_map_parent (u : ℕ) (news : List ℕ) :
    keysOf (news.map (fun v => (v, some u))) = news := by
  induction news with
  | nil => rfl
  | cons v t ih =>
    simp only [List.map_cons, keysOf_cons, ih]

theorem bfsLoop_main (g : Graph) (tgt root : ℕ) :
    ∀ (fuel : ℕ) (queue : List ℕ) (parent : List (ℕ × Option ℕ)),
      PFacts g root parent → QFacts g queue parent →
      (tgt ∈ keysOf parent → tgt ∈ queue) →
      queue.length + ((tgts g) \ (keysOf parent).toFinset).card < fuel →
      PFacts g root (bfsLoop g tgt fuel queue parent).2 ∧
      (∃ ext, (bfsLoop g tgt fuel queue parent).2 = parent ++ ext) ∧
      ((bfsLoop g tgt fuel queue parent).1 = true →
        tgt ∈ keysOf (bfsLoop g tgt fuel queue parent).2) ∧
      ((bfsLoop g tgt fuel queue parent).1 = false →
        tgt ∉ keysOf (bfsLoop g tgt fuel queue parent).2 ∧
        ∀ u ∈ keysOf (bfsLoop g tgt fuel queue parent).2,
          ∀ vf ∈ g.adj u, 0 < vf.2 →
            vf.1 ∈ keysOf (bfsLoop g tgt fuel queue parent).2) := by
  intro fuel
  induction fuel with
  | zero =>
    intro queue parent _ _ _ hm
    exact absurd hm (Nat.not_lt_zero _)
  | succ fuel ih =>
    intro queue parent hP hQ htq hm
    match queue with
    | [] =>
      simp only [bfsLoop]
      refine ⟨hP, ⟨[], (List.append_nil parent).symm⟩, ?_, ?_⟩
      · intro hcon
        exact absurd hcon (by simp)
      · intro _
        refine ⟨fun hk => absurd (htq hk) (List.not_mem_nil _), ?_⟩
        intro u hu vf hvf hpos
        exact hQ.processed_closed u hu (List.not_mem_nil _) vf hvf hpos
    | u :: qs =>
      by_cases hu : u = tgt
      · subst hu
        simp only [bfsLoop, if_pos rfl]
        refine ⟨hP, ⟨[], (List.append_nil parent).symm⟩, ?_, ?_⟩
        · intro _
          exact hQ.queue_sub u (List.mem_cons_self _ _)
        · intro hcon
          exact absurd hcon (by simp)
      · obtain ⟨news, heq, hnd, hnew, hcov⟩ := expand_spec g u qs parent
        have hstep : bfsLoop g tgt (fuel + 1) (u :: qs) parent =
            bfsLoop g tgt fuel (qs ++ news)
              (parent ++ news.map (fun v => (v, some u))) := by
          simp only [bfsLoop, if_neg hu, heq]
        have hkeys1 : keysOf (parent ++ news.map (fun v => (v, some u))) =
            keysOf parent ++ news := by
          rw [keysOf_append, keysOf_map_parent]
        have humem : u ∈ keysOf parent :=
          hQ.queue_sub u (List.mem_cons_self _ _)
        have hulen : ∃ j, j < parent.length ∧ ∃ w, parent.get? j = some (u, w) := by
          obtain ⟨kv, hkv, hkveq⟩ := List.mem_map.mp humem
          obtain ⟨j, hj⟩ := List.mem_iff_get?.mp hkv
          refine ⟨j, get?_some_lt _ _ _ hj, kv.2, ?_⟩
          rw [hj]
          have hkv2 : (u, kv.2) = kv := by
            rw [← hkveq]
          rw [hkv2]
        have hPnew : PFacts g root
            (parent ++ news.map (fun v => (v, some u))) := by
          refine ⟨?_, ?_, ?_, ?_, ?_⟩
          · rw [hkeys1]
            exact List.Nodup.append hP.keys_nodup hnd
              (fun a ha hb => (hnew a hb).1 ha)
          · intro i v pu hget
            by_cases hi : i < parent.length
            · rw [List.get?_append hi] at hget
              obtain ⟨j, hj, w, hw⟩ := hP.parent_prev i v pu hget
              exact ⟨j, hj, w, by
                rw [List.get?_append (lt_trans hj hi)]
                exact hw⟩
            · push_neg at hi
              rw [List.get?_append_right hi] at hget
              have hmem := List.get?_mem hget
              obtain ⟨v1, hv1, hveq⟩ := List.mem_map.mp hmem
              have hpu : pu = u := by
                cases hveq
                rfl
              subst hpu
              obtain ⟨j, hjlen, w, hw⟩ := hulen
              exact ⟨j, lt_of_lt_of_le hjlen hi, w, by
                rw [List.get?_append hjlen]
                exact hw⟩
          · intro v pu hmem
            rcases List.mem_append.mp hmem with hmem | hmem
            · exact hP.parent_edge v pu hmem
            · obtain ⟨v1, hv1, hveq⟩ := List.mem_map.mp hmem
              obtain ⟨heq1, heq2⟩ := Prod.mk.injEq _ _ _ _ ▸ hveq
              obtain ⟨-, f, hf, hfp⟩ := hnew v1 hv1
              cases heq1
              cases Option.some.injEq _ _ ▸ heq2
              exact ⟨f, hf, hfp⟩
          · intro v hmem
            rcases List.mem_append.mp hmem with hmem | hmem
            · exact hP.root_none v hmem
            · obtain ⟨v1, hv1, hveq⟩ := List.mem_map.mp hmem
              exact absurd hveq (by simp)
          · rw [List.get?_append (get?_some_lt _ _ _ hP.root_first)]
            exact hP.root_first
        have hQnew : QFacts g (qs ++ news)
            (parent ++ news.map (fun v => (v, some u))) := by
          refine ⟨?_, ?_⟩
          · intro v hv
            rw [hkeys1]
            rcases List.mem_append.mp hv with hv | hv
            · exact List.mem_append_left _
                (hQ.queue_sub v (List.mem_cons_of_mem _ hv))
            · exact List.mem_append_right _ hv
          · intro x hx hxq vf hvf hpos
            rw [hkeys1] at hx ⊢
            have hxnews : x ∉ news := fun hn => hxq (List.mem_append_right _ hn)
            have hxqs : x ∉ qs := fun hn => hxq (List.mem_append_left _ hn)
            rcases List.mem_append.mp hx with hxk | hxk
            · by_cases hxu : x = u
              · subst hxu
                rcases hcov vf hvf hpos with hres | hres
                · exact List.mem_append_left _ hres
                · exact List.mem_append_right _ hres
              · have hxout : x ∉ u :: qs := by
                  intro hmem
                  rcases List.mem_cons.mp hmem with hmem | hmem
                  · exact hxu hmem
                  · exact hxqs hmem
                exact List.mem_append_left _
                  (hQ.processed_closed x hxk hxout vf hvf hpos)
            · exact absurd hxk hxnews
        have htqnew : tgt ∈ keysOf (parent ++ news.map (fun v => (v, some u))) →
            tgt ∈ qs ++ news := by
          intro ht
          rw [hkeys1] at ht
          rcases List.mem_append.mp ht with ht | ht
          · rcases List.mem_cons.mp (htq ht) with ht2 | ht2
            · exact absurd ht2.symm hu
            · exact List.mem_append_left _ ht2
          · exact List.mem_append_right _ ht
        have hNsub : news.toFinset ⊆ tgts g \ (keysOf parent).toFinset := by
          intro v hv
          rw [List.mem_toFinset] at hv
          obtain ⟨hnk, f, hmemf, hpf⟩ := hnew v hv
          rw [Finset.mem_sdiff]
          exact ⟨mem_tgts g u v f hmemf hpf,
            fun hc => hnk (List.mem_toFinset.mp hc)⟩
        have hsplit : tgts g \ (keysOf parent ++ news).toFinset =
            (tgts g \ (keysOf parent).toFinset) \ news.toFinset := by
          rw [List.toFinset_append]
          ext a
          simp only [Finset.mem_sdiff, Finset.mem_union]
          tauto
        have hcard : (tgts g \ (keysOf parent ++ news).toFinset).card =
            (tgts g \ (keysOf parent).toFinset).card - news.length := by
          rw [hsplit, Finset.card_sdiff hNsub, List.toFinset_card_of_nodup hnd]
        have hle : news.length ≤ (tgts g \ (keysOf parent).toFinset).card := by
          rw [← List.toFinset_card_of_nodup hnd]
          exact Finset.card_le_card hNsub
        have hmnew : (qs ++ news).length +
            (tgts g \ (keysOf (parent ++ news.map (fun v => (v, some u)))).toFinset).card
              < fuel := by
          rw [hkeys1, hcard, List.length_append]
          simp only [List.length_cons] at hm
          omega
        obtain ⟨A, ⟨ext, hext⟩, C, D⟩ :=
          ih (qs ++ news) (parent ++ news.map (fun v => (v, some u)))
            hPnew hQnew htqnew hmnew
        rw [hstep]
        exact ⟨A, ⟨news.map (fun v => (v, some u)) ++ ext,
          by rw [hext, List.append_assoc]⟩, C, D⟩

/-! # Lemmas: path reconstruction along parent pointers -/

theorem reconLoop_none (g : Graph) (parent : List (ℕ × Option ℕ)) (root : ℕ) :
    ∀ (fuel : ℕ) (acc : List ℕ) (m : Option ℤ),
      reconLoop g parent root fuel none acc m = (acc, m) := by
  intro fuel acc m
  cases fuel with
  | zero => rfl
  | succ fuel => rfl

theorem reconLoop_some (g : Graph) (parent : List (ℕ × Option ℕ)) (root : ℕ)
    (fuel : ℕ) (cur : ℕ) (acc : List ℕ) (m : Option ℤ) :
    reconLoop g parent root (fuel + 1) (some cur) acc m =
      reconLoop g parent root fuel (parentGet parent cur) (acc ++ [cur])
        (if cur = root then m
         else
           match parentGet parent cur with
           | none => m
           | some u =>
             match firstEdgeFlow g.edges u cur with
             | none => m
             | some f => minOpt m f) := rfl

theorem nodup_keys_index_unique (parent : List (ℕ × Option ℕ))
    (hnd : (keysOf parent).Nodup) (i j : ℕ) (x : ℕ) (wi wj : Option ℕ)
    (hi : parent.get? i = some (x, wi)) (hj : parent.get? j = some (x, wj)) :
    i = j := by
  have hki : (keysOf parent).get? i = some x := by
    rw [keysOf, List.get?_map, hi]
    rfl
  have hkj : (keysOf parent).get? j = some x := by
    rw [keysOf, List.get?_map, hj]
    rfl
  have hlen : i < (keysOf parent).length :=
    get?_some_lt _ _ _ hki
  exact List.get?_inj hlen hnd (by rw [hki, hkj])

theorem getLastD_irrel (l : List ℕ) (h : l ≠ []) (d1 d2 : ℕ) :
    l.getLastD d1 = l.getLastD d2 := by
  cases l with
  | nil => exact absurd rfl h
  | cons a t => rfl

theorem recon_chain (g : Graph) (root : ℕ) (parent : List (ℕ × Option ℕ))
    (hP : PFacts g root parent) :
    ∀ (i : ℕ) (v0 : ℕ) (w0 : Option ℕ), parent.get? i = some (v0, w0) →
    ∀ (fuel : ℕ), i < fuel →
    ∀ (acc : List ℕ) (m : Option ℤ),
      ∃ (L : List ℕ) (mf : Option ℤ),
        reconLoop g parent root fuel (some v0) acc m = (acc ++ L, mf) ∧
        L ≠ [] ∧ L.headD 0 = v0 ∧ L.getLastD 0 = root ∧ L.Nodup ∧
        (∀ x ∈ L, ∃ ix wx, ix ≤ i ∧ parent.get? ix = some (x, wx)) ∧
        (∀ pr ∈ walkPairs L, pr.1 ≠ root ∧ parentGet parent pr.1 = some pr.2) ∧
        mf = (walkPairs L).foldl
          (fun acc2 pr =>
            match firstEdgeFlow g.edges pr.2 pr.1 with
            | none => acc2
            | some f => minOpt acc2 f) m := by
  intro i
  induction i using Nat.strong_induction_on with
  | _ i ih =>
    intro v0 w0 hget fuel hfuel acc m
    rcases fuel with _ | fuel
    · omega
    cases w0 with
    | none =>
      have hv0 : v0 = root := hP.root_none v0 (List.get?_mem hget)
      have hpg : parentGet parent v0 = none := by
        rw [hv0, parentGet,
          get?_plookup parent hP.keys_nodup 0 root none hP.root_first]
        rfl
      refine ⟨[v0], m, ?_, by simp, by simp, by simp [hv0], by simp, ?_,
        by simp [walkPairs], by simp [walkPairs]⟩
      · rw [reconLoop_some, if_pos hv0, hpg, reconLoop_none]
      · intro x hx
        rcases List.mem_singleton.mp hx with rfl
        exact ⟨i, none, le_refl _, hget⟩
    | some pu =>
      have hvne : v0 ≠ root := by
        intro hcon
        have hrf : parent.get? 0 = some (v0, none) := by
          rw [hcon]
          exact hP.root_first
        have hieq := nodup_keys_index_unique parent hP.keys_nodup i 0 v0
          (some pu) none hget hrf
        rw [hieq] at hget
        have hx := hrf.symm.trans hget
        simp at hx
      obtain ⟨j, hj, w1, hw1⟩ := hP.parent_prev i v0 pu hget
      have hpl : parentGet parent v0 = some pu := by
        rw [parentGet, get?_plookup parent hP.keys_nodup i v0 (some pu) hget]
        rfl
      have hfuel2 : j < fuel := by omega
      obtain ⟨L, mf, hrun, hne, hhead, hlast, hnd, hmem, hpairs, hmf⟩ :=
        ih j hj pu w1 hw1 fuel hfuel2 (acc ++ [v0])
          (match firstEdgeFlow g.edges pu v0 with
           | none => m
           | some f => minOpt m f)
      have hv0L : v0 ∉ L := by
        intro hcon
        obtain ⟨ix, wx, hix, hgetx⟩ := hmem v0 hcon
        have := nodup_keys_index_unique parent hP.keys_nodup i ix v0
          (some pu) wx hget hgetx
        omega
      obtain ⟨h1, L2, rfl⟩ : ∃ h1 L2, L = h1 :: L2 := by
        cases L with
        | nil => exact absurd rfl hne
        | cons h1 L2 => exact ⟨h1, L2, rfl⟩
      have hh1 : h1 = pu := by simpa using hhead
      subst hh1
      refine ⟨v0 :: h1 :: L2, mf, ?_, by simp, by simp, ?_, ?_, ?_, ?_, ?_⟩
      · rw [reconLoop_some, if_neg hvne, hpl]
        rw [hrun]
        simp [List.append_assoc]
      · simpa [List.getLastD_cons] using hlast
      · rw [List.nodup_cons]
        exact ⟨hv0L, hnd⟩
      · intro x hx
        rcases List.mem_cons.mp hx with rfl | hx
        · exact ⟨i, some h1, le_refl _, hget⟩
        · obtain ⟨ix, wx, hix, hgetx⟩ := hmem x hx
          exact ⟨ix, wx, le_trans hix (le_of_lt hj), hgetx⟩
      · intro pr hpr
        have hwp : walkPairs (v0 :: h1 :: L2) =
            (v0, h1) :: walkPairs (h1 :: L2) := rfl
        rw [hwp] at hpr
        rcases List.mem_cons.mp hpr with rfl | hpr
        · exact ⟨hvne, hpl⟩
        · exact hpairs pr hpr
      · have hwp : walkPairs (v0 :: h1 :: L2) =
            (v0, h1) :: walkPairs (h1 :: L2) := rfl
        rw [hwp, List.foldl_cons]
        exact hmf

/-! # Lemmas: first-matching-edge lookups -/

theorem firstEdgeFlow_cons (e : Edge) (rest : List Edge) (u v : ℕ) :
    firstEdgeFlow (e :: rest) u v =
      if e.1 = u ∧ e.2.1 = v then some e.2.2 else firstEdgeFlow rest u v := rfl

theorem firstEdgeFlow_isSome_of_mem (es : List Edge) (u v : ℕ) (f : ℤ)
    (h : (u, v, f) ∈ es) : ∃ f1, firstEdgeFlow es u v = some f1 := by
  induction es with
  | nil => exact absurd h (by simp)
  | cons e rest ih =>
    by_cases hc : e.1 = u ∧ e.2.1 = v
    · exact ⟨e.2.2, by rw [firstEdgeFlow_cons, if_pos hc]⟩
    · rcases List.mem_cons.mp h with rfl | h2
      · exact absurd ⟨rfl, rfl⟩ hc
      · obtain ⟨f1, hf1⟩ := ih h2
        exact ⟨f1, by rw [firstEdgeFlow_cons, if_neg hc]; exact hf1⟩

theorem firstEdgeFlow_eq_none_iff (es : List Edge) (u v : ℕ) :
    firstEdgeFlow es u v = none ↔ ∀ f, (u, v, f) ∉ es := by
  induction es with
  | nil => simp [firstEdgeFlow]
  | cons e rest ih =>
    rw [firstEdgeFlow_cons]
    by_cases hc : e.1 = u ∧ e.2.1 = v
    · rw [if_pos hc]
      constructor
      · intro hcon
        exact absurd hcon (by simp)
      · intro hall
        obtain ⟨a, b, c⟩ := e
        obtain ⟨h1, h2⟩ := hc
        cases h1
        cases h2
        exact absurd (List.mem_cons_self _ _) (hall c)
    · rw [if_neg hc, ih]
      constructor
      · intro hall f hmem
        rcases List.mem_cons.mp hmem with he | hmem2
        · rw [← he] at hc
          exact hc ⟨rfl, rfl⟩
        · exact hall f hmem2
      · intro hall f hmem
        exact hall f (List.mem_cons_of_mem _ hmem)

theorem firstEdgeFlow_of_nodup (es : List Edge) (u v : ℕ) (f : ℤ)
    (hnd : (es.map (fun e => (e.1, e.2.1))).Nodup) (h : (u, v, f) ∈ es) :
    firstEdgeFlow es u v = some f := by
  induction es with
  | nil => exact absurd h (by simp)
  | cons e rest ih =>
    rw [List.map_cons, List.nodup_cons] at hnd
    rcases List.mem_cons.mp h with rfl | h2
    · rw [firstEdgeFlow_cons, if_pos ⟨rfl, rfl⟩]
    · by_cases hc : e.1 = u ∧ e.2.1 = v
      · have hpair : (u, v) ∈ rest.map (fun e => (e.1, e.2.1)) :=
          List.mem_map.mpr ⟨(u, v, f), h2, rfl⟩
        rw [hc.1, hc.2] at hnd
        exact absurd hpair hnd.1
      · rw [firstEdgeFlow_cons, if_neg hc]
        exact ih hnd.2 h2

/-! # Lemmas: consecutive pairs and reversal -/

theorem walkPairs_nil : walkPairs [] = [] := rfl

theorem walkPairs_single (a : ℕ) : walkPairs [a] = [] := rfl

theorem walkPairs_cons2 (a b : ℕ) (t : List ℕ) :
    walkPairs (a :: b :: t) = (a, b) :: walkPairs (b :: t) := rfl

theorem walkPairs_append_last (l : List ℕ) (a : ℕ) (h : l ≠ []) :
    walkPairs (l ++ [a]) = walkPairs l ++ [(l.getLastD 0, a)] := by
  induction l with
  | nil => exact absurd rfl h
  | cons x t ih =>
    cases t with
    | nil => rfl
    | cons y t2 =>
      have hne : y :: t2 ≠ [] := by simp
      have hstep : walkPairs ((x :: y :: t2) ++ [a]) =
          (x, y) :: walkPairs ((y :: t2) ++ [a]) := rfl
      rw [hstep, ih hne, walkPairs_cons2]
      rfl

theorem headD_reverse (l : List ℕ) (d : ℕ) :
    l.reverse.headD d = l.getLastD d := by
  rw [List.headD_eq_head?, List.head?_reverse, List.getLastD_eq_getLast?]

theorem getLastD_reverse (l : List ℕ) (d : ℕ) :
    l.reverse.getLastD d = l.headD d := by
  rw [List.getLastD_eq_getLast?, List.getLast?_reverse, List.headD_eq_head?]

theorem mem_walkPairs_reverse (l : List ℕ) (pr : ℕ × ℕ) :
    pr ∈ walkPairs l.reverse ↔ (pr.2, pr.1) ∈ walkPairs l := by
  induction l with
  | nil => simp [walkPairs]
  | cons x t ih =>
    cases t with
    | nil => simp [walkPairs]
    | cons y t2 =>
      have hrev : (x :: y :: t2).reverse = (y :: t2).reverse ++ [x] := by
        simp
      have hne : (y :: t2).reverse ≠ [] := by simp
      rw [hrev, walkPairs_append_last _ _ hne, walkPairs_cons2]
      rw [List.mem_append, List.mem_singleton, List.mem_cons, ih]
      have hlast : (y :: t2).reverse.getLastD 0 = y := getLastD_reverse _ _
      rw [hlast]
      constructor
      · rintro (hin | heq)
        · exact Or.inr hin
        · left
          rw [heq]
      · rintro (heq | hin)
        · right
          obtain ⟨p1, p2⟩ := pr
          simp at heq ⊢
          exact ⟨heq.2, heq.1⟩
        · exact Or.inl hin

/-! # Lemmas: the running minimum of consulted flows -/

theorem minFold_spec (g : Graph) (prs : List (ℕ × ℕ)) :
    ∀ (m : Option ℤ),
      (∀ w, prs.foldl
          (fun acc2 pr =>
            match firstEdgeFlow g.edges pr.2 pr.1 with
            | none => acc2
            | some f => minOpt acc2 f) m = some w →
        m = some w ∨ ∃ pr ∈ prs, firstEdgeFlow g.edges pr.2 pr.1 = some w) ∧
      (∀ w pr f, prs.foldl
          (fun acc2 pr =>
            match firstEdgeFlow g.edges pr.2 pr.1 with
            | none => acc2
            | some f => minOpt acc2 f) m = some w → pr ∈ prs →
        firstEdgeFlow g.edges pr.2 pr.1 = some f → w ≤ f) ∧
      (∀ x, m = some x → ∃ w, prs.foldl
          (fun acc2 pr =>
            match firstEdgeFlow g.edges pr.2 pr.1 with
            | none => acc2
            | some f => minOpt acc2 f) m = some w ∧ w ≤ x) ∧
      ((∃ pr ∈ prs, ∃ f, firstEdgeFlow g.edges pr.2 pr.1 = some f) →
        ∃ w, prs.foldl
          (fun acc2 pr =>
            match firstEdgeFlow g.edges pr.2 pr.1 with
            | none => acc2
            | some f => minOpt acc2 f) m = some w) := by
  induction prs with
  | nil =>
    intro m
    refine ⟨fun w h => Or.inl h, by simp, ?_, by simp⟩
    intro x hx
    exact ⟨x, hx, le_refl x⟩
  | cons pr0 prs ih =>
    intro m
    rcases hf : firstEdgeFlow g.edges pr0.2 pr0.1 with _ | f0
    · have hstep : ∀ mm : Option ℤ, List.foldl
          (fun acc2 pr =>
            match firstEdgeFlow g.edges pr.2 pr.1 with
            | none => acc2
            | some f => minOpt acc2 f) mm (pr0 :: prs) =
          List.foldl
            (fun acc2 pr =>
              match firstEdgeFlow g.edges pr.2 pr.1 with
              | none => acc2
              | some f => minOpt acc2 f) mm prs := by
        intro mm
        rw [List.foldl_cons, hf]
      obtain ⟨ih1, ih2, ih3, ih4⟩ := ih m
      refine ⟨?_, ?_, ?_, ?_⟩
      · intro w h
        rw [hstep] at h
        rcases ih1 w h with h1 | ⟨pr, hpr, hpr2⟩
        · exact Or.inl h1
        · exact Or.inr ⟨pr, List.mem_cons_of_mem _ hpr, hpr2⟩
      · intro w pr f h hmem hfe
        rw [hstep] at h
        rcases List.mem_cons.mp hmem with rfl | hmem2
        · rw [hf] at hfe
          exact absurd hfe (by simp)
        · exact ih2 w pr f h hmem2 hfe
      · intro x hx
        obtain ⟨w, hw, hwle⟩ := ih3 x hx
        exact ⟨w, by rw [hstep]; exact hw, hwle⟩
      · rintro ⟨pr, hpr, f, hfe⟩
        rcases List.mem_cons.mp hpr with rfl | hmem2
        · rw [hf] at hfe
          exact absurd hfe (by simp)
        · obtain ⟨w, hw⟩ := ih4 ⟨pr, hmem2, f, hfe⟩
          exact ⟨w, by rw [hstep]; exact hw⟩
    · have hm1 : ∃ y, minOpt m f0 = some y ∧ y ≤ f0 ∧
          (∀ x, m = some x → y ≤ x) ∧ (y = f0 ∨ m = some y) := by
        cases m with
        | none => exact ⟨f0, rfl, le_refl _, by simp, Or.inl rfl⟩
        | some x =>
          refine ⟨min x f0, rfl, min_le_right _ _, ?_, ?_⟩
          · intro x1 hx1
            cases hx1
            exact min_le_left _ _
          · rcases min_choice x f0 with hmin | hmin
            · exact Or.inr (by rw [hmin])
            · exact Or.inl hmin
      obtain ⟨y, hy, hyf0, hym, hyor⟩ := hm1
      have hstep : List.foldl
          (fun acc2 pr =>
            match firstEdgeFlow g.edges pr.2 pr.1 with
            | none => acc2
            | some f => minOpt acc2 f) m (pr0 :: prs) =
          List.foldl
            (fun acc2 pr =>
              match firstEdgeFlow g.edges pr.2 pr.1 with
              | none => acc2
              | some f => minOpt acc2 f) (minOpt m f0) prs := by
        rw [List.foldl_cons, hf]
      obtain ⟨ih1, ih2, ih3, ih4⟩ := ih (minOpt m f0)
      refine ⟨?_, ?_, ?_, ?_⟩
      · intro w h
        rw [hstep] at h
        rcases ih1 w h with h1 | ⟨pr, hpr, hpr2⟩
        · rw [hy] at h1
          cases h1
          rcases hyor with rfl | hm
          · exact Or.inr ⟨pr0, List.mem_cons_self _ _, hf⟩
          · exact Or.inl hm
        · exact Or.inr ⟨pr, List.mem_cons_of_mem _ hpr, hpr2⟩
      · intro w pr f h hmem hfe
        rw [hstep] at h
        rcases List.mem_cons.mp hmem with rfl | hmem2
        · rw [hf] at hfe
          have hffe : f0 = f := by
            cases hfe
            rfl
          obtain ⟨w1, hw1, hw1le⟩ := ih3 y hy
          rw [h] at hw1
          cases hw1
          exact le_trans hw1le (hffe ▸ hyf0)
        · exact ih2 w pr f h hmem2 hfe
      · intro x hx
        obtain ⟨w, hw, hwle⟩ := ih3 y hy
        refine ⟨w, by rw [hstep]; exact hw, le_trans hwle (hym x hx)⟩
      · intro _
        obtain ⟨w, hw, hwle⟩ := ih3 y hy
        exact ⟨w, by rw [hstep]; exact hw⟩

/-! # Lemmas: the two search procedures -/

theorem init_PFacts (g : Graph) (start : ℕ) :
    PFacts g start [(start, none)] := by
  refine ⟨by simp [keysOf], ?_, ?_, ?_, rfl⟩
  · intro i v u hget
    rcases i with _ | i <;> simp at hget
  · intro v u hmem
    simp at hmem
  · intro v hmem
    simp at hmem
    exact hmem

theorem init_QFacts (g : Graph) (start : ℕ) :
    QFacts g [start] [(start, none)] := by
  refine ⟨?_, ?_⟩
  · intro v hv
    rcases List.mem_singleton.mp hv with rfl
    simp [keysOf]
  · intro u hu huq vf hvf hpos
    rw [keysOf] at hu
    simp at hu
    exact absurd (by simp [hu]) huq

theorem init_htq (g : Graph) (start tgt : ℕ) :
    tgt ∈ keysOf [(start, none)] → tgt ∈ [start] := by
  intro h
  rw [keysOf] at h
  simpa using h

theorem init_measure (g : Graph) (start : ℕ) :
    [start].length + ((tgts g) \ (keysOf [(start, none)]).toFinset).card <
      bfsFuel g := by
  have h1 : ((tgts g) \ (keysOf [(start, none)]).toFinset).card ≤
      (tgts g).card := Finset.card_le_card Finset.sdiff_subset
  have h2 := tgts_card_le g
  simp only [List.length_singleton, bfsFuel]
  omega

theorem keys_origin (g : Graph) (root : ℕ) (parent : List (ℕ × Option ℕ))
    (hP : PFacts g root parent) :
    ∀ x ∈ keysOf parent, x = root ∨ ∃ e ∈ g.edges, e.2.1 = x ∧ 0 < e.2.2 := by
  intro x hx
  obtain ⟨kv, hkv, hkveq⟩ := List.mem_map.mp hx
  obtain ⟨x1, w⟩ := kv
  simp only at hkveq
  subst hkveq
  cases w with
  | none => exact Or.inl (hP.root_none x1 hkv)
  | some u =>
    obtain ⟨f, hf, hfp⟩ := hP.parent_edge x1 u hkv
    exact Or.inr ⟨(u, x1, f), hf, rfl, hfp⟩

theorem closure_edges (g : Graph) (K : List ℕ)
    (hcl : ∀ u ∈ K, ∀ vf ∈ g.adj u, 0 < vf.2 → vf.1 ∈ K) :
    ∀ u ∈ K, ∀ e ∈ g.edges, e.1 = u → 0 < e.2.2 → e.2.1 ∈ K := by
  intro u hu e he heq hpos
  exact hcl u hu (e.2.1, e.2.2) (by rw [← heq]; exact adj_mem_intro g e he) hpos

theorem findPath_none_elim (g : Graph) (h : findPath g = none) :
    ∃ K : List ℕ, 1 ∈ K ∧ g.V ∉ K ∧
      (∀ x ∈ K, x = 1 ∨ ∃ e ∈ g.edges, e.2.1 = x ∧ 0 < e.2.2) ∧
      (∀ u ∈ K, ∀ e ∈ g.edges, e.1 = u → 0 < e.2.2 → e.2.1 ∈ K) := by
  simp only [findPath] at h
  obtain ⟨A, ⟨ext, hext⟩, C, D⟩ := bfsLoop_main g g.V 1 (bfsFuel g) [1]
    [(1, none)] (init_PFacts g 1) (init_QFacts g 1) (init_htq g 1 g.V)
    (init_measure g 1)
  by_cases hr : (bfsLoop g g.V (bfsFuel g) [1] [(1, none)]).1 = true
  · rw [if_pos hr] at h
    exact absurd h (by simp)
  · have hfalse : (bfsLoop g g.V (bfsFuel g) [1] [(1, none)]).1 = false := by
      revert hr
      cases (bfsLoop g g.V (bfsFuel g) [1] [(1, none)]).1 <;> simp
    obtain ⟨hnotin, hcl⟩ := D hfalse
    refine ⟨keysOf (bfsLoop g g.V (bfsFuel g) [1] [(1, none)]).2, ?_, hnotin,
      keys_origin g 1 _ A, closure_edges g _ hcl⟩
    rw [hext, keysOf_append]
    exact List.mem_append_left _ (by simp [keysOf])

theorem findPath_some_elim (g : Graph) (nodes : List ℕ) (ow : Option ℤ)
    (h : findPath g = some (nodes, ow)) :
    nodes ≠ [] ∧ nodes.headD 0 = 1 ∧ nodes.getLastD 0 = g.V ∧ nodes.Nodup ∧
    (∀ pr ∈ walkPairs nodes, ∃ f, (pr.1, pr.2, f) ∈ g.edges ∧ 0 < f) ∧
    (walkPairs nodes ≠ [] → ∃ w, ow = some w) ∧
    (∀ w, ow = some w →
      (∃ pr ∈ walkPairs nodes, firstEdgeFlow g.edges pr.1 pr.2 = some w) ∧
      ∀ pr ∈ walkPairs nodes, ∀ f, firstEdgeFlow g.edges pr.1 pr.2 = some f →
        w ≤ f) := by
  simp only [findPath] at h
  obtain ⟨A, ⟨ext, hext⟩, C, D⟩ := bfsLoop_main g g.V 1 (bfsFuel g) [1]
    [(1, none)] (init_PFacts g 1) (init_QFacts g 1) (init_htq g 1 g.V)
    (init_measure g 1)
  by_cases hr : (bfsLoop g g.V (bfsFuel g) [1] [(1, none)]).1 = true
  case neg =>
    rw [if_neg hr] at h
    exact absurd h (by simp)
  case pos =>
  rw [if_pos hr] at h
  have htk := C hr
  obtain ⟨kv, hkv, hkveq⟩ := List.mem_map.mp htk
  obtain ⟨i, hi⟩ := List.mem_iff_get?.mp hkv
  have hgetv : (bfsLoop g g.V (bfsFuel g) [1] [(1, none)]).2.get? i =
      some (g.V, kv.2) := by
    rw [hi]
    have hx : (g.V, kv.2) = kv := by rw [← hkveq]
    rw [hx]
  have hilen : i < (bfsLoop g g.V (bfsFuel g) [1] [(1, none)]).2.length :=
    get?_some_lt _ _ _ hgetv
  obtain ⟨L, mf, hrun, hne, hhead, hlast, hnd, hmem, hpairs, hmf⟩ :=
    recon_chain g 1 (bfsLoop g g.V (bfsFuel g) [1] [(1, none)]).2 A i g.V kv.2
      hgetv ((bfsLoop g g.V (bfsFuel g) [1] [(1, none)]).2.length + 1)
      (by omega) [] none
  rw [hrun] at h
  simp only [List.nil_append, Option.some_inj, Prod.mk.injEq] at h
  obtain ⟨hnodes, how⟩ := h
  subst hnodes
  subst how
  have hedge : ∀ pr ∈ walkPairs L.reverse,
      ∃ f, (pr.1, pr.2, f) ∈ g.edges ∧ 0 < f := by
    intro pr hpr
    have hmemL := (mem_walkPairs_reverse L pr).mp hpr
    obtain ⟨-, hpg⟩ := hpairs _ hmemL
    have hpl : plookup pr.2 (bfsLoop g g.V (bfsFuel g) [1] [(1, none)]).2 =
        some (some pr.1) := by
      rw [parentGet] at hpg
      exact Option.join_eq_some.mp hpg
    have hmm := plookup_mem _ _ _ hpl
    exact A.parent_edge pr.2 pr.1 hmm
  refine ⟨by simpa using hne, ?_, ?_, List.nodup_reverse.mpr hnd, hedge,
    ?_, ?_⟩
  · rw [headD_reverse]
    exact hlast
  · rw [getLastD_reverse]
    exact hhead
  · intro hprne
    obtain ⟨pr0, hpr0⟩ := List.exists_mem_of_ne_nil _ hprne
    have hmemL := (mem_walkPairs_reverse L pr0).mp hpr0
    obtain ⟨f, hf, -⟩ := hedge pr0 hpr0
    obtain ⟨f1, hf1⟩ := firstEdgeFlow_isSome_of_mem g.edges pr0.1 pr0.2 f hf
    rw [hmf]
    exact (minFold_spec g (walkPairs L) none).2.2.2 ⟨(pr0.2, pr0.1), hmemL, f1, hf1⟩
  · intro w hw
    rw [hmf] at hw
    obtain ⟨m1, m2, -, -⟩ := minFold_spec g (walkPairs L) none
    constructor
    · rcases m1 w hw with hcon | ⟨pr, hpr, hpr2⟩
      · exact absurd hcon (by simp)
      · refine ⟨(pr.2, pr.1), ?_, hpr2⟩
        rw [mem_walkPairs_reverse]
        simpa using hpr
    · intro pr hpr f hfe
      have hmemL := (mem_walkPairs_reverse L pr).mp hpr
      exact m2 w (pr.2, pr.1) f hw hmemL hfe

theorem findPathBack_none_elim (g : Graph) (start tgt : ℕ) (initFlow : ℤ)
    (h : findPathBack g start tgt initFlow = none) :
    ∃ K : List ℕ, start ∈ K ∧ tgt ∉ K ∧
      (∀ x ∈ K, x = start ∨ ∃ e ∈ g.edges, e.2.1 = x ∧ 0 < e.2.2) ∧
      (∀ u ∈ K, ∀ e ∈ g.edges, e.1 = u → 0 < e.2.2 → e.2.1 ∈ K) := by
  simp only [findPathBack] at h
  obtain ⟨A, ⟨ext, hext⟩, C, D⟩ := bfsLoop_main g tgt start (bfsFuel g)
    [start] [(start, none)] (init_PFacts g start) (init_QFacts g start)
    (init_htq g start tgt) (init_measure g start)
  by_cases hs : (plookup tgt
      (bfsLoop g tgt (bfsFuel g) [start] [(start, none)]).2).isSome = true
  · rw [if_pos hs] at h
    exact absurd h (by simp)
  · have hnotk : tgt ∉ keysOf
        (bfsLoop g tgt (bfsFuel g) [start] [(start, none)]).2 := by
      intro hcon
      exact hs ((plookup_isSome_iff _ _).mpr hcon)
    have hfalse : (bfsLoop g tgt (bfsFuel g) [start] [(start, none)]).1 =
        false := by
      rcases hb : (bfsLoop g tgt (bfsFuel g) [start] [(start, none)]).1 with _ | _
      · rfl
      · exact absurd (C hb) hnotk
    obtain ⟨-, hcl⟩ := D hfalse
    refine ⟨keysOf (bfsLoop g tgt (bfsFuel g) [start] [(start, none)]).2, ?_,
      hnotk, keys_origin g start _ A, closure_edges g _ hcl⟩
    rw [hext, keysOf_append]
    exact List.mem_append_left _ (by simp [keysOf])

theorem findPathBack_some_elim (g : Graph) (start tgt : ℕ) (initFlow : ℤ)
    (nodes : List ℕ) (w : ℤ)
    (h : findPathBack g start tgt initFlow = some (nodes, w)) :
    nodes ≠ [] ∧ nodes.headD 0 = start ∧ nodes.getLastD 0 = tgt ∧
    nodes.Nodup ∧
    (∀ pr ∈ walkPairs nodes, ∃ f, (pr.1, pr.2, f) ∈ g.edges ∧ 0 < f) ∧
    w ≤ initFlow ∧
    (w = initFlow ∨ ∃ pr ∈ walkPairs nodes,
      firstEdgeFlow g.edges pr.1 pr.2 = some w) ∧
    (∀ pr ∈ walkPairs nodes, ∀ f, firstEdgeFlow g.edges pr.1 pr.2 = some f →
      w ≤ f) := by
  simp only [findPathBack] at h
  obtain ⟨A, ⟨ext, hext⟩, C, D⟩ := bfsLoop_main g tgt start (bfsFuel g)
    [start] [(start, none)] (init_PFacts g start) (init_QFacts g start)
    (init_htq g start tgt) (init_measure g start)
  by_cases hs : (plookup tgt
      (bfsLoop g tgt (bfsFuel g) [start] [(start, none)]).2).isSome = true
  case neg =>
    rw [if_neg hs] at h
    exact absurd h (by simp)
  case pos =>
  rw [if_pos hs] at h
  have htk : tgt ∈ keysOf (bfsLoop g tgt (bfsFuel g) [start] [(start, none)]).2 :=
    (plookup_isSome_iff _ _).mp hs
  obtain ⟨kv, hkv, hkveq⟩ := List.mem_map.mp htk
  obtain ⟨i, hi⟩ := List.mem_iff_get?.mp hkv
  have hgetv : (bfsLoop g tgt (bfsFuel g) [start] [(start, none)]).2.get? i =
      some (tgt, kv.2) := by
    rw [hi]
    have hx : (tgt, kv.2) = kv := by rw [← hkveq]
    rw [hx]
  obtain ⟨L, mf, hrun, hne, hhead, hlast, hnd, hmem, hpairs, hmf⟩ :=
    recon_chain g start (bfsLoop g tgt (bfsFuel g) [start] [(start, none)]).2
      A i tgt kv.2 hgetv
      ((bfsLoop g tgt (bfsFuel g) [start] [(start, none)]).2.length + 1)
      (by have := get?_some_lt _ _ _ hgetv; omega) [] none
  rw [hrun] at h
  simp only [List.nil_append, Option.some_inj, Prod.mk.injEq] at h
  obtain ⟨hnodes, how⟩ := h
  subst hnodes
  have hedge : ∀ pr ∈ walkPairs L.reverse,
      ∃ f, (pr.1, pr.2, f) ∈ g.edges ∧ 0 < f := by
    intro pr hpr
    have hmemL := (mem_walkPairs_reverse L pr).mp hpr
    obtain ⟨-, hpg⟩ := hpairs _ hmemL
    have hpl : plookup pr.2
        (bfsLoop g tgt (bfsFuel g) [start] [(start, none)]).2 =
        some (some pr.1) := by
      rw [parentGet] at hpg
      exact Option.join_eq_some.mp hpg
    exact A.parent_edge pr.2 pr.1 (plookup_mem _ _ _ hpl)
  obtain ⟨m1, m2, m3, m4⟩ := minFold_spec g (walkPairs L) none
  refine ⟨by simpa using hne, ?_, ?_, List.nodup_reverse.mpr hnd, hedge,
    ?_, ?_, ?_⟩
  · rw [headD_reverse]
    exact hlast
  · rw [getLastD_reverse]
    exact hhead
  · cases hmfv : mf with
    | none =>
      rw [hmfv] at how
      have how2 : initFlow = w := how
      exact le_of_eq how2.symm
    | some x =>
      rw [hmfv] at how
      have how2 : min x initFlow = w := how
      rw [← how2]
      exact min_le_right _ _
  · cases hmfv : mf with
    | none =>
      rw [hmfv] at how
      have how2 : initFlow = w := how
      exact Or.inl how2.symm
    | some x =>
      rw [hmfv] at how
      have how2 : min x initFlow = w := how
      have hfold : (walkPairs L).foldl
          (fun acc2 pr =>
            match firstEdgeFlow g.edges pr.2 pr.1 with
            | none => acc2
            | some f => minOpt acc2 f) none = some x := by
        rw [← hmf]
        exact hmfv
      rcases m1 x hfold with hcon | ⟨pr, hpr, hpr2⟩
      · exact absurd hcon (by simp)
      · rcases min_choice x initFlow with hmin | hmin
        · refine Or.inr ⟨(pr.2, pr.1), ?_, ?_⟩
          · rw [mem_walkPairs_reverse]
            simpa using hpr
          · rw [← how2, hmin]
            exact hpr2
        · exact Or.inl (by rw [← how2, hmin])
  · intro pr hpr f hfe
    have hmemL := (mem_walkPairs_reverse L pr).mp hpr
    cases hmfv : mf with
    | none =>
      obtain ⟨fe, hfee, -⟩ := hedge pr hpr
      obtain ⟨f1, hf1⟩ := firstEdgeFlow_isSome_of_mem g.edges pr.1 pr.2 fe hfee
      obtain ⟨wx, hwx⟩ := m4 ⟨(pr.2, pr.1), hmemL, f1, hf1⟩
      rw [← hmf, hmfv] at hwx
      exact absurd hwx (by simp)
    | some x =>
      rw [hmfv] at how
      have how2 : min x initFlow = w := how
      have hfold : (walkPairs L).foldl
          (fun acc2 pr =>
            match firstEdgeFlow g.edges pr.2 pr.1 with
            | none => acc2
            | some f => minOpt acc2 f) none = some x := by
        rw [← hmf]
        exact hmfv
      have hxle := m2 x (pr.2, pr.1) f hfold hmemL hfe
      rw [← how2]
      exact le_trans (min_le_left _ _) hxle

theorem cycleCandidates_mem_intro (g : Graph) (e : Edge) (he : e ∈ g.edges)
    (h1 : 1 ≤ e.1) (h2 : e.1 ≤ g.V) :
    (e.1, e.2.1, e.2.2) ∈ cycleCandidates g := by
  unfold cycleCandidates
  refine List.mem_flatMap.mpr ⟨e.1, ?_, ?_⟩
  · exact List.mem_range'_1.mpr ⟨h1, by omega⟩
  · exact List.mem_map.mpr ⟨(e.2.1, e.2.2), adj_mem_intro g e he, rfl⟩

theorem cycleCandidates_mem_elim (g : Graph) (c : ℕ × ℕ × ℤ)
    (h : c ∈ cycleCandidates g) :
    (c.1, c.2.1, c.2.2) ∈ g.edges ∧ 1 ≤ c.1 ∧ c.1 ≤ g.V := by
  unfold cycleCandidates at h
  obtain ⟨u, hu, hmap⟩ := List.mem_flatMap.mp h
  obtain ⟨vf, hvf, heq⟩ := List.mem_map.mp hmap
  obtain ⟨hu1, hu2⟩ := List.mem_range'_1.mp hu
  cases heq
  exact ⟨adj_mem_elim g u vf hvf, hu1, by omega⟩

theorem findCycle_some_elim (g : Graph) (nodes : List ℕ) (w : ℤ)
    (h : findCycle g = some (nodes, w)) :
    0 < w ∧ ∃ u v f bnodes, (u, v, f) ∈ g.edges ∧ 0 < f ∧ w ≤ f ∧
      findPathBack g v u f = some (bnodes, w) ∧
      nodes = (u :: bnodes).dropLast := by
  unfold findCycle at h
  obtain ⟨c, hc, hfc⟩ := List.exists_of_findSome?_eq_some h
  by_cases hpos : 0 < c.2.2
  case neg =>
    rw [if_neg hpos] at hfc
    exact absurd hfc (by simp)
  case pos =>
  rw [if_pos hpos] at hfc
  rcases hb : findPathBack g c.2.1 c.1 c.2.2 with _ | ⟨bnodes, m⟩
  · rw [hb] at hfc
    exact absurd hfc (by simp)
  · rw [hb] at hfc
    simp only [] at hfc
    by_cases hm : 0 < m
    case neg =>
      rw [if_neg hm] at hfc
      exact absurd hfc (by simp)
    case pos =>
    rw [if_pos hm] at hfc
    simp only [Option.some_inj, Prod.mk.injEq] at hfc
    obtain ⟨hn, hw⟩ := hfc
    have hw2 : w = m := hw.symm
    subst hw2
    obtain ⟨hce, -, -⟩ := cycleCandidates_mem_elim g c hc
    obtain ⟨-, -, -, -, -, hwle, -, -⟩ :=
      findPathBack_some_elim g c.2.1 c.1 c.2.2 bnodes w hb
    exact ⟨hm, c.1, c.2.1, c.2.2, bnodes, hce, hpos, hwle, hb, hn.symm⟩

theorem findCycle_none_elim (g : Graph) (h : findCycle g = none) :
    ∀ e ∈ g.edges, 1 ≤ e.1 → e.1 ≤ g.V → 0 < e.2.2 →
      findPathBack g e.2.1 e.1 e.2.2 = none ∨
      (∃ bnodes m, findPathBack g e.2.1 e.1 e.2.2 = some (bnodes, m) ∧
        m ≤ 0) := by
  intro e he h1 h2 hpos
  unfold findCycle at h
  have hcand := cycleCandidates_mem_intro g e he h1 h2
  have hfc := List.findSome?_eq_none.mp h _ hcand
  rw [if_pos hpos] at hfc
  rcases hb : findPathBack g e.2.1 e.1 e.2.2 with _ | ⟨bnodes, m⟩
  · exact Or.inl rfl
  · rw [hb] at hfc
    simp only [] at hfc
    by_cases hm : 0 < m
    · rw [if_pos hm] at hfc
      exact absurd hfc (by simp)
    · exact Or.inr ⟨bnodes, m, rfl, by omega⟩

/-! # Lemmas: wrap-around pairs versus serialized pairs -/

theorem getD_last_index (t : List ℕ) (a : ℕ) :
    (a :: t).getD t.length 0 = (a :: t).getLastD 0 := by
  induction t generalizing a with
  | nil => rfl
  | cons b t2 ih =>
    have h1 : (a :: b :: t2).getD (b :: t2).length 0 =
        (b :: t2).getD t2.length 0 := by
      simp [List.getD_cons_succ]
    rw [h1, ih b]
    rfl

theorem walkPairs_eq_range (l : List ℕ) :
    walkPairs l = (List.range (l.length - 1)).map
      (fun i => (l.getD i 0, l.getD (i + 1) 0)) := by
  induction l with
  | nil => rfl
  | cons a t ih =>
    cases t with
    | nil => rfl
    | cons b t2 =>
      rw [walkPairs_cons2, ih]
      have hlen : (a :: b :: t2).length - 1 = (b :: t2).length - 1 + 1 := by
        simp
      rw [hlen, List.range_succ_eq_map, List.map_cons, List.map_map]
      have h0 : ((a :: b :: t2).getD 0 0, (a :: b :: t2).getD 1 0) = (a, b) := rfl
      rw [h0]
      refine congrArg₂ List.cons rfl ?_
      apply List.map_congr_left
      intro i _
      simp [List.getD_cons_succ]

theorem wrapPairs_structure (a : ℕ) (t : List ℕ) :
    wrapPairs (a :: t) = walkPairs (a :: t) ++ [((a :: t).getLastD 0, a)] := by
  unfold wrapPairs
  have hlen : (a :: t).length = t.length + 1 := rfl
  rw [hlen, List.range_succ, List.map_append, List.map_cons, List.map_nil]
  refine congrArg₂ List.append ?_ ?_
  · rw [walkPairs_eq_range]
    apply List.map_congr_left
    intro i hi
    rw [List.mem_range] at hi
    have hmod : (i + 1) % (t.length + 1) = i + 1 :=
      Nat.mod_eq_of_lt (by omega)
    rw [hmod]
  · have hmod : (t.length + 1) % (t.length + 1) = 0 := Nat.mod_self _
    rw [hmod, getD_last_index]
    rfl

theorem wrapPairs_eq_serialized (nodes : List ℕ) (h : nodes ≠ []) :
    wrapPairs nodes = walkPairs (nodes ++ [nodes.headD 0]) := by
  obtain ⟨a, t, rfl⟩ : ∃ a t, nodes = a :: t := by
    cases nodes with
    | nil => exact absurd rfl h
    | cons a t => exact ⟨a, t, rfl⟩
  rw [wrapPairs_structure, walkPairs_append_last _ _ (by simp)]
  rfl

theorem dropLast_append_getLastD (l : List ℕ) (h : l ≠ []) :
    l.dropLast ++ [l.getLastD 0] = l := by
  have h1 := List.dropLast_append_getLast h
  rw [List.getLastD_eq_getLast?, List.getLast?_eq_getLast _ h]
  simpa using h1

theorem head_dropLast (b0 : ℕ) (brest : List ℕ) (h : brest ≠ []) :
    (b0 :: brest).dropLast.headD 0 = b0 := by
  cases brest with
  | nil => exact absurd rfl h
  | cons c t => rfl

theorem wrapPairs_cycle (u : ℕ) (bnodes : List ℕ) (hne : bnodes ≠ [])
    (hlast : bnodes.getLastD 0 = u) :
    wrapPairs ((u :: bnodes).dropLast) =
      (u, bnodes.headD 0) :: walkPairs bnodes := by
  have hdl : (u :: bnodes).dropLast = u :: bnodes.dropLast := by
    cases bnodes with
    | nil => exact absurd rfl hne
    | cons b t => rfl
  rw [hdl, wrapPairs_structure]
  cases hdrop : bnodes.dropLast with
  | nil =>
    obtain ⟨b0, rfl⟩ : ∃ b0, bnodes = [b0] := by
      cases bnodes with
      | nil => exact absurd rfl hne
      | cons b t =>
        cases t with
        | nil => exact ⟨b, rfl⟩
        | cons c t2 => simp at hdrop
    have hb0 : b0 = u := by simpa using hlast
    subst hb0
    rfl
  | cons d0 drest =>
    have hbeq : bnodes = (d0 :: drest) ++ [u] := by
      rw [← hdrop, ← hlast]
      exact (dropLast_append_getLastD bnodes hne).symm
    have hhead : bnodes.headD 0 = d0 := by
      rw [hbeq]
      rfl
    have hlast2 : (u :: d0 :: drest).getLastD 0 = (d0 :: drest).getLastD 0 := rfl
    rw [hlast2, hhead]
    have hwp : walkPairs (u :: d0 :: drest) =
        (u, d0) :: walkPairs (d0 :: drest) := rfl
    rw [hwp, List.cons_append]
    refine congrArg₂ List.cons rfl ?_
    rw [hbeq, walkPairs_append_last _ _ (by simp)]

theorem walkPairs_map_fst (l : List ℕ) :
    (walkPairs l).map Prod.fst = l.dropLast := by
  induction l with
  | nil => rfl
  | cons a t ih =>
    cases t with
    | nil => rfl
    | cons b t2 =>
      rw [walkPairs_cons2, List.map_cons, ih]
      rfl

theorem walkPairs_fst (l : List ℕ) (pr : ℕ × ℕ) (h : pr ∈ walkPairs l) :
    pr.1 ∈ l.dropLast := by
  rw [← walkPairs_map_fst]
  exact List.mem_map_of_mem _ h

theorem walkPairs_snd (l : List ℕ) (pr : ℕ × ℕ) (h : pr ∈ walkPairs l) :
    pr.2 ∈ l.tail := by
  obtain ⟨p1, p2⟩ := pr
  exact (List.mem_zip h).2

theorem walkPairs_nodup (l : List ℕ) (h : l.Nodup) : (walkPairs l).Nodup := by
  have hdl : l.dropLast.Nodup := h.sublist (List.dropLast_sublist l)
  rw [← walkPairs_map_fst] at hdl
  exact hdl.of_map _

theorem wrapPairs_nodup (u : ℕ) (bnodes : List ℕ) (hne : bnodes ≠ [])
    (hlast : bnodes.getLastD 0 = u) (hnd : bnodes.Nodup) :
    (wrapPairs ((u :: bnodes).dropLast)).Nodup := by
  rw [wrapPairs_cycle u bnodes hne hlast]
  rw [List.nodup_cons]
  refine ⟨?_, walkPairs_nodup bnodes hnd⟩
  intro hcon
  have hfst := walkPairs_fst bnodes _ hcon
  have hu : u ∉ bnodes.dropLast := by
    intro hm
    have hperm := dropLast_append_getLastD bnodes hne
    rw [hlast] at hperm
    have hnd2 : (bnodes.dropLast ++ [u]).Nodup := by
      rw [hperm]
      exact hnd
    rw [List.nodup_append] at hnd2
    exact hnd2.2.2 hm (List.mem_singleton.mpr rfl)
  exact hu hfst

/-! # Lemmas: subtraction of an extracted weight -/

theorem updateFirst_cons (e : Edge) (rest : List Edge) (u v : ℕ) (w : ℤ) :
    updateFirst (e :: rest) u v w =
      if e.1 = u ∧ e.2.1 = v then (e.1, e.2.1, e.2.2 - w) :: rest
      else e :: updateFirst rest u v w := rfl

theorem updateFirst_pairs (es : List Edge) (u v : ℕ) (w : ℤ) :
    (updateFirst es u v w).map (fun e => (e.1, e.2.1)) =
      es.map (fun e => (e.1, e.2.1)) := by
  induction es with
  | nil => rfl
  | cons e rest ih =>
    by_cases hc : e.1 = u ∧ e.2.1 = v
    · rw [updateFirst_cons, if_pos hc]
      rfl
    · rw [updateFirst_cons, if_neg hc, List.map_cons, List.map_cons, ih]

theorem firstEdgeFlow_updateFirst_self (es : List Edge) (u v : ℕ) (w : ℤ) :
    firstEdgeFlow (updateFirst es u v w) u v =
      (firstEdgeFlow es u v).map (fun f => f - w) := by
  induction es with
  | nil => rfl
  | cons e rest ih =>
    by_cases hc : e.1 = u ∧ e.2.1 = v
    · rw [updateFirst_cons, if_pos hc, firstEdgeFlow_cons, firstEdgeFlow_cons,
        if_pos hc, if_pos hc]
      rfl
    · rw [updateFirst_cons, if_neg hc, firstEdgeFlow_cons, firstEdgeFlow_cons,
        if_neg hc, if_neg hc, ih]

theorem firstEdgeFlow_updateFirst_other (es : List Edge) (u v u1 v1 : ℕ)
    (w : ℤ) (hne : ¬(u1 = u ∧ v1 = v)) :
    firstEdgeFlow (updateFirst es u v w) u1 v1 = firstEdgeFlow es u1 v1 := by
  induction es with
  | nil => rfl
  | cons e rest ih =>
    by_cases hc : e.1 = u ∧ e.2.1 = v
    · have hc1 : ¬(e.1 = u1 ∧ e.2.1 = v1) := by
        intro hcon
        exact hne ⟨hcon.1 ▸ hc.1 ▸ rfl, hcon.2 ▸ hc.2 ▸ rfl⟩
      rw [updateFirst_cons, if_pos hc, firstEdgeFlow_cons, firstEdgeFlow_cons,
        if_neg hc1, if_neg hc1]
    · by_cases hc2 : e.1 = u1 ∧ e.2.1 = v1
      · rw [updateFirst_cons, if_neg hc, firstEdgeFlow_cons, firstEdgeFlow_cons,
          if_pos hc2, if_pos hc2]
      · rw [updateFirst_cons, if_neg hc, firstEdgeFlow_cons, firstEdgeFlow_cons,
          if_neg hc2, if_neg hc2, ih]

theorem outL_cons (e : Edge) (rest : List Edge) (x : ℕ) :
    outL (e :: rest) x = (if e.1 = x then e.2.2 else 0) + outL rest x := by
  simp [outL]

theorem inL_cons (e : Edge) (rest : List Edge) (x : ℕ) :
    inL (e :: rest) x = (if e.2.1 = x then e.2.2 else 0) + inL rest x := by
  simp [inL]

theorem outL_updateFirst (es : List Edge) (u v : ℕ) (w : ℤ) (x : ℕ)
    (hpres : ∃ f, (u, v, f) ∈ es) :
    outL (updateFirst es u v w) x = outL es x - (if u = x then w else 0) := by
  induction es with
  | nil => simp at hpres
  | cons e rest ih =>
    by_cases hc : e.1 = u ∧ e.2.1 = v
    · rw [updateFirst_cons, if_pos hc, outL_cons, outL_cons]
      by_cases hux : u = x
      · rw [if_pos hux, if_pos (hc.1.trans hux), if_pos (hc.1.trans hux)]
        ring
      · have hex : ¬(e.1 = x) := fun hcon => hux (hc.1 ▸ hcon)
        rw [if_neg hux, if_neg hex, if_neg hex]
        ring
    · obtain ⟨f, hf⟩ := hpres
      have hrest : (u, v, f) ∈ rest := by
        rcases List.mem_cons.mp hf with heq | hmem
        · rw [← heq] at hc
          exact absurd ⟨rfl, rfl⟩ hc
        · exact hmem
      rw [updateFirst_cons, if_neg hc, outL_cons, outL_cons, ih ⟨f, hrest⟩]
      ring

theorem inL_updateFirst (es : List Edge) (u v : ℕ) (w : ℤ) (x : ℕ)
    (hpres : ∃ f, (u, v, f) ∈ es) :
    inL (updateFirst es u v w) x = inL es x - (if v = x then w else 0) := by
  induction es with
  | nil => simp at hpres
  | cons e rest ih =>
    by_cases hc : e.1 = u ∧ e.2.1 = v
    · rw [updateFirst_cons, if_pos hc, inL_cons, inL_cons]
      by_cases hvx : v = x
      · rw [if_pos hvx, if_pos (hc.2.trans hvx), if_pos (hc.2.trans hvx)]
        ring
      · have hex : ¬(e.2.1 = x) := fun hcon => hvx (hc.2 ▸ hcon)
        rw [if_neg hvx, if_neg hex, if_neg hex]
        ring
    · obtain ⟨f, hf⟩ := hpres
      have hrest : (u, v, f) ∈ rest := by
        rcases List.mem_cons.mp hf with heq | hmem
        · rw [← heq] at hc
          exact absurd ⟨rfl, rfl⟩ hc
        · exact hmem
      rw [updateFirst_cons, if_neg hc, inL_cons, inL_cons, ih ⟨f, hrest⟩]
      ring

theorem excL_updateFirst (es : List Edge) (u v : ℕ) (w : ℤ) (x : ℕ)
    (hpres : ∃ f, (u, v, f) ∈ es) :
    excL (updateFirst es u v w) x = excL es x -
      w * ((if u = x then 1 else 0) - (if v = x then 1 else 0)) := by
  rw [excL, excL, outL_updateFirst es u v w x hpres,
    inL_updateFirst es u v w x hpres]
  by_cases hux : u = x <;> by_cases hvx : v = x <;>
    simp [hux, hvx] <;> ring

theorem sum_updateFirst (es : List Edge) (u v : ℕ) (w : ℤ)
    (hpres : ∃ f, (u, v, f) ∈ es) :
    ((updateFirst es u v w).map (fun e => e.2.2)).sum =
      (es.map (fun e => e.2.2)).sum - w := by
  induction es with
  | nil => simp at hpres
  | cons e rest ih =>
    by_cases hc : e.1 = u ∧ e.2.1 = v
    · rw [updateFirst_cons, if_pos hc, List.map_cons, List.map_cons,
        List.sum_cons, List.sum_cons]
      ring
    · obtain ⟨f, hf⟩ := hpres
      have hrest : (u, v, f) ∈ rest := by
        rcases List.mem_cons.mp hf with heq | hmem
        · rw [← heq] at hc
          exact absurd ⟨rfl, rfl⟩ hc
        · exact hmem
      rw [updateFirst_cons, if_neg hc, List.map_cons, List.map_cons,
        List.sum_cons, List.sum_cons, ih ⟨f, hrest⟩]
      ring

theorem pairs_mem_iff (es : List Edge) (u v : ℕ) :
    (u, v) ∈ es.map (fun e => (e.1, e.2.1)) ↔ ∃ f, (u, v, f) ∈ es := by
  constructor
  · intro h
    obtain ⟨e, he, heq⟩ := List.mem_map.mp h
    obtain ⟨a, b, c⟩ := e
    simp only [Prod.mk.injEq] at heq
    obtain ⟨h1, h2⟩ := heq
    subst h1
    subst h2
    exact ⟨c, he⟩
  · rintro ⟨f, hf⟩
    exact List.mem_map.mpr ⟨(u, v, f), hf, rfl⟩

theorem foldUpd_pairs (prs : List (ℕ × ℕ)) (es : List Edge) (w : ℤ) :
    ((prs.foldl (fun es2 pr => updateFirst es2 pr.1 pr.2 w) es).map
      (fun e => (e.1, e.2.1))) = es.map (fun e => (e.1, e.2.1)) := by
  induction prs generalizing es with
  | nil => rfl
  | cons pr prs ih =>
    rw [List.foldl_cons, ih, updateFirst_pairs]

theorem foldUpd_firstEdgeFlow (prs : List (ℕ × ℕ)) (es : List Edge) (w : ℤ)
    (u v : ℕ) (hnd : prs.Nodup) :
    firstEdgeFlow (prs.foldl (fun es2 pr => updateFirst es2 pr.1 pr.2 w) es)
        u v =
      if (u, v) ∈ prs then (firstEdgeFlow es u v).map (fun f => f - w)
      else firstEdgeFlow es u v := by
  induction prs generalizing es with
  | nil => simp
  | cons pr prs ih =>
    rw [List.nodup_cons] at hnd
    rw [List.foldl_cons, ih _ hnd.2]
    by_cases hin : (u, v) ∈ pr :: prs
    · rw [if_pos hin]
      rcases List.mem_cons.mp hin with heq | hmem
      · have hnin : (u, v) ∉ prs := by
          rw [heq]
          exact hnd.1
        rw [if_neg hnin, ← heq, firstEdgeFlow_updateFirst_self]
      · have hneq : ¬(u = pr.1 ∧ v = pr.2) := by
          intro hcon
          have : (u, v) = pr := by
            obtain ⟨p1, p2⟩ := pr
            simp only [Prod.mk.injEq]
            exact ⟨hcon.1, hcon.2⟩
          rw [this] at hmem
          exact hnd.1 hmem
        rw [if_pos hmem, firstEdgeFlow_updateFirst_other _ _ _ _ _ _ hneq]
    · have hnpr : ¬(u = pr.1 ∧ v = pr.2) := by
        intro hcon
        apply hin
        obtain ⟨p1, p2⟩ := pr
        simp only at hcon
        rw [hcon.1, hcon.2]
        exact List.mem_cons_self _ _
      have hnin : (u, v) ∉ prs := fun hm => hin (List.mem_cons_of_mem _ hm)
      rw [if_neg hin, if_neg hnin,
        firstEdgeFlow_updateFirst_other _ _ _ _ _ _ hnpr]

theorem foldUpd_sum (prs : List (ℕ × ℕ)) (es : List Edge) (w : ℤ)
    (hpres : ∀ pr ∈ prs, ∃ f, (pr.1, pr.2, f) ∈ es) :
    (((prs.foldl (fun es2 pr => updateFirst es2 pr.1 pr.2 w) es).map
      (fun e => e.2.2))).sum =
      (es.map (fun e => e.2.2)).sum - w * prs.length := by
  induction prs generalizing es with
  | nil => simp
  | cons pr prs ih =>
    have hpres2 : ∀ pr2 ∈ prs, ∃ f, (pr2.1, pr2.2, f) ∈
        updateFirst es pr.1 pr.2 w := by
      intro pr2 hpr2
      rw [← pairs_mem_iff, updateFirst_pairs, pairs_mem_iff]
      exact hpres pr2 (List.mem_cons_of_mem _ hpr2)
    rw [List.foldl_cons, ih _ hpres2,
      sum_updateFirst es pr.1 pr.2 w (hpres pr (List.mem_cons_self _ _))]
    simp only [List.length_cons]
    push_cast
    ring

theorem exc_foldUpd_walk (w : ℤ) (x : ℕ) :
    ∀ (nodes : List ℕ) (es : List Edge), nodes ≠ [] →
      (∀ pr ∈ walkPairs nodes, ∃ f, (pr.1, pr.2, f) ∈ es) →
      excL ((walkPairs nodes).foldl
          (fun es2 pr => updateFirst es2 pr.1 pr.2 w) es) x =
        excL es x - w * ((if nodes.headD 0 = x then 1 else 0) -
          (if nodes.getLastD 0 = x then 1 else 0)) := by
  intro nodes
  induction nodes with
  | nil => intro es h; exact absurd rfl h
  | cons n0 rest ih =>
    intro es _ hpres
    cases rest with
    | nil =>
      simp [walkPairs_single]
    | cons n1 rest2 =>
      rw [walkPairs_cons2, List.foldl_cons]
      have hmem0 : (n0, n1) ∈ walkPairs (n0 :: n1 :: rest2) := by
        rw [walkPairs_cons2]
        exact List.mem_cons_self _ _
      have hpres0 := hpres (n0, n1) hmem0
      have hpres2 : ∀ pr ∈ walkPairs (n1 :: rest2), ∃ f, (pr.1, pr.2, f) ∈
          updateFirst es n0 n1 w := by
        intro pr2 hpr2
        rw [← pairs_mem_iff, updateFirst_pairs, pairs_mem_iff]
        refine hpres pr2 ?_
        rw [walkPairs_cons2]
        exact List.mem_cons_of_mem _ hpr2
      rw [ih (updateFirst es n0 n1 w) (by simp) hpres2,
        excL_updateFirst es n0 n1 w x hpres0]
      have hl : (n0 :: n1 :: rest2).getLastD 0 = (n1 :: rest2).getLastD 0 := rfl
      have hh : (n0 :: n1 :: rest2).headD 0 = n0 := rfl
      have hh2 : (n1 :: rest2).headD 0 = n1 := rfl
      rw [hl, hh, hh2]
      ring

/-! # Lemmas: invariants preserved by one subtraction round -/

theorem firstEdgeFlow_mem (es : List Edge) (u v : ℕ) (f : ℤ)
    (h : firstEdgeFlow es u v = some f) : (u, v, f) ∈ es := by
  induction es with
  | nil => exact absurd h (by simp [firstEdgeFlow])
  | cons e rest ih =>
    rw [firstEdgeFlow_cons] at h
    by_cases hc : e.1 = u ∧ e.2.1 = v
    · rw [if_pos hc] at h
      have he : e = (u, v, f) := by
        obtain ⟨a, b, c⟩ := e
        obtain ⟨h1, h2⟩ := hc
        cases h1
        cases h2
        have h3 : f = c := by simpa using h.symm
        rw [h3]
      rw [← he]
      exact List.mem_cons_self _ _
    · rw [if_neg hc] at h
      exact List.mem_cons_of_mem _ (ih h)

theorem totalFlow_nonneg (g : Graph) (h : flowsNonneg g) : 0 ≤ totalFlow g := by
  refine List.sum_nonneg ?_
  intro x hx
  obtain ⟨e, he, heq⟩ := List.mem_map.mp hx
  rw [← heq]
  exact h e he

theorem subtractPairs_V (g : Graph) (prs : List (ℕ × ℕ)) (w : ℤ) :
    (subtractPairs g prs w).V = g.V := rfl

theorem subtractPairs_edges (g : Graph) (prs : List (ℕ × ℕ)) (w : ℤ) :
    (subtractPairs g prs w).edges =
      prs.foldl (fun es pr => updateFirst es pr.1 pr.2 w) g.edges := rfl

theorem subtractPairs_pairs (g : Graph) (prs : List (ℕ × ℕ)) (w : ℤ) :
    (subtractPairs g prs w).edges.map (fun e => (e.1, e.2.1)) =
      g.edges.map (fun e => (e.1, e.2.1)) := by
  rw [subtractPairs_edges]
  exact foldUpd_pairs prs g.edges w

theorem subtract_mem_pairs (g : Graph) (prs : List (ℕ × ℕ)) (w : ℤ)
    (e : Edge) (he : e ∈ (subtractPairs g prs w).edges) :
    ∃ f, (e.1, e.2.1, f) ∈ g.edges := by
  rw [← pairs_mem_iff, ← subtractPairs_pairs g prs w, pairs_mem_iff]
  exact ⟨e.2.2, by
    obtain ⟨a, b, c⟩ := e
    exact he⟩

theorem pairsNodup_subtract (g : Graph) (prs : List (ℕ × ℕ)) (w : ℤ)
    (h : pairsNodup g) : pairsNodup (subtractPairs g prs w) := by
  rw [pairsNodup, subtractPairs_pairs]
  exact h

theorem endpointsInRange_subtract (g : Graph) (prs : List (ℕ × ℕ)) (w : ℤ)
    (h : endpointsInRange g) : endpointsInRange (subtractPairs g prs w) := by
  intro e he
  obtain ⟨f, hf⟩ := subtract_mem_pairs g prs w e he
  have := h _ hf
  rw [subtractPairs_V]
  exact this

theorem flowsNonneg_subtract (g : Graph) (prs : List (ℕ × ℕ)) (w : ℤ)
    (hpnd : pairsNodup g) (hnn : flowsNonneg g) (hnd : prs.Nodup)
    (hfl : ∀ pr ∈ prs, ∃ f, firstEdgeFlow g.edges pr.1 pr.2 = some f ∧ w ≤ f) :
    flowsNonneg (subtractPairs g prs w) := by
  intro e he
  have hlook : firstEdgeFlow (subtractPairs g prs w).edges e.1 e.2.1 =
      some e.2.2 := by
    refine firstEdgeFlow_of_nodup _ _ _ _ (pairsNodup_subtract g prs w hpnd) ?_
    obtain ⟨a, b, c⟩ := e
    exact he
  rw [subtractPairs_edges, foldUpd_firstEdgeFlow prs g.edges w _ _ hnd] at hlook
  by_cases hin : (e.1, e.2.1) ∈ prs
  · rw [if_pos hin] at hlook
    obtain ⟨f, hf, hwf⟩ := hfl _ hin
    rw [hf] at hlook
    have : f - w = e.2.2 := by simpa using hlook
    omega
  · rw [if_neg hin] at hlook
    have := hnn _ (firstEdgeFlow_mem _ _ _ _ hlook)
    simpa using this

theorem noFlowIntoSource_subtract (g : Graph) (prs : List (ℕ × ℕ)) (w : ℤ)
    (hpnd : pairsNodup g) (hz : noFlowIntoSource g) (hnd : prs.Nodup)
    (hfl : ∀ pr ∈ prs, ∃ f, firstEdgeFlow g.edges pr.1 pr.2 = some f ∧
      0 < f) :
    noFlowIntoSource (subtractPairs g prs w) := by
  intro e he htgt
  have hlook : firstEdgeFlow (subtractPairs g prs w).edges e.1 e.2.1 =
      some e.2.2 := by
    refine firstEdgeFlow_of_nodup _ _ _ _ (pairsNodup_subtract g prs w hpnd) ?_
    obtain ⟨a, b, c⟩ := e
    exact he
  rw [subtractPairs_edges, foldUpd_firstEdgeFlow prs g.edges w _ _ hnd] at hlook
  by_cases hin : (e.1, e.2.1) ∈ prs
  · obtain ⟨f, hf, hfpos⟩ := hfl _ hin
    have hold : f = 0 := hz _ (firstEdgeFlow_mem _ _ _ _ hf) htgt
    rw [hold] at hfpos
    exact absurd hfpos (by simp)
  · rw [if_neg hin] at hlook
    exact hz _ (firstEdgeFlow_mem _ _ _ _ hlook) htgt

theorem noFlowOutOfSink_subtract (g : Graph) (prs : List (ℕ × ℕ)) (w : ℤ)
    (hpnd : pairsNodup g) (hz : noFlowOutOfSink g) (hnd : prs.Nodup)
    (hfl : ∀ pr ∈ prs, ∃ f, firstEdgeFlow g.edges pr.1 pr.2 = some f ∧
      0 < f) :
    noFlowOutOfSink (subtractPairs g prs w) := by
  intro e he hsrc
  rw [subtractPairs_V] at hsrc
  have hlook : firstEdgeFlow (subtractPairs g prs w).edges e.1 e.2.1 =
      some e.2.2 := by
    refine firstEdgeFlow_of_nodup _ _ _ _ (pairsNodup_subtract g prs w hpnd) ?_
    obtain ⟨a, b, c⟩ := e
    exact he
  rw [subtractPairs_edges, foldUpd_firstEdgeFlow prs g.edges w _ _ hnd] at hlook
  by_cases hin : (e.1, e.2.1) ∈ prs
  · obtain ⟨f, hf, hfpos⟩ := hfl _ hin
    have hold : f = 0 := hz _ (firstEdgeFlow_mem _ _ _ _ hf) hsrc
    rw [hold] at hfpos
    exact absurd hfpos (by simp)
  · rw [if_neg hin] at hlook
    exact hz _ (firstEdgeFlow_mem _ _ _ _ hlook) hsrc

theorem alookup_bumpFold (w : ℤ) (prs : List (ℕ × ℕ))
    (cal : List ((ℕ × ℕ) × ℤ)) (k : ℕ × ℕ) (hnd : prs.Nodup) :
    alookup k (bumpFold w prs cal) =
      if k ∈ prs then (alookup k cal).map (fun x => x + w)
      else alookup k cal := by
  induction prs generalizing cal with
  | nil => simp [bumpFold]
  | cons pr prs ih =>
    rw [List.nodup_cons] at hnd
    rw [bumpFold_cons, ih _ hnd.2]
    by_cases hin : k ∈ pr :: prs
    · rw [if_pos hin]
      rcases List.mem_cons.mp hin with heq | hmem
      · have hnin : k ∉ prs := by
          rw [heq]
          exact hnd.1
        rw [if_neg hnin, ← heq, alookup_bump_self]
      · have hne : k ≠ pr := by
          intro hcon
          rw [hcon] at hmem
          exact hnd.1 hmem
        rw [if_pos hmem, alookup_bump_other _ _ _ _ hne]
    · have hne : k ≠ pr := by
        intro hcon
        rw [hcon] at hin
        exact hin (List.mem_cons_self _ _)
      have hnin : k ∉ prs := fun hm => hin (List.mem_cons_of_mem _ hm)
      rw [if_neg hin, if_neg hnin, alookup_bump_other _ _ _ _ hne]

theorem accounts_subtract (g : Graph) (prs : List (ℕ × ℕ)) (w : ℤ)
    (orig cal : List ((ℕ × ℕ) × ℤ))
    (hacc : accounts orig cal g) (hal : calAligned cal g) (hnd : prs.Nodup)
    (hfl : ∀ pr ∈ prs, ∃ f, firstEdgeFlow g.edges pr.1 pr.2 = some f) :
    accounts orig (bumpFold w prs cal) (subtractPairs g prs w) := by
  intro u v
  rw [alookup_bumpFold w prs cal (u, v) hnd, subtractPairs_edges,
    foldUpd_firstEdgeFlow prs g.edges w _ _ hnd]
  by_cases hin : (u, v) ∈ prs
  · rw [if_pos hin, if_pos hin]
    obtain ⟨f, hf⟩ := hfl _ hin
    have hkey := hal u v f hf
    have hsome : alookup (u, v) cal ≠ none := fun hc =>
      (alookup_eq_none_iff cal (u, v)).mp hc hkey
    obtain ⟨a, ha⟩ := Option.ne_none_iff_exists.mp hsome
    have hold := hacc u v
    rw [← ha, hf] at hold ⊢
    simp only [Option.map_some', Option.getD_some] at hold ⊢
    omega
  · rw [if_neg hin, if_neg hin]
    exact hacc u v

theorem calAligned_subtract (g : Graph) (prs : List (ℕ × ℕ)) (w : ℤ)
    (cal : List ((ℕ × ℕ) × ℤ)) (hal : calAligned cal g) (hnd : prs.Nodup) :
    calAligned (bumpFold w prs cal) (subtractPairs g prs w) := by
  intro u v f hf
  rw [bumpFold_keys]
  rw [subtractPairs_edges, foldUpd_firstEdgeFlow prs g.edges w _ _ hnd] at hf
  by_cases hin : (u, v) ∈ prs
  · rw [if_pos hin] at hf
    rcases hold : firstEdgeFlow g.edges u v with _ | f0
    · rw [hold] at hf
      exact absurd hf (by simp)
    · exact hal u v f0 hold
  · rw [if_neg hin] at hf
    exact hal u v f hf

theorem totalFlow_subtract (g : Graph) (prs : List (ℕ × ℕ)) (w : ℤ)
    (hpres : ∀ pr ∈ prs, ∃ f, (pr.1, pr.2, f) ∈ g.edges) :
    totalFlow (subtractPairs g prs w) = totalFlow g - w * prs.length := by
  rw [totalFlow, totalFlow, subtractPairs_edges]
  exact foldUpd_sum prs g.edges w hpres

/-! # Lemmas: one iteration of each extraction loop -/

theorem getLastD_append_singleton (l : List ℕ) (a : ℕ) :
    (l ++ [a]).getLastD 0 = a := by
  rw [List.getLastD_eq_getLast?, List.getLast?_concat]
  rfl

theorem headD_append_of_ne_nil (l t : List ℕ) (h : l ≠ []) :
    (l ++ t).headD 0 = l.headD 0 := by
  cases l with
  | nil => exact absurd rfl h
  | cons a r => rfl

theorem cycle_nodes_nodup (u : ℕ) (bnodes : List ℕ) (hne : bnodes ≠ [])
    (hlast : bnodes.getLastD 0 = u) (hnd : bnodes.Nodup) :
    ((u :: bnodes).dropLast).Nodup := by
  have hdl : (u :: bnodes).dropLast = u :: bnodes.dropLast := by
    cases bnodes with
    | nil => exact absurd rfl hne
    | cons b t => rfl
  rw [hdl, List.nodup_cons]
  have hperm := dropLast_append_getLastD bnodes hne
  rw [hlast] at hperm
  have hnd2 : (bnodes.dropLast ++ [u]).Nodup := by
    rw [hperm]
    exact hnd
  rw [List.nodup_append] at hnd2
  exact ⟨fun hm => hnd2.2.2 hm (List.mem_singleton.mpr rfl), hnd2.1⟩

theorem pathStep_no_crash (g : Graph) (hV : 2 ≤ g.V) :
    pathStep g ≠ PathStep.crash := by
  intro h
  unfold pathStep at h
  split at h
  · exact PathStep.noConfusion h
  · rename_i nodes heq
    obtain ⟨hne, hhead, hlast, -, -, hw, -⟩ := findPath_some_elim g nodes none heq
    have hwp : walkPairs nodes = [] := by
      by_contra hc
      obtain ⟨w, hw2⟩ := hw hc
      exact Option.noConfusion hw2
    obtain ⟨a, ha⟩ : ∃ a, nodes = [a] := by
      cases nodes with
      | nil => exact absurd rfl hne
      | cons a t =>
        cases t with
        | nil => exact ⟨a, rfl⟩
        | cons b t2 =>
          rw [walkPairs_cons2] at hwp
          exact absurd hwp (by simp)
    rw [ha] at hhead hlast
    have hh2 : a = 1 := hhead
    have hl2 : a = g.V := hlast
    omega
  · rename_i nodes w heq
    by_cases hw0 : w = 0
    · rw [if_pos hw0] at h
      exact PathStep.noConfusion h
    · rw [if_neg hw0] at h
      exact PathStep.noConfusion h

theorem pathStep_stop_elim (g : Graph) (hpnd : pairsNodup g)
    (h : pathStep g = PathStep.stop) : findPath g = none := by
  unfold pathStep at h
  split at h
  · rename_i heq
    exact heq
  · exact PathStep.noConfusion h
  · rename_i nodes w heq
    by_cases hw0 : w = 0
    · obtain ⟨-, -, -, -, hedges, -, hmin⟩ :=
        findPath_some_elim g nodes (some w) heq
      obtain ⟨⟨pr, hpr, hprf⟩, -⟩ := hmin w rfl
      obtain ⟨f, hf, hfpos⟩ := hedges pr hpr
      have hfl : firstEdgeFlow g.edges pr.1 pr.2 = some f :=
        firstEdgeFlow_of_nodup _ _ _ _ hpnd hf
      rw [hprf] at hfl
      have hwf : w = f := Option.some.inj hfl
      omega
    · rw [if_neg hw0] at h
      exact PathStep.noConfusion h

theorem pathStep_next_elim (g : Graph) (w : ℤ) (nodes : List ℕ) (g1 : Graph)
    (hpnd : pairsNodup g) (h : pathStep g = PathStep.next (w, nodes) g1) :
    g1 = subtractPairs g (walkPairs nodes) w ∧ 1 ≤ w ∧ nodes ≠ [] ∧
    nodes.headD 0 = 1 ∧ nodes.getLastD 0 = g.V ∧ nodes.Nodup ∧
    (walkPairs nodes).Nodup ∧ walkPairs nodes ≠ [] ∧
    (∀ pr ∈ walkPairs nodes, ∃ f, firstEdgeFlow g.edges pr.1 pr.2 = some f ∧
      w ≤ f ∧ 0 < f) := by
  unfold pathStep at h
  split at h
  · exact PathStep.noConfusion h
  · exact PathStep.noConfusion h
  · rename_i nodes0 w0 heq
    by_cases hw0 : w0 = 0
    · rw [if_pos hw0] at h
      exact PathStep.noConfusion h
    · rw [if_neg hw0] at h
      rw [PathStep.next.injEq, Prod.mk.injEq] at h
      obtain ⟨⟨hww, hnn⟩, hg⟩ := h
      subst hww
      subst hnn
      subst hg
      obtain ⟨hne, hhead, hlast, hnd, hedges, -, hmin⟩ :=
        findPath_some_elim g nodes0 (some w0) heq
      obtain ⟨⟨prc, hprc, hprcf⟩, hminle⟩ := hmin w0 rfl
      obtain ⟨fc, hfc, hfcpos⟩ := hedges prc hprc
      have hfcl : firstEdgeFlow g.edges prc.1 prc.2 = some fc :=
        firstEdgeFlow_of_nodup _ _ _ _ hpnd hfc
      rw [hprcf] at hfcl
      have hwfc : w0 = fc := Option.some.inj hfcl
      refine ⟨rfl, by omega, hne, hhead, hlast, hnd, walkPairs_nodup _ hnd,
        ?_, ?_⟩
      · intro hc
        rw [hc] at hprc
        exact absurd hprc (by simp)
      · intro pr hpr
        obtain ⟨f, hf, hfpos⟩ := hedges pr hpr
        have hfl : firstEdgeFlow g.edges pr.1 pr.2 = some f :=
          firstEdgeFlow_of_nodup _ _ _ _ hpnd hf
        exact ⟨f, hfl, hminle pr hpr f hfl, hfpos⟩

theorem cycleStep_none_elim (g : Graph) (h : cycleStep g = none) :
    findCycle g = none := by
  unfold cycleStep at h
  split at h
  · rename_i heq
    exact heq
  · rename_i nodes0 w0 heq
    obtain ⟨hwpos, -⟩ := findCycle_some_elim g nodes0 w0 heq
    by_cases hw0 : w0 = 0
    · omega
    · rw [if_neg hw0] at h
      exact Option.noConfusion h

theorem cycleStep_some_elim (g : Graph) (w : ℤ) (ser : List ℕ) (g1 : Graph)
    (hpnd : pairsNodup g) (h : cycleStep g = some ((w, ser), g1)) :
    ∃ nodes, ser = nodes ++ [nodes.headD 0] ∧
      g1 = subtractPairs g (wrapPairs nodes) w ∧ 1 ≤ w ∧ nodes ≠ [] ∧
      nodes.Nodup ∧ wrapPairs nodes = walkPairs ser ∧
      (wrapPairs nodes).Nodup ∧ wrapPairs nodes ≠ [] ∧
      ser.headD 0 = ser.getLastD 0 ∧ ser ≠ [] ∧
      (∀ pr ∈ wrapPairs nodes, ∃ f, firstEdgeFlow g.edges pr.1 pr.2 = some f ∧
        w ≤ f ∧ 0 < f) := by
  unfold cycleStep at h
  split at h
  · exact Option.noConfusion h
  · rename_i nodes0 w0 heq
    by_cases hw0 : w0 = 0
    · rw [if_pos hw0] at h
      exact Option.noConfusion h
    · rw [if_neg hw0] at h
      simp only [Option.some_inj, Prod.mk.injEq] at h
      obtain ⟨⟨hww, hser⟩, hg⟩ := h
      subst hww
      subst hser
      subst hg
      obtain ⟨hwpos, u, v, f, bnodes, hedge, hfpos, hwf, hback, hnodes⟩ :=
        findCycle_some_elim g nodes0 w0 heq
      obtain ⟨hbne, hbhead, hblast, hbnd, hbedges, -, -, hbmin⟩ :=
        findPathBack_some_elim g v u f bnodes w0 hback
      have hdl : (u :: bnodes).dropLast = u :: bnodes.dropLast := by
        cases bnodes with
        | nil => exact absurd rfl hbne
        | cons b t => rfl
      have hn0ne : nodes0 ≠ [] := by
        rw [hnodes, hdl]
        simp
      have hwrap : wrapPairs nodes0 = (u, bnodes.headD 0) :: walkPairs bnodes := by
        rw [hnodes]
        exact wrapPairs_cycle u bnodes hbne hblast
      have hn0head : nodes0.headD 0 = u := by
        rw [hnodes, hdl]
        rfl
      refine ⟨nodes0, rfl, rfl, by omega, hn0ne, ?_, ?_, ?_, ?_, ?_, ?_, ?_⟩
      · rw [hnodes]
        exact cycle_nodes_nodup u bnodes hbne hblast hbnd
      · exact wrapPairs_eq_serialized nodes0 hn0ne
      · rw [hnodes]
        exact wrapPairs_nodup u bnodes hbne hblast hbnd
      · rw [hwrap]
        simp
      · rw [headD_append_of_ne_nil nodes0 _ hn0ne, getLastD_append_singleton]
      · simp
      · intro pr hpr
        rw [hwrap] at hpr
        rcases List.mem_cons.mp hpr with hpre | hmem
        · rw [hbhead] at hpre
          subst hpre
          exact ⟨f, firstEdgeFlow_of_nodup _ _ _ _ hpnd hedge, hwf, hfpos⟩
        · obtain ⟨fp, hfpmem, hfppos⟩ := hbedges pr hmem
          have hfpl : firstEdgeFlow g.edges pr.1 pr.2 = some fp :=
            firstEdgeFlow_of_nodup _ _ _ _ hpnd hfpmem
          exact ⟨fp, hfpl, hbmin pr hmem fp hfpl, hfppos⟩

/-! # Lemmas: the two phases as wholes -/

theorem pathPhase_spec (fuel : ℕ) :
    ∀ (g : Graph) (acc : List (ℤ × List ℕ)) (orig cal : List ((ℕ × ℕ) × ℤ)),
    2 ≤ g.V → pairsNodup g → flowsNonneg g →
    accounts orig cal g → calAligned cal g →
    ∃ P1 g1 d1, pathPhase fuel g acc = some (acc ++ P1, g1, d1) ∧
      g1.V = g.V ∧ pairsNodup g1 ∧ flowsNonneg g1 ∧
      accounts orig (recordFold P1 cal) g1 ∧
      calAligned (recordFold P1 cal) g1 ∧
      totalFlow g1 + P1.length ≤ totalFlow g ∧
      (d1 = false → P1.length = fuel) ∧
      (totalFlow g < (fuel : ℤ) → d1 = true) ∧
      (d1 = true → findPath g1 = none) ∧
      (endpointsInRange g → endpointsInRange g1) ∧
      (noFlowIntoSource g → noFlowIntoSource g1) ∧
      (noFlowOutOfSink g → noFlowOutOfSink g1) ∧
      (∀ x, x ≠ 1 → x ≠ g.V → excL g1.edges x = excL g.edges x) := by
  induction fuel with
  | zero =>
    intro g acc orig cal hV hpnd hnn hacc hal
    refine ⟨[], g, false, by simp [pathPhase], rfl, hpnd, hnn, hacc, hal,
      by simp, fun _ => rfl, ?_, ?_, fun h => h, fun h => h, fun h => h,
      fun x _ _ => rfl⟩
    · intro hlt
      have := totalFlow_nonneg g hnn
      exact absurd hlt (by push_cast; omega)
    · intro hcon
      simp at hcon
  | succ fuel ih =>
    intro g acc orig cal hV hpnd hnn hacc hal
    rcases hstep : pathStep g with _ | _ | ⟨r, g2⟩
    · have hfp : findPath g = none := pathStep_stop_elim g hpnd hstep
      refine ⟨[], g, true, ?_, rfl, hpnd, hnn, hacc, hal, by simp, ?_,
        fun _ => rfl, fun _ => hfp, fun h => h, fun h => h, fun h => h,
        fun x _ _ => rfl⟩
      · simp [pathPhase, hstep]
      · intro hcon
        simp at hcon
    · exact absurd hstep (pathStep_no_crash g hV)
    · obtain ⟨w, nodes⟩ := r
      obtain ⟨hg2, hw1, hne, hhead, hlast, hnd, hpnds, hwpne, hflows⟩ :=
        pathStep_next_elim g w nodes g2 hpnd hstep
      subst hg2
      have hfl1 : ∀ pr ∈ walkPairs nodes,
          ∃ f, firstEdgeFlow g.edges pr.1 pr.2 = some f :=
        fun pr hpr => (hflows pr hpr).imp (fun f hf => hf.1)
      have hfl2 : ∀ pr ∈ walkPairs nodes,
          ∃ f, firstEdgeFlow g.edges pr.1 pr.2 = some f ∧ w ≤ f :=
        fun pr hpr => (hflows pr hpr).imp (fun f hf => ⟨hf.1, hf.2.1⟩)
      have hfl3 : ∀ pr ∈ walkPairs nodes,
          ∃ f, firstEdgeFlow g.edges pr.1 pr.2 = some f ∧ 0 < f :=
        fun pr hpr => (hflows pr hpr).imp (fun f hf => ⟨hf.1, hf.2.2⟩)
      have hpres : ∀ pr ∈ walkPairs nodes, ∃ f, (pr.1, pr.2, f) ∈ g.edges :=
        fun pr hpr => (hflows pr hpr).imp
          (fun f hf => firstEdgeFlow_mem _ _ _ _ hf.1)
      have hV2 : 2 ≤ (subtractPairs g (walkPairs nodes) w).V := hV
      have hpnd2 := pairsNodup_subtract g (walkPairs nodes) w hpnd
      have hnn2 := flowsNonneg_subtract g (walkPairs nodes) w hpnd hnn hpnds hfl2
      have hacc2 := accounts_subtract g (walkPairs nodes) w orig cal hacc hal
        hpnds hfl1
      have hal2 := calAligned_subtract g (walkPairs nodes) w cal hal hpnds
      obtain ⟨P1, g1, d1, hrun, hV1, hpnd1, hnn1, hacc1, hal1, htot, hlen,
          hfuel, hdone, hrange1, hsrc1, hsink1, hexc1⟩ :=
        ih (subtractPairs g (walkPairs nodes) w) (acc ++ [(w, nodes)]) orig
          (bumpFold w (walkPairs nodes) cal) hV2 hpnd2 hnn2 hacc2 hal2
      have hsub : totalFlow (subtractPairs g (walkPairs nodes) w) =
          totalFlow g - w * (walkPairs nodes).length :=
        totalFlow_subtract g (walkPairs nodes) w hpres
      have hlenpos : 1 ≤ (walkPairs nodes).length :=
        List.length_pos.mpr hwpne
      have hlenposZ : (1 : ℤ) ≤ ((walkPairs nodes).length : ℤ) := by
        exact_mod_cast hlenpos
      have hwle : w ≤ w * ((walkPairs nodes).length : ℤ) :=
        le_mul_of_one_le_right (by omega) hlenposZ
      refine ⟨(w, nodes) :: P1, g1, d1, ?_, ?_, hpnd1, hnn1, ?_, ?_, ?_, ?_,
        ?_, hdone, ?_, ?_, ?_, ?_⟩
      · simp only [pathPhase, hstep]
        rw [hrun]
        simp
      · rw [hV1, subtractPairs_V]
      · rw [recordFold_cons]
        exact hacc1
      · rw [recordFold_cons]
        exact hal1
      · simp only [List.length_cons]
        push_cast
        linarith [htot, hsub, hwle, hw1]
      · intro hf
        have := hlen hf
        simp only [List.length_cons, this]
      · intro hlt
        apply hfuel
        push_cast
        push_cast at hlt
        linarith [hsub, hwle, hw1]
      · intro hr
        exact hrange1 (endpointsInRange_subtract g (walkPairs nodes) w hr)
      · intro hs
        exact hsrc1 (noFlowIntoSource_subtract g (walkPairs nodes) w hpnd hs
          hpnds hfl3)
      · intro hs
        exact hsink1 (noFlowOutOfSink_subtract g (walkPairs nodes) w hpnd hs
          hpnds hfl3)
      · intro x hx1 hxV
        rw [hexc1 x hx1 hxV, subtractPairs_edges,
          exc_foldUpd_walk w x nodes g.edges hne hpres, hhead, hlast,
          if_neg (fun hc => hx1 hc.symm), if_neg (fun hc => hxV hc.symm)]
        ring

theorem cyclePhase_spec (fuel : ℕ) :
    ∀ (g : Graph) (acc : List (ℤ × List ℕ)) (orig cal : List ((ℕ × ℕ) × ℤ)),
    pairsNodup g → flowsNonneg g →
    accounts orig cal g → calAligned cal g →
    ∃ C1 g1 d1, cyclePhase fuel g acc = (acc ++ C1, g1, d1) ∧
      g1.V = g.V ∧ pairsNodup g1 ∧ flowsNonneg g1 ∧
      accounts orig (recordFold C1 cal) g1 ∧
      calAligned (recordFold C1 cal) g1 ∧
      totalFlow g1 + C1.length ≤ totalFlow g ∧
      (d1 = false → C1.length = fuel) ∧
      (totalFlow g < (fuel : ℤ) → d1 = true) ∧
      (d1 = true → findCycle g1 = none) ∧
      (endpointsInRange g → endpointsInRange g1) ∧
      (noFlowIntoSource g → noFlowIntoSource g1) ∧
      (noFlowOutOfSink g → noFlowOutOfSink g1) ∧
      (∀ x, excL g1.edges x = excL g.edges x) := by
  induction fuel with
  | zero =>
    intro g acc orig cal hpnd hnn hacc hal
    refine ⟨[], g, false, by simp [cyclePhase], rfl, hpnd, hnn, hacc, hal,
      by simp, fun _ => rfl, ?_, ?_, fun h => h, fun h => h, fun h => h,
      fun x => rfl⟩
    · intro hlt
      have := totalFlow_nonneg g hnn
      exact absurd hlt (by push_cast; omega)
    · intro hcon
      simp at hcon
  | succ fuel ih =>
    intro g acc orig cal hpnd hnn hacc hal
    rcases hstep : cycleStep g with _ | ⟨r, g2⟩
    · have hfc : findCycle g = none := cycleStep_none_elim g hstep
      refine ⟨[], g, true, ?_, rfl, hpnd, hnn, hacc, hal, by simp, ?_,
        fun _ => rfl, fun _ => hfc, fun h => h, fun h => h, fun h => h,
        fun x => rfl⟩
      · simp [cyclePhase, hstep]
      · intro hcon
        simp at hcon
    · obtain ⟨w, ser⟩ := r
      obtain ⟨nodes, hser, hg2, hw1, hnne, hnnd, hwrap, hprnd, hprne, hhl,
          hserne, hflows⟩ := cycleStep_some_elim g w ser g2 hpnd hstep
      subst hg2
      have hfl1 : ∀ pr ∈ wrapPairs nodes,
          ∃ f, firstEdgeFlow g.edges pr.1 pr.2 = some f :=
        fun pr hpr => (hflows pr hpr).imp (fun f hf => hf.1)
      have hfl2 : ∀ pr ∈ wrapPairs nodes,
          ∃ f, firstEdgeFlow g.edges pr.1 pr.2 = some f ∧ w ≤ f :=
        fun pr hpr => (hflows pr hpr).imp (fun f hf => ⟨hf.1, hf.2.1⟩)
      have hfl3 : ∀ pr ∈ wrapPairs nodes,
          ∃ f, firstEdgeFlow g.edges pr.1 pr.2 = some f ∧ 0 < f :=
        fun pr hpr => (hflows pr hpr).imp (fun f hf => ⟨hf.1, hf.2.2⟩)
      have hpres : ∀ pr ∈ wrapPairs nodes, ∃ f, (pr.1, pr.2, f) ∈ g.edges :=
        fun pr hpr => (hflows pr hpr).imp
          (fun f hf => firstEdgeFlow_mem _ _ _ _ hf.1)
      have hpnd2 := pairsNodup_subtract g (wrapPairs nodes) w hpnd
      have hnn2 := flowsNonneg_subtract g (wrapPairs nodes) w hpnd hnn hprnd hfl2
      have hacc2 := accounts_subtract g (wrapPairs nodes) w orig cal hacc hal
        hprnd hfl1
      have hal2 := calAligned_subtract g (wrapPairs nodes) w cal hal hprnd
      obtain ⟨C1, g1, d1, hrun, hV1, hpnd1, hnn1, hacc1, hal1, htot, hlen,
          hfuel, hdone, hrange1, hsrc1, hsink1, hexc1⟩ :=
        ih (subtractPairs g (wrapPairs nodes) w) (acc ++ [(w, ser)]) orig
          (bumpFold w (wrapPairs nodes) cal) hpnd2 hnn2 hacc2 hal2
      have hsub : totalFlow (subtractPairs g (wrapPairs nodes) w) =
          totalFlow g - w * (wrapPairs nodes).length :=
        totalFlow_subtract g (wrapPairs nodes) w hpres
      have hlenpos : 1 ≤ (wrapPairs nodes).length :=
        List.length_pos.mpr hprne
      have hlenposZ : (1 : ℤ) ≤ ((wrapPairs nodes).length : ℤ) := by
        exact_mod_cast hlenpos
      have hwle : w ≤ w * ((wrapPairs nodes).length : ℤ) :=
        le_mul_of_one_le_right (by omega) hlenposZ
      refine ⟨(w, ser) :: C1, g1, d1, ?_, ?_, hpnd1, hnn1, ?_, ?_, ?_, ?_,
        ?_, hdone, ?_, ?_, ?_, ?_⟩
      · simp only [cyclePhase, hstep]
        rw [hrun]
        simp
      · rw [hV1, subtractPairs_V]
      · rw [recordFold_cons]
        have hbeq : bumpFold w (walkPairs ser) cal =
            bumpFold w (wrapPairs nodes) cal := by rw [hwrap]
        rw [hbeq]
        exact hacc1
      · rw [recordFold_cons]
        have hbeq : bumpFold w (walkPairs ser) cal =
            bumpFold w (wrapPairs nodes) cal := by rw [hwrap]
        rw [hbeq]
        exact hal1
      · simp only [List.length_cons]
        push_cast
        linarith [htot, hsub, hwle, hw1]
      · intro hf
        have := hlen hf
        simp only [List.length_cons, this]
      · intro hlt
        apply hfuel
        push_cast
        push_cast at hlt
        linarith [hsub, hwle, hw1]
      · intro hr
        exact hrange1 (endpointsInRange_subtract g (wrapPairs nodes) w hr)
      · intro hs
        exact hsrc1 (noFlowIntoSource_subtract g (wrapPairs nodes) w hpnd hs
          hprnd hfl3)
      · intro hs
        exact hsink1 (noFlowOutOfSink_subtract g (wrapPairs nodes) w hpnd hs
          hprnd hfl3)
      · intro x
        have hpres2 : ∀ pr ∈ walkPairs ser, ∃ f, (pr.1, pr.2, f) ∈ g.edges := by
          rw [← hwrap]
          exact hpres
        rw [hexc1 x, subtractPairs_edges]
        have hfold : wrapPairs nodes = walkPairs ser := hwrap
        rw [hfold, exc_foldUpd_walk w x ser g.edges hserne hpres2, hhl]
        ring

/-! # Lemmas: the cut argument at each fixpoint -/

theorem sum_range_ite (V a : ℕ) (ha : a < V + 1) (K : List ℕ) (c : ℤ) :
    (∑ x in Finset.range (V + 1),
      if x ∈ K then (if a = x then c else 0) else 0) =
      if a ∈ K then c else 0 := by
  rw [Finset.sum_eq_single_of_mem a (Finset.mem_range.mpr ha)]
  · simp
  · intro b hb hne
    by_cases hk : b ∈ K
    · rw [if_pos hk, if_neg (fun hc => hne hc.symm)]
    · rw [if_neg hk]

theorem sum_range_eq_single (V a : ℕ) (ha : a < V + 1) (c : ℤ) :
    (∑ x in Finset.range (V + 1), if a = x then c else 0) = c := by
  rw [Finset.sum_eq_single_of_mem a (Finset.mem_range.mpr ha)]
  · simp
  · intro b hb hne
    rw [if_neg (fun hc => hne hc.symm)]

theorem vsum_eq_cut (es : List Edge) (K : List ℕ) (V : ℕ)
    (hrange : ∀ e ∈ es, 1 ≤ e.1 ∧ e.1 ≤ V ∧ 1 ≤ e.2.1 ∧ e.2.1 ≤ V) :
    (∑ x in Finset.range (V + 1), if x ∈ K then excL es x else 0) =
      (es.map (fun e => e.2.2 * ((if e.1 ∈ K then (1 : ℤ) else 0) -
        (if e.2.1 ∈ K then 1 else 0)))).sum := by
  induction es with
  | nil =>
    simp [excL, outL, inL]
  | cons e rest ih =>
    have hre := hrange e (List.mem_cons_self _ _)
    have hrr : ∀ e2 ∈ rest, 1 ≤ e2.1 ∧ e2.1 ≤ V ∧ 1 ≤ e2.2.1 ∧ e2.2.1 ≤ V :=
      fun e2 h2 => hrange e2 (List.mem_cons_of_mem _ h2)
    have hstep : ∀ x, (if x ∈ K then excL (e :: rest) x else 0) =
        ((if x ∈ K then (if e.1 = x then e.2.2 else 0) else 0) -
          (if x ∈ K then (if e.2.1 = x then e.2.2 else 0) else 0)) +
          (if x ∈ K then excL rest x else 0) := by
      intro x
      by_cases hk : x ∈ K
      · rw [if_pos hk, if_pos hk, if_pos hk, if_pos hk, excL, excL, outL_cons,
          inL_cons]
        ring
      · rw [if_neg hk, if_neg hk, if_neg hk, if_neg hk]
        ring
    rw [Finset.sum_congr rfl (fun x _ => hstep x), Finset.sum_add_distrib,
      Finset.sum_sub_distrib, sum_range_ite V e.1 (by omega) K e.2.2,
      sum_range_ite V e.2.1 (by omega) K e.2.2, ih hrr, List.map_cons,
      List.sum_cons]
    by_cases h1 : e.1 ∈ K <;> by_cases h2 : e.2.1 ∈ K <;>
      simp [h1, h2] <;> ring

theorem cut_nonpos (es : List Edge) (K : List ℕ)
    (hnn : ∀ e ∈ es, 0 ≤ e.2.2)
    (hcl : ∀ u ∈ K, ∀ e ∈ es, e.1 = u → 0 < e.2.2 → e.2.1 ∈ K) :
    (es.map (fun e => e.2.2 * ((if e.1 ∈ K then (1 : ℤ) else 0) -
      (if e.2.1 ∈ K then 1 else 0)))).sum ≤ 0 := by
  induction es with
  | nil => simp
  | cons e rest ih =>
    have hnnr : ∀ e2 ∈ rest, 0 ≤ e2.2.2 :=
      fun e2 h => hnn e2 (List.mem_cons_of_mem _ h)
    have hclr : ∀ u ∈ K, ∀ e2 ∈ rest, e2.1 = u → 0 < e2.2.2 → e2.2.1 ∈ K :=
      fun u hu e2 he2 => hcl u hu e2 (List.mem_cons_of_mem _ he2)
    rw [List.map_cons, List.sum_cons]
    have hf := hnn e (List.mem_cons_self _ _)
    have hterm : e.2.2 * ((if e.1 ∈ K then (1 : ℤ) else 0) -
        (if e.2.1 ∈ K then 1 else 0)) ≤ 0 := by
      by_cases h1 : e.1 ∈ K
      · by_cases hpos : 0 < e.2.2
        · have h2 : e.2.1 ∈ K := hcl e.1 h1 e (List.mem_cons_self _ _) rfl hpos
          simp [h1, h2]
        · have hz : e.2.2 = 0 := by omega
          simp [hz]
      · by_cases h2 : e.2.1 ∈ K
        · simp only [if_neg h1, if_pos h2]
          nlinarith
        · simp [h1, h2]
    linarith [hterm, ih hnnr hclr]

theorem cut_strict (es : List Edge) (K : List ℕ)
    (hnn : ∀ e ∈ es, 0 ≤ e.2.2)
    (hcl : ∀ u ∈ K, ∀ e ∈ es, e.1 = u → 0 < e.2.2 → e.2.1 ∈ K)
    (e0 : Edge) (he0 : e0 ∈ es) (hsrc : e0.1 ∉ K) (htgt : e0.2.1 ∈ K) :
    (es.map (fun e => e.2.2 * ((if e.1 ∈ K then (1 : ℤ) else 0) -
      (if e.2.1 ∈ K then 1 else 0)))).sum ≤ -e0.2.2 := by
  obtain ⟨l1, l2, rfl⟩ := List.append_of_mem he0
  rw [List.map_append, List.sum_append, List.map_cons, List.sum_cons]
  have h1 : (l1.map (fun e => e.2.2 * ((if e.1 ∈ K then (1 : ℤ) else 0) -
      (if e.2.1 ∈ K then 1 else 0)))).sum ≤ 0 := by
    refine cut_nonpos l1 K ?_ ?_
    · exact fun e2 h => hnn e2 (List.mem_append_left _ h)
    · exact fun u hu e2 he2 => hcl u hu e2 (List.mem_append_left _ he2)
  have h2 : (l2.map (fun e => e.2.2 * ((if e.1 ∈ K then (1 : ℤ) else 0) -
      (if e.2.1 ∈ K then 1 else 0)))).sum ≤ 0 := by
    refine cut_nonpos l2 K ?_ ?_
    · exact fun e2 h =>
        hnn e2 (List.mem_append_right _ (List.mem_cons_of_mem _ h))
    · exact fun u hu e2 he2 =>
        hcl u hu e2 (List.mem_append_right _ (List.mem_cons_of_mem _ he2))
  have hterm : e0.2.2 * ((if e0.1 ∈ K then (1 : ℤ) else 0) -
      (if e0.2.1 ∈ K then 1 else 0)) = -e0.2.2 := by
    rw [if_neg hsrc, if_pos htgt]
    ring
  linarith [h1, h2]

theorem sum_excL_range (es : List Edge) (V : ℕ)
    (hrange : ∀ e ∈ es, 1 ≤ e.1 ∧ e.1 ≤ V ∧ 1 ≤ e.2.1 ∧ e.2.1 ≤ V) :
    (∑ x in Finset.range (V + 1), excL es x) = 0 := by
  induction es with
  | nil =>
    simp [excL, outL, inL]
  | cons e rest ih =>
    have hre := hrange e (List.mem_cons_self _ _)
    have hrr : ∀ e2 ∈ rest, 1 ≤ e2.1 ∧ e2.1 ≤ V ∧ 1 ≤ e2.2.1 ∧ e2.2.1 ≤ V :=
      fun e2 h2 => hrange e2 (List.mem_cons_of_mem _ h2)
    have hstep : ∀ x, excL (e :: rest) x =
        ((if e.1 = x then e.2.2 else 0) - (if e.2.1 = x then e.2.2 else 0)) +
          excL rest x := by
      intro x
      rw [excL, excL, outL_cons, inL_cons]
      ring
    rw [Finset.sum_congr rfl (fun x _ => hstep x), Finset.sum_add_distrib,
      Finset.sum_sub_distrib, sum_range_eq_single V e.1 (by omega) e.2.2,
      sum_range_eq_single V e.2.1 (by omega) e.2.2, ih hrr]
    ring

theorem inL_eq_zero_of (es : List Edge) (x : ℕ)
    (h : ∀ e ∈ es, e.2.1 = x → e.2.2 = 0) : inL es x = 0 := by
  rw [inL]
  refine List.sum_eq_zero ?_
  intro i hi
  obtain ⟨e, he, heq⟩ := List.mem_map.mp hi
  rw [← heq]
  by_cases hc : e.2.1 = x
  · rw [if_pos hc]
    exact h e he hc
  · rw [if_neg hc]

theorem outL_nonneg_of (es : List Edge) (x : ℕ)
    (h : ∀ e ∈ es, 0 ≤ e.2.2) : 0 ≤ outL es x := by
  rw [outL]
  refine List.sum_nonneg ?_
  intro i hi
  obtain ⟨e, he, heq⟩ := List.mem_map.mp hi
  rw [← heq]
  by_cases hc : e.1 = x
  · rw [if_pos hc]
    exact h e he
  · rw [if_neg hc]

theorem outL_zero_of_absent (es : List Edge) (x : ℕ)
    (h : ∀ e ∈ es, e.1 ≠ x) : outL es x = 0 := by
  rw [outL]
  refine List.sum_eq_zero ?_
  intro i hi
  obtain ⟨e, he, heq⟩ := List.mem_map.mp hi
  rw [← heq, if_neg (h e he)]

theorem inL_zero_of_absent (es : List Edge) (x : ℕ)
    (h : ∀ e ∈ es, e.2.1 ≠ x) : inL es x = 0 := by
  rw [inL]
  refine List.sum_eq_zero ?_
  intro i hi
  obtain ⟨e, he, heq⟩ := List.mem_map.mp hi
  rw [← heq, if_neg (h e he)]

theorem conservedInternal_of_forall_le (g : Graph)
    (hrange : endpointsInRange g)
    (h : ∀ x, x ≤ g.V → x ≠ 1 → x ≠ g.V → excL g.edges x = 0) :
    conservedInternal g := by
  intro x hx1 hxV
  by_cases hle : x ≤ g.V
  · exact h x hle hx1 hxV
  · have ho : outL g.edges x = 0 := outL_zero_of_absent g.edges x
      (fun e he hc => hle (by rw [← hc]; exact (hrange e he).2.1))
    have hi : inL g.edges x = 0 := inL_zero_of_absent g.edges x
      (fun e he hc => hle (by rw [← hc]; exact (hrange e he).2.2.2))
    rw [excL, ho, hi]
    ring

theorem findPath_none_circulation (g : Graph) (hV : 2 ≤ g.V)
    (hnn : flowsNonneg g) (hrange : endpointsInRange g)
    (hcons : conservedInternal g) (hsrc : noFlowIntoSource g)
    (hfp : findPath g = none) :
    ∀ x, excL g.edges x = 0 := by
  obtain ⟨K, hK1, hKV, -, hKcl⟩ := findPath_none_elim g hfp
  have hin1 : inL g.edges 1 = 0 := inL_eq_zero_of g.edges 1 hsrc
  have hout1 : 0 ≤ outL g.edges 1 := outL_nonneg_of g.edges 1 hnn
  have hexc1ge : 0 ≤ excL g.edges 1 := by
    rw [excL, hin1]
    omega
  have hvsum : (∑ x in Finset.range (g.V + 1),
      if x ∈ K then excL g.edges x else 0) = excL g.edges 1 := by
    rw [Finset.sum_eq_single_of_mem 1 (Finset.mem_range.mpr (by omega))]
    · rw [if_pos hK1]
    · intro b hb hne
      by_cases hbK : b ∈ K
      · rw [if_pos hbK]
        by_cases hbV : b = g.V
        · rw [hbV] at hbK
          exact absurd hbK hKV
        · exact hcons b hne hbV
      · rw [if_neg hbK]
  have hcut := vsum_eq_cut g.edges K g.V (fun e he => hrange e he)
  have hnonpos := cut_nonpos g.edges K hnn
    (fun u hu e he h1 h2 => hKcl u hu e he h1 h2)
  have hexc1 : excL g.edges 1 = 0 := by
    rw [hvsum] at hcut
    omega
  have htot := sum_excL_range g.edges g.V (fun e he => hrange e he)
  have hallbutV : (∑ x in Finset.range (g.V + 1), excL g.edges x) =
      excL g.edges g.V := by
    rw [Finset.sum_eq_single_of_mem g.V (Finset.mem_range.mpr (by omega))]
    intro b hb hne
    by_cases hb1 : b = 1
    · rw [hb1]
      exact hexc1
    · exact hcons b hb1 hne
  have hexcV : excL g.edges g.V = 0 := by
    rw [htot] at hallbutV
    omega
  intro x
  by_cases hx1 : x = 1
  · rw [hx1]
    exact hexc1
  · by_cases hxV : x = g.V
    · rw [hxV]
      exact hexcV
    · exact hcons x hx1 hxV

theorem findCycle_none_zero (g : Graph) (hpnd : pairsNodup g)
    (hnn : flowsNonneg g) (hrange : endpointsInRange g)
    (hcirc : ∀ x, excL g.edges x = 0) (hfc : findCycle g = none) :
    ∀ e ∈ g.edges, e.2.2 = 0 := by
  intro e he
  by_contra hne0
  have hpos : 0 < e.2.2 := lt_of_le_of_ne (hnn e he) (Ne.symm hne0)
  obtain ⟨hr1, hr2, hr3, hr4⟩ := hrange e he
  rcases findCycle_none_elim g hfc e he hr1 hr2 hpos with
    hnone | ⟨bnodes, m, hsome, hm⟩
  · obtain ⟨K, hvK, huK, -, hKcl⟩ :=
      findPathBack_none_elim g e.2.1 e.1 e.2.2 hnone
    have hcut := vsum_eq_cut g.edges K g.V (fun e2 he2 => hrange e2 he2)
    have hvsum0 : (∑ x in Finset.range (g.V + 1),
        if x ∈ K then excL g.edges x else 0) = 0 := by
      refine Finset.sum_eq_zero ?_
      intro x _
      by_cases hk : x ∈ K
      · rw [if_pos hk, hcirc x]
      · rw [if_neg hk]
    have hstrict := cut_strict g.edges K hnn
      (fun u hu e2 he2 h1 h2 => hKcl u hu e2 he2 h1 h2) e he huK hvK
    rw [hvsum0] at hcut
    omega
  · obtain ⟨-, -, -, -, hbedges, -, hminor, -⟩ :=
      findPathBack_some_elim g e.2.1 e.1 e.2.2 bnodes m hsome
    rcases hminor with heqf | ⟨pr, hpr, hprf⟩
    · omega
    · obtain ⟨fp, hfpm, hfppos⟩ := hbedges pr hpr
      have hfl := firstEdgeFlow_of_nodup _ _ _ _ hpnd hfpm
      rw [hprf] at hfl
      have hmfp : m = fp := Option.some.inj hfl
      omega

/-! # Lemmas: the merged original flow and dictionary extensionality -/

theorem mergeFold_of_disjoint (es : List Edge) :
    ∀ acc : List ((ℕ × ℕ) × ℤ),
    (∀ e ∈ es, (e.1, e.2.1) ∉ acc.map (fun kv => kv.1)) →
    (es.map (fun e => (e.1, e.2.1))).Nodup →
    es.foldl (fun acc e => mergeInto acc (e.1, e.2.1) e.2.2) acc =
      acc ++ es.map (fun e => ((e.1, e.2.1), e.2.2)) := by
  induction es with
  | nil =>
    intro acc _ _
    simp
  | cons e rest ih =>
    intro acc hdisj hnd
    rw [List.map_cons, List.nodup_cons] at hnd
    rw [List.foldl_cons]
    have hkey : ¬ hasKey acc (e.1, e.2.1) = true := by
      rw [hasKey_iff]
      exact hdisj e (List.mem_cons_self _ _)
    have hmi : mergeInto acc (e.1, e.2.1) e.2.2 =
        acc ++ [((e.1, e.2.1), e.2.2)] := by
      rw [mergeInto, if_neg hkey]
    have hdisj2 : ∀ e2 ∈ rest, (e2.1, e2.2.1) ∉
        (acc ++ [((e.1, e.2.1), e.2.2)]).map (fun kv => kv.1) := by
      intro e2 he2 hcon
      rw [List.map_append, List.mem_append] at hcon
      rcases hcon with hina | hinb
      · exact hdisj e2 (List.mem_cons_of_mem _ he2) hina
      · have hpair : (e2.1, e2.2.1) ∈ rest.map (fun e => (e.1, e.2.1)) :=
          List.mem_map.mpr ⟨e2, he2, rfl⟩
        have heq : (e2.1, e2.2.1) = (e.1, e.2.1) := by simpa using hinb
        rw [heq] at hpair
        exact hnd.1 hpair
    rw [hmi, ih (acc ++ [((e.1, e.2.1), e.2.2)]) hdisj2 hnd.2]
    simp

theorem mergeEdges_of_nodup (es : List Edge)
    (hnd : (es.map (fun e => (e.1, e.2.1))).Nodup) :
    mergeEdges es = es.map (fun e => ((e.1, e.2.1), e.2.2)) := by
  rw [mergeEdges, mergeFold_of_disjoint es [] (by simp) hnd]
  simp

theorem alookup_mapEdges (es : List Edge) (u v : ℕ) :
    alookup (u, v) (es.map (fun e => ((e.1, e.2.1), e.2.2))) =
      firstEdgeFlow es u v := by
  induction es with
  | nil => rfl
  | cons e rest ih =>
    rw [List.map_cons, alookup_cons, firstEdgeFlow_cons]
    by_cases hc : e.1 = u ∧ e.2.1 = v
    · have hc2 : (((e.1, e.2.1), e.2.2) : (ℕ × ℕ) × ℤ).1 = (u, v) := by
        show (e.1, e.2.1) = (u, v)
        rw [hc.1, hc.2]
      rw [if_pos hc2, if_pos hc]
    · have hc2 : ¬((((e.1, e.2.1), e.2.2) : (ℕ × ℕ) × ℤ).1 = (u, v)) := by
        intro hcon
        rw [Prod.mk.injEq] at hcon
        exact hc hcon
      rw [if_neg hc2, if_neg hc]
      exact ih

theorem alookup_calcZero (orig : List ((ℕ × ℕ) × ℤ)) (k : ℕ × ℕ) :
    alookup k (orig.map (fun kv => (kv.1, (0 : ℤ)))) =
      (alookup k orig).map (fun _ => 0) := by
  induction orig with
  | nil => rfl
  | cons kv rest ih =>
    rw [List.map_cons, alookup_cons, alookup_cons]
    by_cases hc : kv.1 = k
    · rw [if_pos hc, if_pos hc]
      rfl
    · rw [if_neg hc, if_neg hc, ih]

theorem accounts_init (g : Graph) (hpnd : pairsNodup g) :
    accounts (mergeEdges g.edges)
      ((mergeEdges g.edges).map (fun kv => (kv.1, (0 : ℤ)))) g := by
  intro u v
  rw [alookup_calcZero, mergeEdges_of_nodup g.edges hpnd, alookup_mapEdges]
  rcases h : firstEdgeFlow g.edges u v with _ | f <;> simp

theorem calAligned_init (g : Graph) (hpnd : pairsNodup g) :
    calAligned ((mergeEdges g.edges).map (fun kv => (kv.1, (0 : ℤ)))) g := by
  intro u v f hf
  rw [calcZero_keys, mergeEdges_of_nodup g.edges hpnd, List.map_map]
  have hmem := firstEdgeFlow_mem _ _ _ _ hf
  exact List.mem_map.mpr ⟨(u, v, f), hmem, rfl⟩

theorem assoc_ext : ∀ l1 l2 : List ((ℕ × ℕ) × ℤ),
    l1.map (fun kv => kv.1) = l2.map (fun kv => kv.1) →
    (l2.map (fun kv => kv.1)).Nodup →
    (∀ k, alookup k l1 = alookup k l2) → l1 = l2 := by
  intro l1
  induction l1 with
  | nil =>
    intro l2 hkeys _ _
    have : l2.map (fun kv => kv.1) = [] := hkeys.symm
    rw [List.map_eq_nil] at this
    rw [this]
  | cons kv t ih =>
    intro l2 hkeys hnd hval
    cases l2 with
    | nil =>
      rw [List.map_cons] at hkeys
      exact absurd hkeys (by simp)
    | cons kv2 t2 =>
      rw [List.map_cons, List.map_cons] at hkeys
      rw [List.map_cons] at hnd
      have hk1 : kv.1 = kv2.1 := (List.cons.injEq _ _ _ _).mp hkeys |>.1
      have hkt : t.map (fun kv => kv.1) = t2.map (fun kv => kv.1) :=
        (List.cons.injEq _ _ _ _).mp hkeys |>.2
      rw [List.nodup_cons] at hnd
      have hv1 := hval kv.1
      rw [alookup_cons, alookup_cons, if_pos rfl, if_pos hk1.symm] at hv1
      have hv2 : kv.2 = kv2.2 := Option.some.inj hv1
      have hkveq : kv = kv2 := Prod.ext hk1 hv2
      have hvalt : ∀ k, alookup k t = alookup k t2 := by
        intro k
        by_cases hkk : k = kv.1
        · have ht1 : alookup k t = none := by
            rw [alookup_eq_none_iff, hkt, hkk, hk1]
            exact hnd.1
          have ht2 : alookup k t2 = none := by
            rw [alookup_eq_none_iff, hkk, hk1]
            exact hnd.1
          rw [ht1, ht2]
        · have hv3 := hval k
          rw [alookup_cons, alookup_cons,
            if_neg (fun hc => hkk hc.symm),
            if_neg (fun hc => hkk (hk1.trans hc).symm)] at hv3
          exact hv3
      rw [hkveq, ih t2 hkt hnd.2 hvalt]

/-! # Lemmas: the iterated loop states of claim C2 -/

theorem forall2_edgeLE_refl (es : List Edge) : List.Forall₂ edgeLE es es := by
  induction es with
  | nil => exact List.Forall₂.nil
  | cons e rest ih => exact List.Forall₂.cons ⟨rfl, rfl, le_refl _⟩ ih

theorem forall2_edgeLE_trans (a b c : List Edge)
    (hab : List.Forall₂ edgeLE a b) (hbc : List.Forall₂ edgeLE b c) :
    List.Forall₂ edgeLE a c := by
  induction hab generalizing c with
  | nil =>
    cases hbc
    exact List.Forall₂.nil
  | cons hrel hrest ih =>
    cases hbc with
    | cons hrel2 hrest2 =>
      exact List.Forall₂.cons
        ⟨hrel.1.trans hrel2.1, hrel.2.1.trans hrel2.2.1,
          hrel.2.2.trans hrel2.2.2⟩ (ih _ hrest2)

theorem updateFirst_edgeLE (es : List Edge) (u v : ℕ) (w : ℤ) (hw : 0 ≤ w) :
    List.Forall₂ edgeLE (updateFirst es u v w) es := by
  induction es with
  | nil => exact List.Forall₂.nil
  | cons e rest ih =>
    rw [updateFirst_cons]
    by_cases hc : e.1 = u ∧ e.2.1 = v
    · rw [if_pos hc]
      refine List.Forall₂.cons ⟨rfl, rfl, ?_⟩ (forall2_edgeLE_refl rest)
      show e.2.2 - w ≤ e.2.2
      omega
    · rw [if_neg hc]
      exact List.Forall₂.cons ⟨rfl, rfl, le_refl _⟩ ih

theorem foldUpd_edgeLE (prs : List (ℕ × ℕ)) (es : List Edge) (w : ℤ)
    (hw : 0 ≤ w) :
    List.Forall₂ edgeLE
      (prs.foldl (fun es2 pr => updateFirst es2 pr.1 pr.2 w) es) es := by
  induction prs generalizing es with
  | nil => exact forall2_edgeLE_refl es
  | cons pr prs ih =>
    rw [List.foldl_cons]
    exact forall2_edgeLE_trans _ _ _ (ih (updateFirst es pr.1 pr.2 w))
      (updateFirst_edgeLE es pr.1 pr.2 w hw)

theorem pathIterOnce_inv (g : Graph) (hpnd : pairsNodup g)
    (hnn : flowsNonneg g) :
    pairsNodup (pathIterOnce g) ∧ flowsNonneg (pathIterOnce g) ∧
    List.Forall₂ edgeLE (pathIterOnce g).edges g.edges := by
  rcases hstep : pathStep g with _ | _ | ⟨r, g2⟩
  · have he : pathIterOnce g = g := by
      unfold pathIterOnce
      rw [hstep]
    rw [he]
    exact ⟨hpnd, hnn, forall2_edgeLE_refl g.edges⟩
  · have he : pathIterOnce g = g := by
      unfold pathIterOnce
      rw [hstep]
    rw [he]
    exact ⟨hpnd, hnn, forall2_edgeLE_refl g.edges⟩
  · have he : pathIterOnce g = g2 := by
      unfold pathIterOnce
      rw [hstep]
    obtain ⟨w, nodes⟩ := r
    obtain ⟨hg2, hw1, -, -, -, -, hpnds, -, hflows⟩ :=
      pathStep_next_elim g w nodes g2 hpnd hstep
    have hfl2 : ∀ pr ∈ walkPairs nodes,
        ∃ f, firstEdgeFlow g.edges pr.1 pr.2 = some f ∧ w ≤ f :=
      fun pr hpr => (hflows pr hpr).imp (fun f hf => ⟨hf.1, hf.2.1⟩)
    rw [he, hg2]
    refine ⟨pairsNodup_subtract g _ w hpnd,
      flowsNonneg_subtract g _ w hpnd hnn hpnds hfl2, ?_⟩
    rw [subtractPairs_edges]
    exact foldUpd_edgeLE _ g.edges w (by omega)

theorem cycleIterOnce_inv (g : Graph) (hpnd : pairsNodup g)
    (hnn : flowsNonneg g) :
    pairsNodup (cycleIterOnce g) ∧ flowsNonneg (cycleIterOnce g) ∧
    List.Forall₂ edgeLE (cycleIterOnce g).edges g.edges := by
  rcases hstep : cycleStep g with _ | ⟨⟨w, ser⟩, g2⟩
  · have he : cycleIterOnce g = g := by
      unfold cycleIterOnce
      rw [hstep]
    rw [he]
    exact ⟨hpnd, hnn, forall2_edgeLE_refl g.edges⟩
  · have he : cycleIterOnce g = g2 := by
      unfold cycleIterOnce
      rw [hstep]
    obtain ⟨nodes, -, hg2, hw1, -, -, -, hprnd, -, -, -, hflows⟩ :=
      cycleStep_some_elim g w ser g2 hpnd hstep
    have hfl2 : ∀ pr ∈ wrapPairs nodes,
        ∃ f, firstEdgeFlow g.edges pr.1 pr.2 = some f ∧ w ≤ f :=
      fun pr hpr => (hflows pr hpr).imp (fun f hf => ⟨hf.1, hf.2.1⟩)
    rw [he, hg2]
    refine ⟨pairsNodup_subtract g _ w hpnd,
      flowsNonneg_subtract g _ w hpnd hnn hprnd hfl2, ?_⟩
    rw [subtractPairs_edges]
    exact foldUpd_edgeLE _ g.edges w (by omega)

theorem pathIter_inv : ∀ (k : ℕ) (g : Graph), pairsNodup g → flowsNonneg g →
    pairsNodup (pathIter k g) ∧ flowsNonneg (pathIter k g) := by
  intro k
  induction k with
  | zero => exact fun g hpnd hnn => ⟨hpnd, hnn⟩
  | succ k ih =>
    intro g hpnd hnn
    obtain ⟨h1, h2, -⟩ := pathIterOnce_inv g hpnd hnn
    exact ih (pathIterOnce g) h1 h2

theorem cycleIter_inv : ∀ (j : ℕ) (g : Graph), pairsNodup g → flowsNonneg g →
    pairsNodup (cycleIter j g) ∧ flowsNonneg (cycleIter j g) := by
  intro j
  induction j with
  | zero => exact fun g hpnd hnn => ⟨hpnd, hnn⟩
  | succ j ih =>
    intro g hpnd hnn
    obtain ⟨h1, h2, -⟩ := cycleIterOnce_inv g hpnd hnn
    exact ih (cycleIterOnce g) h1 h2

theorem pathIter_succ_comm : ∀ (k : ℕ) (g : Graph),
    pathIter k (pathIterOnce g) = pathIterOnce (pathIter k g) := by
  intro k
  induction k with
  | zero => exact fun g => rfl
  | succ k ih =>
    intro g
    show pathIter k (pathIterOnce (pathIterOnce g)) =
      pathIterOnce (pathIter k (pathIterOnce g))
    exact ih (pathIterOnce g)

theorem cycleIter_succ_comm : ∀ (j : ℕ) (g : Graph),
    cycleIter j (cycleIterOnce g) = cycleIterOnce (cycleIter j g) := by
  intro j
  induction j with
  | zero => exact fun g => rfl
  | succ j ih =>
    intro g
    show cycleIter j (cycleIterOnce (cycleIterOnce g)) =
      cycleIterOnce (cycleIter j (cycleIterOnce g))
    exact ih (cycleIterOnce g)

/-! # Lemmas: every recorded path is a BFS chain -/

theorem pathStep_next_nodup (g : Graph) (r : ℤ × List ℕ) (g2 : Graph)
    (h : pathStep g = PathStep.next r g2) : r.2.Nodup := by
  unfold pathStep at h
  split at h
  · exact PathStep.noConfusion h
  · exact PathStep.noConfusion h
  · rename_i nodes w heq
    by_cases hw0 : w = 0
    · rw [if_pos hw0] at h
      exact PathStep.noConfusion h
    · rw [if_neg hw0] at h
      rw [PathStep.next.injEq] at h
      obtain ⟨hr, -⟩ := h
      obtain ⟨-, -, -, hnd, -, -, -⟩ := findPath_some_elim g nodes (some w) heq
      rw [← hr]
      exact hnd

theorem pathPhase_nodup_aux (fuel : ℕ) :
    ∀ (g : Graph) (acc P : List (ℤ × List ℕ)) (g1 : Graph) (d : Bool),
    (∀ r ∈ acc, (r.2 : List ℕ).Nodup) →
    pathPhase fuel g acc = some (P, g1, d) →
    ∀ r ∈ P, (r.2 : List ℕ).Nodup := by
  induction fuel with
  | zero =>
    intro g acc P g1 d hacc h
    have h2 : some (acc, g, false) = some (P, g1, d) := h
    simp only [Option.some_inj, Prod.mk.injEq] at h2
    rw [← h2.1]
    exact hacc
  | succ fuel ih =>
    intro g acc P g1 d hacc h
    rcases hstep : pathStep g with _ | _ | ⟨r, g2⟩
    · have h2 : some (acc, g, true) = some (P, g1, d) := by
        rw [← h]
        simp [pathPhase, hstep]
      simp only [Option.some_inj, Prod.mk.injEq] at h2
      rw [← h2.1]
      exact hacc
    · have h2 : (none : Option (List (ℤ × List ℕ) × Graph × Bool)) =
          some (P, g1, d) := by
        rw [← h]
        simp [pathPhase, hstep]
      exact Option.noConfusion h2
    · have h2 : pathPhase fuel g2 (acc ++ [r]) = some (P, g1, d) := by
        rw [← h]
        simp [pathPhase, hstep]
      have hacc2 : ∀ r2 ∈ acc ++ [r], (r2.2 : List ℕ).Nodup := by
        intro r2 hr2
        rcases List.mem_append.mp hr2 with hina | hinb
        · exact hacc r2 hina
        · have : r2 = r := by simpa using hinb
          rw [this]
          exact pathStep_next_nodup g r g2 hstep
      exact ih g2 (acc ++ [r]) P g1 d hacc2 h2

/-! # Counterexamples for the decomposition claims -/

/-- C1 (counterexample): on the network with the single edge 2 to 1
carrying 5 (conservation holds at every internal vertex, vacuously),
decompose_flow reaches fixpoint with no paths and no cycles, and the
verifier's reconstruction of the empty decomposition is 0 on edge (2, 1),
not the original 5. -/
theorem c1_counterexample :
    conservedInternal cxBackEdge ∧
    decomposeFlow cxBackEdge = some ([], [], cxBackEdge, true, true) ∧
    calcFlowAll (mergeEdges cxBackEdge.edges) [] [] ≠
      mergeEdges cxBackEdge.edges := by
  refine ⟨?_, by decide, by decide⟩
  intro x h1 h2
  have hx2 : ¬(2 = x) := fun e => h2 e.symm
  have hx1 : ¬(1 = x) := fun e => h1 e.symm
  simp [excL, outL, inL, cxBackEdge, hx1, hx2]

/-- C2 (counterexample): with parallel (1, 2) edges the cycle loop
subtracts from the first copy even when the cycle was found through the
second, driving a residual to minus 5 after the path phase has already
reached its fixpoint. -/
theorem c2_counterexample :
    pathIter 1 cxParallelCycle = cxParallelCycle ∧
    (cycleIter 1 (pathIter 1 cxParallelCycle)).edges =
      [(1, 2, -5), (1, 2, 5), (2, 1, 0)] ∧
    ¬ flowsNonneg (cycleIter 1 (pathIter 1 cxParallelCycle)) := by
  refine ⟨by decide, by decide, ?_⟩
  intro hnn
  have hx := hnn (1, 2, -5) (by decide)
  exact absurd hx (by decide)

/-- C3 (counterexample): with parallel (1, 2) edges whose first copy has
flow 0, find_path returns the walk 1, 2 with weight 0, not a weight of at
least 1. -/
theorem c3_counterexample :
    findPath cxParallelPath = some ([1, 2], some 0) ∧ ¬ (1 ≤ (0 : ℤ)) := by
  decide

/-- C6 (counterexample): a parallel self-loop within all fixture bounds on
which the cycle loop is still running after totalFlow + 1 iterations (the
final flag false), each iteration extracting weight 5 while the scanned
positive copy is never decremented: the claimed iteration bound (and
termination) fails. -/
theorem c6_counterexample :
    cxSelfLoop.V ≤ 50 ∧ cxSelfLoop.edges.length ≤ 100 ∧
    (∀ e ∈ cxSelfLoop.edges, e.2.2 ≤ 1000) ∧
    totalFlow cxSelfLoop = 5 ∧
    decomposeFlow cxSelfLoop = some ([],
      [((5 : ℤ), [2, 2]), (5, [2, 2]), (5, [2, 2]), (5, [2, 2]), (5, [2, 2]),
        (5, [2, 2])],
      ⟨2, [(2, 2, -30), (2, 2, 5)]⟩, true, false) := by decide

/-! # The decomposition claims, as amended -/

/-- C1 (amended): on a network with at least two vertices, no parallel
(u, v) edges, nonnegative flows, endpoints inside 1..V, conservation at
every internal vertex and no flow entering the source, decompose_flow
reaches both of its natural breaks and the verifier's reconstruction rule
applied to the produced paths and cycles returns exactly the original
merged per-edge flow. -/
theorem c1_roundtrip (g : Graph) (hV : 2 ≤ g.V) (hpnd : pairsNodup g)
    (hnn : flowsNonneg g) (hrange : endpointsInRange g)
    (hcons : conservedInternal g) (hsrc : noFlowIntoSource g) :
    ∃ P C gend, decomposeFlow g = some (P, C, gend, true, true) ∧
      calcFlowAll (mergeEdges g.edges) P C = mergeEdges g.edges := by
  have hacc0 := accounts_init g hpnd
  have hal0 := calAligned_init g hpnd
  obtain ⟨P1, g1, d1, hrun1, hV1, hpnd1, hnn1, hacc1, hal1, htot1, -, hfuel1,
      hdone1, hrange1, hsrc1, -, hexc1⟩ :=
    pathPhase_spec (decompFuel g) g [] (mergeEdges g.edges)
      ((mergeEdges g.edges).map (fun kv => (kv.1, (0 : ℤ)))) hV hpnd hnn
      hacc0 hal0
  have h0 := totalFlow_nonneg g hnn
  have hd1 : d1 = true := by
    apply hfuel1
    rw [decompFuel]
    push_cast
    omega
  subst hd1
  have hfp1 : findPath g1 = none := hdone1 rfl
  have hV1' : 2 ≤ g1.V := by
    rw [hV1]
    exact hV
  have hcons1 : conservedInternal g1 := by
    intro x hx1 hxV
    rw [hV1] at hxV
    rw [hexc1 x hx1 hxV]
    exact hcons x hx1 hxV
  have hcirc1 : ∀ x, excL g1.edges x = 0 :=
    findPath_none_circulation g1 hV1' hnn1 (hrange1 hrange) hcons1
      (hsrc1 hsrc) hfp1
  obtain ⟨C1, g2, d2, hrun2, hV2, hpnd2, hnn2, hacc2, hal2, htot2, -, hfuel2,
      hdone2, hrange2, -, -, hexc2⟩ :=
    cyclePhase_spec (decompFuel g) g1 [] (mergeEdges g.edges)
      (recordFold P1 ((mergeEdges g.edges).map (fun kv => (kv.1, (0 : ℤ)))))
      hpnd1 hnn1 hacc1 hal1
  have hg1nn := totalFlow_nonneg g1 hnn1
  have hd2 : d2 = true := by
    apply hfuel2
    rw [decompFuel]
    have hl : (0 : ℤ) ≤ (P1.length : ℤ) := by positivity
    push_cast
    omega
  subst hd2
  have hfc2 : findCycle g2 = none := hdone2 rfl
  have hcirc2 : ∀ x, excL g2.edges x = 0 := fun x => by
    rw [hexc2 x]
    exact hcirc1 x
  have hzero : ∀ e ∈ g2.edges, e.2.2 = 0 :=
    findCycle_none_zero g2 hpnd2 hnn2 (hrange2 (hrange1 hrange)) hcirc2 hfc2
  rw [List.nil_append] at hrun1 hrun2
  have hdec : decomposeFlow g = some (P1, C1, g2, true, true) := by
    simp [decomposeFlow, hrun1, hrun2]
  have hg2flow : ∀ u v : ℕ, (firstEdgeFlow g2.edges u v).getD 0 = 0 := by
    intro u v
    rcases hf : firstEdgeFlow g2.edges u v with _ | f
    · rfl
    · have hf0 : f = 0 := hzero _ (firstEdgeFlow_mem _ _ _ _ hf)
      simp [hf0]
  have hgetD : ∀ u v : ℕ,
      (alookup (u, v) (recordFold C1 (recordFold P1
        ((mergeEdges g.edges).map (fun kv => (kv.1, (0 : ℤ))))))).getD 0 =
      (alookup (u, v) (mergeEdges g.edges)).getD 0 := by
    intro u v
    have hav := hacc2 u v
    rw [hg2flow u v] at hav
    omega
  have hkeys1 : (recordFold C1 (recordFold P1
      ((mergeEdges g.edges).map (fun kv => (kv.1, (0 : ℤ)))))).map
        (fun kv => kv.1) =
      (mergeEdges g.edges).map (fun kv => kv.1) := by
    rw [recordFold_keys, recordFold_keys, calcZero_keys]
  have hknd : ((mergeEdges g.edges).map (fun kv => kv.1)).Nodup := by
    rw [mergeEdges_of_nodup g.edges hpnd, List.map_map]
    exact hpnd
  have hall : ∀ k, alookup k (recordFold C1 (recordFold P1
      ((mergeEdges g.edges).map (fun kv => (kv.1, (0 : ℤ)))))) =
      alookup k (mergeEdges g.edges) := by
    intro k
    obtain ⟨u, v⟩ := k
    by_cases hk : (u, v) ∈ (mergeEdges g.edges).map (fun kv => kv.1)
    · have h1 : alookup (u, v) (recordFold C1 (recordFold P1
          ((mergeEdges g.edges).map (fun kv => (kv.1, (0 : ℤ)))))) ≠ none :=
        fun hc => ((alookup_eq_none_iff _ _).mp hc) (by rw [hkeys1]; exact hk)
      have h2 : alookup (u, v) (mergeEdges g.edges) ≠ none :=
        fun hc => ((alookup_eq_none_iff _ _).mp hc) hk
      obtain ⟨a, ha⟩ := Option.ne_none_iff_exists.mp h1
      obtain ⟨b, hb⟩ := Option.ne_none_iff_exists.mp h2
      have hv := hgetD u v
      rw [← ha, ← hb] at hv
      simp only [Option.getD_some] at hv
      rw [← ha, ← hb, hv]
    · have h1 : alookup (u, v) (recordFold C1 (recordFold P1
          ((mergeEdges g.edges).map (fun kv => (kv.1, (0 : ℤ)))))) = none :=
        (alookup_eq_none_iff _ _).mpr (by rw [hkeys1]; exact hk)
      have h2 : alookup (u, v) (mergeEdges g.edges) = none :=
        (alookup_eq_none_iff _ _).mpr hk
      rw [h1, h2]
  have hfinal := assoc_ext _ _ hkeys1 hknd hall
  refine ⟨P1, C1, g2, hdec, ?_⟩
  show recordFold (P1 ++ C1)
    ((mergeEdges g.edges).map (fun kv => (kv.1, (0 : ℤ)))) = mergeEdges g.edges
  rw [recordFold_append]
  exact hfinal

/-- C1 (witness): the two-edge line network 1 to 2 to 3 with flow 5
satisfies every hypothesis, and the round trip holds on it. -/
theorem c1_witness :
    ∃ P C gend, decomposeFlow exLine = some (P, C, gend, true, true) ∧
      calcFlowAll (mergeEdges exLine.edges) P C = mergeEdges exLine.edges :=
  c1_roundtrip exLine (by decide) (by decide) (by decide) (by decide)
    (conservedInternal_of_forall_le exLine (by decide) (by decide))
    (by decide)

/-- C2 (amended): on networks without parallel (u, v) edges and with
nonnegative initial flows, every state reached by the two loops of
decompose_flow keeps every residual nonnegative, and one further iteration
of either loop keeps every residual cell's endpoints and never increases
its value. -/
theorem c2_residuals (g : Graph) (hpnd : pairsNodup g) (hnn : flowsNonneg g)
    (k j : ℕ) :
    flowsNonneg (cycleIter j (pathIter k g)) ∧
    List.Forall₂ edgeLE (pathIter (k + 1) g).edges (pathIter k g).edges ∧
    List.Forall₂ edgeLE (cycleIter (j + 1) (pathIter k g)).edges
      (cycleIter j (pathIter k g)).edges := by
  obtain ⟨hpk, hnk⟩ := pathIter_inv k g hpnd hnn
  obtain ⟨hpc, hnc⟩ := cycleIter_inv j (pathIter k g) hpk hnk
  refine ⟨hnc, ?_, ?_⟩
  · have heq : pathIter (k + 1) g = pathIterOnce (pathIter k g) :=
      pathIter_succ_comm k g
    rw [heq]
    exact (pathIterOnce_inv (pathIter k g) hpk hnk).2.2
  · have heq : cycleIter (j + 1) (pathIter k g) =
        cycleIterOnce (cycleIter j (pathIter k g)) :=
      cycleIter_succ_comm j (pathIter k g)
    rw [heq]
    exact (cycleIterOnce_inv (cycleIter j (pathIter k g)) hpc hnc).2.2

/-- C2 (witness): the invariant at the state after one path iteration of
the line network. -/
theorem c2_witness :
    pairsNodup exLine ∧ flowsNonneg exLine ∧
    (flowsNonneg (cycleIter 0 (pathIter 1 exLine)) ∧
      List.Forall₂ edgeLE (pathIter 2 exLine).edges
        (pathIter 1 exLine).edges ∧
      List.Forall₂ edgeLE (cycleIter 1 (pathIter 1 exLine)).edges
        (cycleIter 0 (pathIter 1 exLine)).edges) :=
  ⟨by decide, by decide, c2_residuals exLine (by decide) (by decide) 1 0⟩

/-- C3 (amended): on a graph without parallel (u, v) edges, whenever
find_path returns a walk with a finite weight, that weight is at least
1. -/
theorem c3_weight_positive (g : Graph) (nodes : List ℕ) (w : ℤ)
    (hpnd : pairsNodup g) (h : findPath g = some (nodes, some w)) :
    1 ≤ w := by
  obtain ⟨-, -, -, -, hedges, -, hmin⟩ := findPath_some_elim g nodes (some w) h
  obtain ⟨⟨pr, hpr, hprf⟩, -⟩ := hmin w rfl
  obtain ⟨f, hf, hfpos⟩ := hedges pr hpr
  have hfl : firstEdgeFlow g.edges pr.1 pr.2 = some f :=
    firstEdgeFlow_of_nodup _ _ _ _ hpnd hf
  rw [hprf] at hfl
  have hwf : w = f := Option.some.inj hfl
  omega

/-- C3 (witness): find_path on the line network returns weight 5. -/
theorem c3_witness :
    pairsNodup exLine ∧ findPath exLine = some ([1, 2, 3], some 5) ∧
      1 ≤ (5 : ℤ) :=
  ⟨by decide, by decide,
    c3_weight_positive exLine [1, 2, 3] 5 (by decide) (by decide)⟩

/-- C6 (amended): within the declared fixture bounds, on networks with at
least two vertices, no parallel (u, v) edges and nonnegative flows,
decompose_flow terminates with both loops reaching their natural break,
and the number of iterations of each phase (its recorded paths,
respectively cycles) is bounded by the total original flow. -/
theorem c6_termination (g : Graph) (hVlo : 2 ≤ g.V) (hVhi : g.V ≤ 50)
    (hE : g.edges.length ≤ 100) (hF : ∀ e ∈ g.edges, e.2.2 ≤ 1000)
    (hpnd : pairsNodup g) (hnn : flowsNonneg g) :
    ∃ P C gend, decomposeFlow g = some (P, C, gend, true, true) ∧
      (P.length : ℤ) ≤ totalFlow g ∧ (C.length : ℤ) ≤ totalFlow g := by
  have hacc0 := accounts_init g hpnd
  have hal0 := calAligned_init g hpnd
  obtain ⟨P1, g1, d1, hrun1, -, hpnd1, hnn1, hacc1, hal1, htot1, -, hfuel1,
      -, -, -, -, -⟩ :=
    pathPhase_spec (decompFuel g) g [] (mergeEdges g.edges)
      ((mergeEdges g.edges).map (fun kv => (kv.1, (0 : ℤ)))) hVlo hpnd hnn
      hacc0 hal0
  have h0 := totalFlow_nonneg g hnn
  have hd1 : d1 = true := by
    apply hfuel1
    rw [decompFuel]
    push_cast
    omega
  subst hd1
  obtain ⟨C1, g2, d2, hrun2, -, -, hnn2, -, -, htot2, -, hfuel2, -, -, -, -,
      -⟩ :=
    cyclePhase_spec (decompFuel g) g1 [] (mergeEdges g.edges)
      (recordFold P1 ((mergeEdges g.edges).map (fun kv => (kv.1, (0 : ℤ)))))
      hpnd1 hnn1 hacc1 hal1
  have hg1nn := totalFlow_nonneg g1 hnn1
  have hg2nn := totalFlow_nonneg g2 hnn2
  have hd2 : d2 = true := by
    apply hfuel2
    rw [decompFuel]
    have hl : (0 : ℤ) ≤ (P1.length : ℤ) := by positivity
    push_cast
    omega
  subst hd2
  rw [List.nil_append] at hrun1 hrun2
  have hdec : decomposeFlow g = some (P1, C1, g2, true, true) := by
    simp [decomposeFlow, hrun1, hrun2]
  refine ⟨P1, C1, g2, hdec, ?_, ?_⟩
  · omega
  · omega

/-- C6 (witness): the bounds and the conclusion on the line network. -/
theorem c6_witness :
    ∃ P C gend, decomposeFlow exLine = some (P, C, gend, true, true) ∧
      (P.length : ℤ) ≤ totalFlow exLine ∧
      (C.length : ℤ) ≤ totalFlow exLine :=
  c6_termination exLine (by decide) (by decide) (by decide) (by decide)
    (by decide) (by decide)

/-- C10: every path record produced by the path phase of decompose_flow
has a vertex list without repetition (each vertex receives at most one
parent in the breadth-first search, so the reconstructed source-to-sink
walk is a simple path), on every input network, for every fuel and at
every iteration. -/
theorem c10_paths_elementary (g : Graph) (fuel : ℕ)
    (P : List (ℤ × List ℕ)) (g1 : Graph) (d : Bool)
    (h : pathPhase fuel g [] = some (P, g1, d)) :
    ∀ r ∈ P, (r.2 : List ℕ).Nodup :=
  pathPhase_nodup_aux fuel g [] P g1 d
    (fun r hr => absurd hr (by simp)) h

/-- C10 (witness): the single path extracted from the line network is
elementary. -/
theorem c10_witness :
    pathPhase 11 exLine [] =
      some ([((5 : ℤ), [1, 2, 3])], ⟨3, [(1, 2, 0), (2, 3, 0)]⟩, true) ∧
    ∀ r ∈ [((5 : ℤ), [1, 2, 3])], (r.2 : List ℕ).Nodup :=
  ⟨by decide, c10_paths_elementary exLine 11 [((5 : ℤ), [1, 2, 3])]
    ⟨3, [(1, 2, 0), (2, 3, 0)]⟩ true (by decide)⟩

end FlowDecomp
